import Mathlib

/-!
Verification development for the pucoti repository's configuration subsystem
(`src/base_config.py`) and presence server (`src/server.py`).

The Python code declares configuration schemas as frozen dataclasses whose
fields are primitives (`str`, `int`, `float`, `bool`, `Path`), fixed-arity
tuples, homogeneous lists, or nested dataclasses, each field optionally
annotated (via `typing.Annotated`) with a documentation string and carrying a
default value.  Following the spec's design note, the runtime-reflection
schema walking is embedded as an explicit schema description value
(`Ty` / `RecordSchema` / `FieldSchema`), walked by ordinary recursive
functions.  `Val` is a fully-typed configuration tree (a dataclass instance),
`RawVal` is untyped nested data as produced by `yaml.safe_load`.

Modelling notes, applying throughout:
* Python `float` is modelled as an exact decimal `m / 10 ^ (e + 1)` (an
  integer mantissa with `e + 1` fractional digits).  CPython's `repr` of a
  float round-trips exactly and always prints at least one fractional digit,
  which this representation mirrors; IEEE rounding itself is not modelled and
  no claim depends on it.
* Python `Path` values are modelled as their string form, without pathname
  normalisation (no claim depends on normalisation).
* Errors are modelled as `Except String`, carrying the message text the
  Python code builds in its `raise ValueError(f"...")` statements; exceptions
  raised by CPython builtins themselves (e.g. `int("xyz")`) are modelled with
  the corresponding CPython message text.
-/

namespace Pucoti

mutual

/-- Declared type of a configuration field: the subset of type hints that
`base_config.Config` supports (`str`, `int`, `float`, `Path`, `bool`,
`tuple[...]`, `list[...]`, nested `Config` dataclasses). -/
inductive Ty : Type where
  | str : Ty
  | int : Ty
  | float : Ty
  | bool : Ty
  | path : Ty
  | tuple (elems : List Ty) : Ty
  | list (elem : Ty) : Ty
  | record (r : RecordSchema) : Ty

/-- Schema of one dataclass field: its name, the optional `Annotated`
documentation string, its declared type and its default value (the code
requires a default for every emitted field; fields without one raise at
yaml-generation time and never occur in the repository's configs). -/
inductive FieldSchema : Type where
  | mk (name : String) (desc : Option String) (ty : Ty) (dflt : Val) : FieldSchema

/-- Schema of a `Config` dataclass: its explicit docstring (`none` models a
class with no docstring of its own, whose auto-generated
`ClassName(...)` docstring the code suppresses) and its fields in
declaration order. -/
inductive RecordSchema : Type where
  | mk (doc : Option String) (fields : List FieldSchema) : RecordSchema

/-- A fully-typed configuration tree: an instance of a `Config` dataclass.
`float m e` denotes the exact decimal `m / 10 ^ (e + 1)`. -/
inductive Val : Type where
  | str (s : String) : Val
  | int (n : Int) : Val
  | float (m : Int) (e : Nat) : Val
  | bool (b : Bool) : Val
  | path (s : String) : Val
  | tuple (vs : List Val) : Val
  | list (vs : List Val) : Val
  | record (fields : List (String × Val)) : Val

end

end Pucoti

namespace Pucoti

def FieldSchema.name : FieldSchema → String
  | .mk n _ _ _ => n

def FieldSchema.desc : FieldSchema → Option String
  | .mk _ d _ _ => d

def FieldSchema.ty : FieldSchema → Ty
  | .mk _ _ t _ => t

def FieldSchema.dflt : FieldSchema → Val
  | .mk _ _ _ v => v

def RecordSchema.doc : RecordSchema → Option String
  | .mk d _ => d

def RecordSchema.fields : RecordSchema → List FieldSchema
  | .mk _ fs => fs

/-- Untyped nested data as returned by `yaml.safe_load`: scalars, `None`,
sequences and mappings (mappings keep yaml document order, as Python dicts
keep insertion order). -/
inductive RawVal : Type where
  | str (s : String) : RawVal
  | int (n : Int) : RawVal
  | float (m : Int) (e : Nat) : RawVal
  | bool (b : Bool) : RawVal
  | null : RawVal
  | list (xs : List RawVal) : RawVal
  | map (entries : List (String × RawVal)) : RawVal

mutual

def Val.beq : Val → Val → Bool
  | .str a, .str b => a == b
  | .int a, .int b => a == b
  | .float a b, .float c d => a == c && b == d
  | .bool a, .bool b => a == b
  | .path a, .path b => a == b
  | .tuple a, .tuple b => Val.beqList a b
  | .list a, .list b => Val.beqList a b
  | .record a, .record b => Val.beqFields a b
  | _, _ => false

def Val.beqList : List Val → List Val → Bool
  | [], [] => true
  | a :: as_, b :: bs => Val.beq a b && Val.beqList as_ bs
  | _, _ => false

def Val.beqFields : List (String × Val) → List (String × Val) → Bool
  | [], [] => true
  | (n, a) :: as_, (m, b) :: bs => n == m && Val.beq a b && Val.beqFields as_ bs
  | _, _ => false

end

mutual

def Val.beq_iff : ∀ a b : Val, Val.beq a b = true ↔ a = b
  | .str a, b => by cases b <;> simp [Val.beq]
  | .int a, b => by cases b <;> simp [Val.beq]
  | .float a e, b => by cases b <;> simp [Val.beq]
  | .bool a, b => by cases b <;> simp [Val.beq]
  | .path a, b => by cases b <;> simp [Val.beq]
  | .tuple a, .str s => by simp [Val.beq]
  | .tuple a, .int n => by simp [Val.beq]
  | .tuple a, .float m e => by simp [Val.beq]
  | .tuple a, .bool c => by simp [Val.beq]
  | .tuple a, .path s => by simp [Val.beq]
  | .tuple a, .tuple b => by
      simp only [Val.beq, Val.tuple.injEq]; exact Val.beqList_iff a b
  | .tuple a, .list b => by simp [Val.beq]
  | .tuple a, .record b => by simp [Val.beq]
  | .list a, .str s => by simp [Val.beq]
  | .list a, .int n => by simp [Val.beq]
  | .list a, .float m e => by simp [Val.beq]
  | .list a, .bool c => by simp [Val.beq]
  | .list a, .path s => by simp [Val.beq]
  | .list a, .tuple b => by simp [Val.beq]
  | .list a, .list b => by
      simp only [Val.beq, Val.list.injEq]; exact Val.beqList_iff a b
  | .list a, .record b => by simp [Val.beq]
  | .record a, .str s => by simp [Val.beq]
  | .record a, .int n => by simp [Val.beq]
  | .record a, .float m e => by simp [Val.beq]
  | .record a, .bool c => by simp [Val.beq]
  | .record a, .path s => by simp [Val.beq]
  | .record a, .tuple b => by simp [Val.beq]
  | .record a, .list b => by simp [Val.beq]
  | .record a, .record b => by
      simp only [Val.beq, Val.record.injEq]; exact Val.beqFields_iff a b

def Val.beqList_iff : ∀ a b : List Val, Val.beqList a b = true ↔ a = b
  | [], [] => by simp [Val.beqList]
  | [], b :: bs => by simp [Val.beqList]
  | a :: as_, [] => by simp [Val.beqList]
  | a :: as_, b :: bs => by
      simp only [Val.beqList, Bool.and_eq_true, List.cons.injEq]
      rw [Val.beq_iff a b, Val.beqList_iff as_ bs]

def Val.beqFields_iff : ∀ a b : List (String × Val), Val.beqFields a b = true ↔ a = b
  | [], [] => by simp [Val.beqFields]
  | [], b :: bs => by simp [Val.beqFields]
  | a :: as_, [] => by simp [Val.beqFields]
  | (n, a) :: as_, (m, b) :: bs => by
      simp only [Val.beqFields, Bool.and_eq_true, List.cons.injEq, Prod.mk.injEq]
      rw [Val.beq_iff a b, Val.beqFields_iff as_ bs, beq_iff_eq]

end

instance : DecidableEq Val := fun a b => decidable_of_iff _ (Val.beq_iff a b)

mutual

def RawVal.beq : RawVal → RawVal → Bool
  | .str a, .str b => a == b
  | .int a, .int b => a == b
  | .float a b, .float c d => a == c && b == d
  | .bool a, .bool b => a == b
  | .null, .null => true
  | .list a, .list b => RawVal.beqList a b
  | .map a, .map b => RawVal.beqMap a b
  | _, _ => false

def RawVal.beqList : List RawVal → List RawVal → Bool
  | [], [] => true
  | a :: as_, b :: bs => RawVal.beq a b && RawVal.beqList as_ bs
  | _, _ => false

def RawVal.beqMap : List (String × RawVal) → List (String × RawVal) → Bool
  | [], [] => true
  | (n, a) :: as_, (m, b) :: bs => n == m && RawVal.beq a b && RawVal.beqMap as_ bs
  | _, _ => false

end

mutual

def RawVal.beq_iff : ∀ a b : RawVal, RawVal.beq a b = true ↔ a = b
  | .str a, b => by cases b <;> simp [RawVal.beq]
  | .int a, b => by cases b <;> simp [RawVal.beq]
  | .float a e, b => by cases b <;> simp [RawVal.beq]
  | .bool a, b => by cases b <;> simp [RawVal.beq]
  | .null, b => by cases b <;> simp [RawVal.beq]
  | .list a, .str s => by simp [RawVal.beq]
  | .list a, .int n => by simp [RawVal.beq]
  | .list a, .float m e => by simp [RawVal.beq]
  | .list a, .bool c => by simp [RawVal.beq]
  | .list a, .null => by simp [RawVal.beq]
  | .list a, .list b => by
      simp only [RawVal.beq, RawVal.list.injEq]; exact RawVal.beqList_iff a b
  | .list a, .map b => by simp [RawVal.beq]
  | .map a, .str s => by simp [RawVal.beq]
  | .map a, .int n => by simp [RawVal.beq]
  | .map a, .float m e => by simp [RawVal.beq]
  | .map a, .bool c => by simp [RawVal.beq]
  | .map a, .null => by simp [RawVal.beq]
  | .map a, .list b => by simp [RawVal.beq]
  | .map a, .map b => by
      simp only [RawVal.beq, RawVal.map.injEq]; exact RawVal.beqMap_iff a b

def RawVal.beqList_iff : ∀ a b : List RawVal, RawVal.beqList a b = true ↔ a = b
  | [], [] => by simp [RawVal.beqList]
  | [], b :: bs => by simp [RawVal.beqList]
  | a :: as_, [] => by simp [RawVal.beqList]
  | a :: as_, b :: bs => by
      simp only [RawVal.beqList, Bool.and_eq_true, List.cons.injEq]
      rw [RawVal.beq_iff a b, RawVal.beqList_iff as_ bs]

def RawVal.beqMap_iff : ∀ a b : List (String × RawVal), RawVal.beqMap a b = true ↔ a = b
  | [], [] => by simp [RawVal.beqMap]
  | [], b :: bs => by simp [RawVal.beqMap]
  | a :: as_, [] => by simp [RawVal.beqMap]
  | (n, a) :: as_, (m, b) :: bs => by
      simp only [RawVal.beqMap, Bool.and_eq_true, List.cons.injEq, Prod.mk.injEq]
      rw [RawVal.beq_iff a b, RawVal.beqMap_iff as_ bs, beq_iff_eq]

end

instance : DecidableEq RawVal := fun a b => decidable_of_iff _ (RawVal.beq_iff a b)

/-- Association-list lookup in declaration order (Python `dict` access). -/
def lookupS {α : Type} : List (String × α) → String → Option α
  | [], _ => none
  | (k, v) :: rest, n => if k = n then some v else lookupS rest n

/-! Decimal digit machinery: the textual form of Python ints and floats as
emitted by `yaml.dump` (which uses `repr`) and as recognised by
`yaml.safe_load`'s scalar resolver. -/

def digitChar (d : Nat) : Char := Char.ofNat (48 + d)

def digitVal (c : Char) : Nat := c.toNat - 48

/-- Big-endian decimal digits of a natural number; `fuel ≥ n + 1` always
suffices. -/
def natReprAux : Nat → Nat → List Char
  | 0, _ => []
  | fuel + 1, n =>
      if n < 10 then [digitChar n]
      else natReprAux fuel (n / 10) ++ [digitChar (n % 10)]

def natRepr (n : Nat) : String := ⟨natReprAux (n + 1) n⟩

/-- Python `repr` of an int. -/
def intRepr (n : Int) : String := (if n < 0 then "-" else "") ++ natRepr n.natAbs

/-- Value of a big-endian digit string. -/
def natOfChars (cs : List Char) : Nat := cs.foldl (fun a c => 10 * a + digitVal c) 0

def padZeros (k : Nat) (cs : List Char) : List Char := List.replicate (k - cs.length) '0' ++ cs

/-- Python `repr` of the float `m / 10 ^ (e + 1)`: sign, integer part, dot,
then exactly `e + 1` fractional digits. -/
def floatRepr (m : Int) (e : Nat) : String :=
  let a := m.natAbs
  let ip := a / 10 ^ (e + 1)
  let fp := a % 10 ^ (e + 1)
  (if m < 0 then "-" else "") ++ natRepr ip ++ "." ++ ⟨padZeros (e + 1) (natReprAux (fp + 1) fp)⟩

/-- Strip one leading sign character. -/
def splitSign : List Char → Bool × List Char
  | [] => (false, [])
  | c :: rest =>
      if c = '-' then (true, rest)
      else if c = '+' then (false, rest)
      else (false, c :: rest)

/-- Integer literal recogniser (yaml / `int()` decimal subset: optional sign
then digits).  Leading zeros are read as decimal; PyYAML would read them as
octal, a divergence only reachable through hand-written documents that no
claim depends on.  Base prefixes, underscores and base-60 literals are not
modelled. -/
def lexIntCore (neg : Bool) (ds : List Char) : Option Int :=
  if ds ≠ [] ∧ ds.all Char.isDigit then
    some (if neg then -(natOfChars ds : Int) else (natOfChars ds : Int))
  else none

def lexInt (cs : List Char) : Option Int :=
  lexIntCore (splitSign cs).1 (splitSign cs).2

/-- Float literal recogniser (subset `[-+]?digits.digits`; exponent forms,
`.inf` and `.nan` are not modelled, and never emitted by the model). -/
def lexFloatCore (neg : Bool) (cs : List Char) : Option (Int × Nat) :=
  let ip := cs.takeWhile Char.isDigit
  match cs.drop ip.length with
  | '.' :: frac =>
      if ip ≠ [] ∧ frac ≠ [] ∧ frac.all Char.isDigit then
        let a := natOfChars ip * 10 ^ frac.length + natOfChars frac
        some (if neg then -(a : Int) else (a : Int), frac.length - 1)
      else none
  | _ => none

def lexFloat (cs : List Char) : Option (Int × Nat) :=
  lexFloatCore (splitSign cs).1 (splitSign cs).2

theorem digitChar_toNat (d : Nat) (h : d < 10) : (digitChar d).toNat = 48 + d := by
  interval_cases d <;> rfl

theorem digitVal_digitChar (d : Nat) (h : d < 10) : digitVal (digitChar d) = d := by
  simp [digitVal, digitChar_toNat d h]

theorem digitChar_isDigit (d : Nat) (h : d < 10) : (digitChar d).isDigit = true := by
  interval_cases d <;> rfl

theorem natOfChars_append_singleton (cs : List Char) (c : Char) :
    natOfChars (cs ++ [c]) = 10 * natOfChars cs + digitVal c := by
  simp [natOfChars, List.foldl_append]

theorem natReprAux_eval : ∀ fuel n, n < fuel → natOfChars (natReprAux fuel n) = n := by
  intro fuel
  induction fuel with
  | zero => intro n h; omega
  | succ f ih =>
      intro n h
      by_cases h10 : n < 10
      · simp [natReprAux, h10, natOfChars, digitVal_digitChar n h10]
      · have hrec : n / 10 < f := by omega
        simp only [natReprAux, h10, if_false, natOfChars_append_singleton,
          ih (n / 10) hrec, digitVal_digitChar (n % 10) (Nat.mod_lt n (by omega))]
        omega

theorem natReprAux_digits : ∀ fuel n, ∀ c ∈ natReprAux fuel n, c.isDigit = true := by
  intro fuel
  induction fuel with
  | zero => intro n c hc; simp [natReprAux] at hc
  | succ f ih =>
      intro n c hc
      by_cases h10 : n < 10
      · simp [natReprAux, h10] at hc
        simp [hc, digitChar_isDigit n h10]
      · simp only [natReprAux, h10, if_false, List.mem_append, List.mem_singleton] at hc
        rcases hc with hc | hc
        · exact ih _ c hc
        · simp [hc, digitChar_isDigit (n % 10) (Nat.mod_lt n (by omega))]

theorem natReprAux_ne_nil (fuel n : Nat) (h : n < fuel) : natReprAux fuel n ≠ [] := by
  cases fuel with
  | zero => omega
  | succ f =>
      by_cases h10 : n < 10
      · simp [natReprAux, h10]
      · simp [natReprAux, h10]

theorem natReprAux_length_le : ∀ fuel n k, n < fuel → n < 10 ^ k → 0 < k →
    (natReprAux fuel n).length ≤ k := by
  intro fuel
  induction fuel with
  | zero => intro n k h; omega
  | succ f ih =>
      intro n k h hk hk0
      by_cases h10 : n < 10
      · simp [natReprAux, h10]; omega
      · have hkk : 2 ≤ k := by
          by_contra hlt
          have hk1 : k = 1 := by omega
          rw [hk1] at hk
          omega
        have h1 : n / 10 < 10 ^ (k - 1) := by
          have : 10 ^ k = 10 ^ (k - 1) * 10 := by
            rw [← pow_succ]; congr 1; omega
          omega
        simp only [natReprAux, h10, if_false, List.length_append, List.length_singleton]
        have := ih (n / 10) (k - 1) (by omega) h1 (by omega)
        omega

theorem natOfChars_replicate_zero_append (k : Nat) (cs : List Char) :
    natOfChars (List.replicate k '0' ++ cs) = natOfChars cs := by
  induction k with
  | zero => simp
  | succ m ih =>
      have : natOfChars (List.replicate (m + 1) '0' ++ cs)
          = (List.replicate m '0' ++ cs).foldl (fun a c => 10 * a + digitVal c) (10 * 0 + digitVal '0') := by
        simp [natOfChars, List.replicate_succ]
      rw [this]
      have hz : 10 * 0 + digitVal '0' = 0 := by rfl
      rw [hz]
      exact ih

theorem natRepr_eval (n : Nat) : natOfChars (natRepr n).data = n :=
  natReprAux_eval (n + 1) n (by omega)

theorem natRepr_digits (n : Nat) : ∀ c ∈ (natRepr n).data, c.isDigit = true :=
  natReprAux_digits (n + 1) n

theorem natRepr_ne_nil (n : Nat) : (natRepr n).data ≠ [] :=
  natReprAux_ne_nil (n + 1) n (by omega)

theorem splitSign_of_digits (cs : List Char) (h : ∀ c ∈ cs, c.isDigit = true) :
    splitSign cs = (false, cs) := by
  cases cs with
  | nil => rfl
  | cons c rest =>
      have hc := h c (List.mem_cons_self c rest)
      have h1 : c ≠ '-' := by intro e; rw [e] at hc; exact absurd hc (by decide)
      have h2 : c ≠ '+' := by intro e; rw [e] at hc; exact absurd hc (by decide)
      simp [splitSign, h1, h2]

theorem lexIntCore_digits (neg : Bool) (n : Nat) :
    lexIntCore neg (natRepr n).data = some (if neg then -(n : Int) else (n : Int)) := by
  have hall : ∀ c ∈ (natRepr n).data, c.isDigit = true := natRepr_digits _
  have hne : (natRepr n).data ≠ [] := natRepr_ne_nil _
  unfold lexIntCore
  rw [if_pos ⟨hne, by simpa [List.all_eq_true] using hall⟩, natRepr_eval]

theorem lexIntCore_digits_true (n : Nat) : lexIntCore true (natRepr n).data = some (-(n : Int)) := by
  simpa using lexIntCore_digits true n

theorem lexIntCore_digits_false (n : Nat) : lexIntCore false (natRepr n).data = some ((n : Int)) := by
  simpa using lexIntCore_digits false n

theorem intRepr_data (n : Int) :
    (intRepr n).data = (if n < 0 then ['-'] else []) ++ (natRepr n.natAbs).data := by
  by_cases hn : n < 0 <;> simp [intRepr, hn]

theorem natAbs_cast_neg {n : Int} (hn : n < 0) : -((n.natAbs : Nat) : Int) = n := by
  rw [Int.ofNat_natAbs_of_nonpos (le_of_lt hn)]; ring

theorem natAbs_cast_nonneg {n : Int} (hn : ¬n < 0) : ((n.natAbs : Nat) : Int) = n :=
  Int.natAbs_of_nonneg (by omega)

theorem lexInt_intRepr (n : Int) : lexInt (intRepr n).data = some n := by
  have hall : ∀ c ∈ (natRepr n.natAbs).data, c.isDigit = true := natRepr_digits _
  rw [lexInt, intRepr_data]
  by_cases hn : n < 0
  · simp only [hn, if_true, List.singleton_append]
    have hsp : splitSign ('-' :: (natRepr n.natAbs).data) = (true, (natRepr n.natAbs).data) := by
      simp [splitSign]
    rw [hsp, lexIntCore_digits_true]
    exact congrArg some (natAbs_cast_neg hn)
  · simp only [hn, if_false, List.nil_append]
    rw [splitSign_of_digits _ hall, lexIntCore_digits_false]
    exact congrArg some (natAbs_cast_nonneg hn)

theorem takeWhile_all_append (p : Char → Bool) (xs : List Char) (c : Char) (ys : List Char)
    (hx : ∀ x ∈ xs, p x = true) (hc : p c = false) :
    (xs ++ c :: ys).takeWhile p = xs := by
  induction xs with
  | nil => simp [List.takeWhile, hc]
  | cons x xs ih =>
      have hpx := hx x (List.mem_cons_self x xs)
      simp only [List.cons_append, List.takeWhile_cons, hpx, if_true]
      rw [ih (fun y hy => hx y (List.mem_cons_of_mem x hy))]

theorem floatRepr_data (m : Int) (e : Nat) :
    (floatRepr m e).data = (if m < 0 then ['-'] else []) ++ (natRepr (m.natAbs / 10 ^ (e + 1))).data
      ++ '.' :: padZeros (e + 1) (natReprAux (m.natAbs % 10 ^ (e + 1) + 1) (m.natAbs % 10 ^ (e + 1))) := by
  by_cases hm : m < 0 <;> simp [floatRepr, hm]

theorem padZeros_digits (k : Nat) (cs : List Char) (h : ∀ c ∈ cs, c.isDigit = true) :
    ∀ c ∈ padZeros k cs, c.isDigit = true := by
  intro c hc
  simp only [padZeros, List.mem_append, List.mem_replicate] at hc
  rcases hc with hc | hc
  · rw [hc.2]; decide
  · exact h c hc

theorem padZeros_length (k : Nat) (cs : List Char) (h : cs.length ≤ k) :
    (padZeros k cs).length = k := by
  simp [padZeros]
  omega

theorem natOfChars_padZeros (k : Nat) (cs : List Char) :
    natOfChars (padZeros k cs) = natOfChars cs :=
  natOfChars_replicate_zero_append _ _

theorem lexFloatCore_emitted (neg : Bool) (a : Nat) (e : Nat) :
    lexFloatCore neg ((natRepr (a / 10 ^ (e + 1))).data
        ++ '.' :: padZeros (e + 1) (natReprAux (a % 10 ^ (e + 1) + 1) (a % 10 ^ (e + 1))))
      = some (if neg then -(a : Int) else (a : Int), e) := by
  set P := 10 ^ (e + 1) with hP
  have hPpos : 0 < P := Nat.pos_pow_of_pos _ (by omega)
  set ipChars := (natRepr (a / P)).data with hip
  set frac := padZeros (e + 1) (natReprAux (a % P + 1) (a % P)) with hfrac
  have hipAll : ∀ c ∈ ipChars, c.isDigit = true := natRepr_digits _
  have hipNe : ipChars ≠ [] := natRepr_ne_nil _
  have hfracAll : ∀ c ∈ frac, c.isDigit = true :=
    padZeros_digits _ _ (natReprAux_digits _ _)
  have hfpLen : (natReprAux (a % P + 1) (a % P)).length ≤ e + 1 := by
    apply natReprAux_length_le _ _ _ (by omega) _ (by omega)
    rw [hP]
    exact Nat.mod_lt _ hPpos
  have hfracLen : frac.length = e + 1 := padZeros_length _ _ hfpLen
  have hfracNe : frac ≠ [] := by
    intro hn
    rw [hn] at hfracLen
    simp at hfracLen
  unfold lexFloatCore
  have htake : (ipChars ++ '.' :: frac).takeWhile Char.isDigit = ipChars :=
    takeWhile_all_append _ _ _ _ hipAll (by decide)
  have hdrop : (ipChars ++ '.' :: frac).drop ipChars.length = '.' :: frac :=
    List.drop_left _ _
  simp only [htake, hdrop]
  rw [if_pos ⟨hipNe, hfracNe, by simpa [List.all_eq_true] using hfracAll⟩]
  have hval : natOfChars ipChars * 10 ^ frac.length + natOfChars frac = a := by
    rw [hfracLen, hip, natRepr_eval, hfrac, natOfChars_padZeros,
      natReprAux_eval _ _ (by omega), ← hP, Nat.mul_comm]
    exact Nat.div_add_mod a P
  rw [hval, hfracLen]
  simp

theorem lexFloatCore_emitted_true (a : Nat) (e : Nat) :
    lexFloatCore true ((natRepr (a / 10 ^ (e + 1))).data
        ++ '.' :: padZeros (e + 1) (natReprAux (a % 10 ^ (e + 1) + 1) (a % 10 ^ (e + 1))))
      = some (-(a : Int), e) := by
  simpa using lexFloatCore_emitted true a e

theorem lexFloatCore_emitted_false (a : Nat) (e : Nat) :
    lexFloatCore false ((natRepr (a / 10 ^ (e + 1))).data
        ++ '.' :: padZeros (e + 1) (natReprAux (a % 10 ^ (e + 1) + 1) (a % 10 ^ (e + 1))))
      = some ((a : Int), e) := by
  simpa using lexFloatCore_emitted false a e

theorem lexFloat_cons_minus (tl : List Char) : lexFloat ('-' :: tl) = lexFloatCore true tl := by
  rw [lexFloat]
  simp [splitSign]

theorem lexFloat_no_sign (cs : List Char) (h : splitSign cs = (false, cs)) :
    lexFloat cs = lexFloatCore false cs := by
  rw [lexFloat, h]

theorem lexFloat_floatRepr (m : Int) (e : Nat) : lexFloat (floatRepr m e).data = some (m, e) := by
  rw [floatRepr_data]
  by_cases hm : m < 0
  · simp only [hm, if_true, List.singleton_append, List.cons_append, List.nil_append]
    rw [lexFloat_cons_minus, lexFloatCore_emitted_true, natAbs_cast_neg hm]
  · simp only [hm, if_false, List.nil_append]
    rw [lexFloat_no_sign, lexFloatCore_emitted_false, natAbs_cast_nonneg hm]
    cases hcs : (natRepr (m.natAbs / 10 ^ (e + 1))).data with
    | nil => exact absurd hcs (natRepr_ne_nil _)
    | cons x xs =>
        have hx : x.isDigit = true := by
          have := natRepr_digits (m.natAbs / 10 ^ (e + 1))
          rw [hcs] at this
          exact this x (List.mem_cons_self x xs)
        have h1 : x ≠ '-' := by intro h; rw [h] at hx; exact absurd hx (by decide)
        have h2 : x ≠ '+' := by intro h; rw [h] at hx; exact absurd hx (by decide)
        simp [splitSign, h1, h2]

/-! Scalar classification: the subset of PyYAML's implicit resolver that the
emitted documents exercise (yaml 1.1 bool words, null words, integers,
floats; every other plain scalar is a string). -/

def boolTrueWords : List String := ["true", "True", "TRUE", "yes", "Yes", "YES", "on", "On", "ON"]

def boolFalseWords : List String := ["false", "False", "FALSE", "no", "No", "NO", "off", "Off", "OFF"]

def nullWords : List String := ["null", "Null", "NULL", "~", ""]

def classifyPlain (s : String) : RawVal :=
  if s ∈ boolTrueWords then .bool true
  else if s ∈ boolFalseWords then .bool false
  else if s ∈ nullWords then .null
  else match lexInt s.data with
  | some n => .int n
  | none => match lexFloat s.data with
    | some me => .float me.1 me.2
    | none => .str s

def numChar (c : Char) : Bool := c.isDigit || c = '-' || c = '+' || c = '.'

theorem words_not_num :
    ∀ w ∈ boolTrueWords ++ boolFalseWords ++ nullWords, ¬(w.data ≠ [] ∧ w.data.all numChar) := by
  decide

theorem classifyPlain_of_num (s : String) (hne : s.data ≠ []) (hall : s.data.all numChar = true) :
    classifyPlain s
      = (match lexInt s.data with
        | some n => RawVal.int n
        | none => match lexFloat s.data with
          | some me => RawVal.float me.1 me.2
          | none => RawVal.str s) := by
  have h1 : s ∉ boolTrueWords := fun h =>
    words_not_num s (by simp [List.mem_append, h]) ⟨hne, hall⟩
  have h2 : s ∉ boolFalseWords := fun h =>
    words_not_num s (by simp [List.mem_append, h]) ⟨hne, hall⟩
  have h3 : s ∉ nullWords := fun h =>
    words_not_num s (by simp [List.mem_append, h]) ⟨hne, hall⟩
  simp [classifyPlain, h1, h2, h3]

theorem intRepr_num (n : Int) :
    (intRepr n).data ≠ [] ∧ (intRepr n).data.all numChar = true := by
  rw [intRepr_data]
  constructor
  · intro h
    rcases List.append_eq_nil.mp h with ⟨-, h2⟩
    exact natRepr_ne_nil _ h2
  · rw [List.all_append, Bool.and_eq_true]
    constructor
    · by_cases hn : n < 0 <;> simp [hn, numChar]
    · rw [List.all_eq_true]
      intro c hc
      simp [numChar, natRepr_digits _ c hc]

theorem floatRepr_num (m : Int) (e : Nat) :
    (floatRepr m e).data ≠ [] ∧ (floatRepr m e).data.all numChar = true := by
  rw [floatRepr_data]
  constructor
  · intro h
    rcases List.append_eq_nil.mp h with ⟨-, h2⟩
    simp at h2
  · rw [List.all_append, Bool.and_eq_true]
    constructor
    · rw [List.all_append, Bool.and_eq_true]
      constructor
      · by_cases hm : m < 0 <;> simp [hm, numChar]
      · rw [List.all_eq_true]
        intro c hc
        simp [numChar, natRepr_digits _ c hc]
    · rw [List.all_eq_true]
      intro c hc
      rcases List.mem_cons.mp hc with hc | hc
      · simp [hc, numChar]
      · simp [numChar, padZeros_digits _ _ (natReprAux_digits _ _) c hc]

theorem classifyPlain_intRepr (n : Int) : classifyPlain (intRepr n) = .int n := by
  obtain ⟨hne, hall⟩ := intRepr_num n
  rw [classifyPlain_of_num _ hne hall, lexInt_intRepr]

theorem lexIntCore_of_not_digit (neg : Bool) (ds : List Char) (c : Char) (hc : c ∈ ds)
    (h : c.isDigit = false) : lexIntCore neg ds = none := by
  unfold lexIntCore
  rw [if_neg]
  rintro ⟨-, hall⟩
  rw [List.all_eq_true] at hall
  rw [hall c hc] at h
  exact Bool.noConfusion h

theorem lexInt_floatRepr (m : Int) (e : Nat) : lexInt (floatRepr m e).data = none := by
  have hdot : ∀ tl, '.' ∈ (natRepr (m.natAbs / 10 ^ (e + 1))).data ++ '.' :: tl := by
    intro tl
    simp
  rw [lexInt, floatRepr_data]
  by_cases hm : m < 0
  · simp only [hm, if_true, List.singleton_append, List.cons_append, List.nil_append]
    have hsp : splitSign ('-' :: ((natRepr (m.natAbs / 10 ^ (e + 1))).data ++ '.' ::
        padZeros (e + 1) (natReprAux (m.natAbs % 10 ^ (e + 1) + 1) (m.natAbs % 10 ^ (e + 1)))))
        = (true, (natRepr (m.natAbs / 10 ^ (e + 1))).data ++ '.' ::
        padZeros (e + 1) (natReprAux (m.natAbs % 10 ^ (e + 1) + 1) (m.natAbs % 10 ^ (e + 1)))) := by
      simp [splitSign]
    rw [hsp]
    exact lexIntCore_of_not_digit _ _ '.' (hdot _) (by decide)
  · simp only [hm, if_false, List.nil_append]
    have hsp := splitSign_of_digits
    cases hcs : (natRepr (m.natAbs / 10 ^ (e + 1))).data with
    | nil => exact absurd hcs (natRepr_ne_nil _)
    | cons x xs =>
        have hx : x.isDigit = true := by
          have := natRepr_digits (m.natAbs / 10 ^ (e + 1))
          rw [hcs] at this
          exact this x (List.mem_cons_self x xs)
        have h1 : x ≠ '-' := by intro h; rw [h] at hx; exact absurd hx (by decide)
        have h2 : x ≠ '+' := by intro h; rw [h] at hx; exact absurd hx (by decide)
        have hsp2 : splitSign (x :: (xs ++ '.' :: padZeros (e + 1)
            (natReprAux (m.natAbs % 10 ^ (e + 1) + 1) (m.natAbs % 10 ^ (e + 1)))))
            = (false, x :: (xs ++ '.' :: padZeros (e + 1)
            (natReprAux (m.natAbs % 10 ^ (e + 1) + 1) (m.natAbs % 10 ^ (e + 1))))) := by
          simp [splitSign, h1, h2]
        rw [List.cons_append, hsp2]
        exact lexIntCore_of_not_digit _ _ '.' (by simp) (by decide)

theorem classifyPlain_floatRepr (m : Int) (e : Nat) :
    classifyPlain (floatRepr m e) = .float m e := by
  obtain ⟨hne, hall⟩ := floatRepr_num m e
  rw [classifyPlain_of_num _ hne hall, lexInt_floatRepr, lexFloat_floatRepr]

/-- Python `True` / `False` as emitted by `yaml.dump`. -/
def boolYaml (b : Bool) : String := if b then "true" else "false"

theorem classifyPlain_boolYaml (b : Bool) : classifyPlain (boolYaml b) = .bool b := by
  cases b <;> rfl

/-! Double-quoted string escaping: the model's quoting style for strings that
are not safe as plain scalars. -/

def escCh (c : Char) : List Char :=
  if c = '"' ∨ c = '\\' then ['\\', c] else if c = '\n' then ['\\', 'n'] else [c]

def escChars : List Char → List Char
  | [] => []
  | c :: cs => escCh c ++ escChars cs

def unescCh (c : Char) : Char := if c = 'n' then '\n' else c

def parseDQ : List Char → Option (List Char × List Char)
  | [] => none
  | c :: rest =>
      if c = '"' then some ([], rest)
      else if c = '\\' then
        match rest with
        | [] => none
        | e :: rest2 => (parseDQ rest2).map (fun p => (unescCh e :: p.1, p.2))
      else (parseDQ rest).map (fun p => (c :: p.1, p.2))

theorem parseDQ_quote (rest : List Char) : parseDQ ('"' :: rest) = some ([], rest) := by
  cases rest <;> rfl

theorem parseDQ_backslash (e : Char) (rest2 : List Char) :
    parseDQ ('\\' :: e :: rest2) = (parseDQ rest2).map (fun p => (unescCh e :: p.1, p.2)) := rfl

theorem parseDQ_other (c : Char) (rest : List Char) (h1 : c ≠ '"') (h2 : c ≠ '\\') :
    parseDQ (c :: rest) = (parseDQ rest).map (fun p => (c :: p.1, p.2)) := by
  cases rest with
  | nil => simp [parseDQ, h1, h2]
  | cons x xs => simp [parseDQ, h1, h2]

theorem parseDQ_escChars (s rest : List Char) :
    parseDQ (escChars s ++ '"' :: rest) = some (s, rest) := by
  induction s with
  | nil => rw [escChars, List.nil_append, parseDQ_quote]
  | cons c cs ih =>
      by_cases h1 : c = '"' ∨ c = '\\'
      · have hesc : escCh c = ['\\', c] := by simp [escCh, h1]
        have hnn : unescCh c = c := by
          rcases h1 with h | h
          · rw [h]; rfl
          · rw [h]; rfl
        rw [escChars, hesc]
        simp only [List.cons_append, List.nil_append]
        rw [parseDQ_backslash, ih, hnn]
        rfl
      · by_cases h2 : c = '\n'
        · have hesc : escCh c = ['\\', 'n'] := by simp [escCh, h1, h2]
          rw [escChars, hesc]
          simp only [List.cons_append, List.nil_append]
          rw [parseDQ_backslash, ih]
          simp [unescCh, h2]
        · have hesc : escCh c = [c] := by simp [escCh, h1, h2]
          have hq : c ≠ '"' := fun h => h1 (Or.inl h)
          have hb : c ≠ '\\' := fun h => h1 (Or.inr h)
          rw [escChars, hesc]
          simp only [List.cons_append, List.nil_append]
          rw [parseDQ_other c _ hq hb, ih]
          rfl

def plainChar (c : Char) : Bool :=
  c.isAlphanum || c = '_' || c = '-' || c = '.' || c = '/' || c = '~' || c = '+'

def plainOk (s : String) : Bool :=
  !s.data.isEmpty && s.data.all plainChar && (classifyPlain s == RawVal.str s)

/-- Modelled yaml flow-scalar emission for a string (`yaml.dump` emits a
plain scalar when safe and quotes otherwise; the model uses double-quoted
style with backslash escapes where PyYAML would prefer single quotes — both
are valid yaml, and no claim depends on the quoting style of non-plain
strings). -/
def emitStr (s : String) : String :=
  if plainOk s then s else "\"" ++ String.mk (escChars s.data) ++ "\""

mutual

/-- Untyped image of a typed value: what `yaml.safe_load` returns for the
flow-style serialisation of that value (`Path` values serialise via `str`,
tuples via `list`). -/
def rawOf : Val → RawVal
  | .str s => .str s
  | .path s => .str s
  | .int n => .int n
  | .float m e => .float m e
  | .bool b => .bool b
  | .tuple vs => .list (rawOfList vs)
  | .list vs => .list (rawOfList vs)
  | .record _ => .null

def rawOfList : List Val → List RawVal
  | [] => []
  | v :: vs => rawOf v :: rawOfList vs

end

mutual

/-- Serialisability of a value as a yaml flow scalar: `yaml.dump` raises a
`RepresenterError` on dataclass instances, so a value is serialisable iff it
contains no record. -/
def serOk : Val → Bool
  | .record _ => false
  | .tuple vs => serOkList vs
  | .list vs => serOkList vs
  | _ => true

def serOkList : List Val → Bool
  | [] => true
  | v :: vs => serOk v && serOkList vs

end

mutual

/-- Well-typedness of a value at a declared type.  A value never has a
`record` type here: this relation is used for leaf fields (record-typed
fields are handled by the record branch of the serialiser), and a dataclass
instance inside a tuple or list cannot be serialised at all. -/
def hasTyB : Val → Ty → Bool
  | .str _, .str => true
  | .int _, .int => true
  | .float _ _, .float => true
  | .bool _, .bool => true
  | .path _, .path => true
  | .tuple vs, .tuple ts => hasTyTup vs ts
  | .list vs, .list t => hasTyHom vs t
  | _, _ => false

def hasTyTup : List Val → List Ty → Bool
  | [], [] => true
  | v :: vs, t :: ts => hasTyB v t && hasTyTup vs ts
  | _, _ => false

def hasTyHom : List Val → Ty → Bool
  | [], _ => true
  | v :: vs, t => hasTyB v t && hasTyHom vs t

end

def joinComma : List String → String
  | [] => ""
  | [s] => s
  | s :: ss => s ++ ", " ++ joinComma ss

mutual

/-- Flow-style scalar emission, modelling
`yaml.dump({name: obj}, default_flow_style=True)` restricted to the value
part: scalars verbatim, sequences as bracketed comma-separated lists.
PyYAML's line wrapping of long flow collections is not modelled (no claim
exercises documents that long).  `none` models `RepresenterError` on
dataclass instances. -/
def flowEmit : Val → Option String
  | .str s => some (emitStr s)
  | .path s => some (emitStr s)
  | .int n => some (intRepr n)
  | .float m e => some (floatRepr m e)
  | .bool b => some (boolYaml b)
  | .tuple vs => (flowEmitList vs).map (fun parts => "[" ++ joinComma parts ++ "]")
  | .list vs => (flowEmitList vs).map (fun parts => "[" ++ joinComma parts ++ "]")
  | .record _ => none

def flowEmitList : List Val → Option (List String)
  | [] => some []
  | v :: vs =>
      match flowEmit v, flowEmitList vs with
      | some s, some ss => some (s :: ss)
      | _, _ => none

end

def stopChar (c : Char) : Bool := c = ',' || c = ']'

mutual

/-- Flow-value parser (the flow-context part of the yaml grammar that the
emitted documents use).  Fuel bounds the recursion depth; a fuel of twice
the input length plus three always suffices. -/
def parseFlowF : Nat → List Char → Option (RawVal × List Char)
  | 0, _ => none
  | fuel + 1, cs =>
      match cs with
      | [] => some (classifyPlain (String.mk []), [])
      | c :: rest =>
          if c = '"' then (parseDQ rest).map (fun p => (RawVal.str (String.mk p.1), p.2))
          else if c = '[' then (parseFlowItems fuel rest).map (fun p => (RawVal.list p.1, p.2))
          else
            some (classifyPlain (String.mk ((c :: rest).takeWhile (fun x => !stopChar x))),
              (c :: rest).drop ((c :: rest).takeWhile (fun x => !stopChar x)).length)

def parseFlowItems : Nat → List Char → Option (List RawVal × List Char)
  | 0, _ => none
  | fuel + 1, cs =>
      match cs.dropWhile (fun c => c = ' ') with
      | [] => none
      | c :: rest =>
          if c = ']' then some ([], rest)
          else
            match parseFlowF fuel (c :: rest) with
            | none => none
            | some (v, rem) =>
                match rem with
                | [] => none
                | d :: rem2 =>
                    if d = ']' then some ([v], rem2)
                    else if d = ',' then
                      (parseFlowItems fuel rem2).map (fun p => (v :: p.1, p.2))
                    else none

end

def stopB : List Char → Bool
  | [] => true
  | d :: _ => stopChar d

theorem takeWhile_all (p : Char → Bool) (xs : List Char) (h : ∀ x ∈ xs, p x = true) :
    xs.takeWhile p = xs := by
  induction xs with
  | nil => rfl
  | cons x t ih =>
      simp only [List.takeWhile_cons, h x (List.mem_cons_self x t), if_true]
      rw [ih (fun y hy => h y (List.mem_cons_of_mem x hy))]

theorem plainOk_spec (s : String) (h : plainOk s = true) :
    s.data ≠ [] ∧ (∀ c ∈ s.data, plainChar c = true) ∧ classifyPlain s = .str s := by
  simp only [plainOk, Bool.and_eq_true, Bool.not_eq_true', beq_iff_eq] at h
  exact ⟨by simpa using h.1.1, by simpa [List.all_eq_true] using h.1.2, h.2⟩

theorem plainChar_flow (c : Char) (h : plainChar c = true) :
    stopChar c = false ∧ c ≠ '"' ∧ c ≠ '[' ∧ c ≠ ' ' ∧ c ≠ ']' := by
  refine ⟨?_, ?_, ?_, ?_, ?_⟩
  · have h1 : c ≠ ',' := by intro e; rw [e] at h; exact absurd h (by decide)
    have h2 : c ≠ ']' := by intro e; rw [e] at h; exact absurd h (by decide)
    simp [stopChar, h1, h2]
  · intro e; rw [e] at h; exact absurd h (by decide)
  · intro e; rw [e] at h; exact absurd h (by decide)
  · intro e; rw [e] at h; exact absurd h (by decide)
  · intro e; rw [e] at h; exact absurd h (by decide)

theorem numChar_flow (c : Char) (h : numChar c = true) :
    stopChar c = false ∧ c ≠ '"' ∧ c ≠ '[' ∧ c ≠ ' ' ∧ c ≠ ']' := by
  refine ⟨?_, ?_, ?_, ?_, ?_⟩
  · have h1 : c ≠ ',' := by intro e; rw [e] at h; exact absurd h (by decide)
    have h2 : c ≠ ']' := by intro e; rw [e] at h; exact absurd h (by decide)
    simp [stopChar, h1, h2]
  · intro e; rw [e] at h; exact absurd h (by decide)
  · intro e; rw [e] at h; exact absurd h (by decide)
  · intro e; rw [e] at h; exact absurd h (by decide)
  · intro e; rw [e] at h; exact absurd h (by decide)

theorem boolYaml_chars (b : Bool) : ∀ c ∈ (boolYaml b).data,
    stopChar c = false ∧ c ≠ '"' ∧ c ≠ '[' ∧ c ≠ ' ' ∧ c ≠ ']' := by
  cases b <;> decide

theorem emitStr_data_quoted (s : String) (h : plainOk s = false) :
    (emitStr s).data = '"' :: (escChars s.data ++ ['"']) := by
  simp only [emitStr, h, if_false]
  rfl

/-- Every emitted flow scalar is nonempty and starts with a character that is
neither a space nor a closing bracket. -/
theorem flowEmit_head (v : Val) (out : String) (h : flowEmit v = some out) :
    ∃ c t, out.data = c :: t ∧ c ≠ ' ' ∧ c ≠ ']' := by
  cases v with
  | str s =>
      simp only [flowEmit, Option.some.injEq] at h
      subst h
      by_cases hp : plainOk s = true
      · obtain ⟨hne, hall, -⟩ := plainOk_spec s hp
        rw [emitStr, if_pos hp]
        cases hd : s.data with
        | nil => exact absurd hd hne
        | cons c t =>
            have := plainChar_flow c (hall c (by rw [hd]; exact List.mem_cons_self c t))
            exact ⟨c, t, rfl, this.2.2.2.1, this.2.2.2.2⟩
      · rw [emitStr_data_quoted s (by simpa using hp)]
        exact ⟨'"', _, rfl, by decide, by decide⟩
  | path s =>
      simp only [flowEmit, Option.some.injEq] at h
      subst h
      by_cases hp : plainOk s = true
      · obtain ⟨hne, hall, -⟩ := plainOk_spec s hp
        rw [emitStr, if_pos hp]
        cases hd : s.data with
        | nil => exact absurd hd hne
        | cons c t =>
            have := plainChar_flow c (hall c (by rw [hd]; exact List.mem_cons_self c t))
            exact ⟨c, t, rfl, this.2.2.2.1, this.2.2.2.2⟩
      · rw [emitStr_data_quoted s (by simpa using hp)]
        exact ⟨'"', _, rfl, by decide, by decide⟩
  | int n =>
      simp only [flowEmit, Option.some.injEq] at h
      subst h
      obtain ⟨hne, hall⟩ := intRepr_num n
      cases hd : (intRepr n).data with
      | nil => exact absurd hd hne
      | cons c t =>
          have hc : numChar c = true := by
            rw [List.all_eq_true] at hall
            exact hall c (by rw [hd]; exact List.mem_cons_self c t)
          have := numChar_flow c hc
          exact ⟨c, t, rfl, this.2.2.2.1, this.2.2.2.2⟩
  | float m e =>
      simp only [flowEmit, Option.some.injEq] at h
      subst h
      obtain ⟨hne, hall⟩ := floatRepr_num m e
      cases hd : (floatRepr m e).data with
      | nil => exact absurd hd hne
      | cons c t =>
          have hc : numChar c = true := by
            rw [List.all_eq_true] at hall
            exact hall c (by rw [hd]; exact List.mem_cons_self c t)
          have := numChar_flow c hc
          exact ⟨c, t, rfl, this.2.2.2.1, this.2.2.2.2⟩
  | bool b =>
      simp only [flowEmit, Option.some.injEq] at h
      subst h
      cases b
      · exact ⟨'f', _, rfl, by decide, by decide⟩
      · exact ⟨'t', _, rfl, by decide, by decide⟩
  | tuple vs =>
      simp only [flowEmit, Option.map_eq_some'] at h
      obtain ⟨ss, -, hout⟩ := h
      rw [← hout]
      exact ⟨'[', _, by simp [String.data_append]; rfl, by decide, by decide⟩
  | list vs =>
      simp only [flowEmit, Option.map_eq_some'] at h
      obtain ⟨ss, -, hout⟩ := h
      rw [← hout]
      exact ⟨'[', _, by simp [String.data_append]; rfl, by decide, by decide⟩
  | record fs => simp [flowEmit] at h

/-- Parsing a plain token: the token is cut at the first `,` or `]` and
classified. -/
theorem parseFlowF_plain (fuel : Nat) (tok rest : List Char) (c : Char) (t : List Char)
    (htok : tok = c :: t)
    (hall : ∀ x ∈ tok, stopChar x = false ∧ x ≠ '"' ∧ x ≠ '[')
    (hstop : stopB rest = true) (hfuel : 1 ≤ fuel) :
    parseFlowF fuel (tok ++ rest) = some (classifyPlain (String.mk tok), rest) := by
  obtain ⟨f, rfl⟩ : ∃ f, fuel = f + 1 := ⟨fuel - 1, by omega⟩
  subst htok
  have hc := hall c (List.mem_cons_self c t)
  have htw : (c :: t ++ rest).takeWhile (fun x => !stopChar x) = c :: t := by
    cases rest with
    | nil =>
        rw [List.append_nil]
        exact takeWhile_all _ _ (fun x hx => by rw [(hall x hx).1]; rfl)
    | cons d rest' =>
        have hd : (fun x => !stopChar x) d = false := by
          simp only [stopB] at hstop
          simp [hstop]
        exact takeWhile_all_append _ _ _ _ (fun x hx => by rw [(hall x hx).1]; rfl) hd
  simp only [parseFlowF, List.cons_append]
  rw [if_neg (by simpa using hc.2.1), if_neg (by simpa using hc.2.2)]
  simp only [← List.cons_append, htw]
  congr 1
  have hlen : (c :: t).length = (c :: t).length := rfl
  rw [Prod.mk.injEq]
  exact ⟨rfl, by rw [List.drop_left]⟩

theorem parseFlowItems_space (f : Nat) (cs : List Char) :
    parseFlowItems (f + 1) (' ' :: cs) = parseFlowItems (f + 1) cs := by
  simp only [parseFlowItems, List.dropWhile]
  rfl

theorem string_eta (s : String) : String.mk s.data = s := rfl

theorem emitStr_plain_spec (s : String) (hp : plainOk s = true) (fuel : Nat) (rest : List Char)
    (hstop : stopB rest = true) (hfuel : 1 ≤ fuel) :
    parseFlowF fuel ((emitStr s).data ++ rest) = some (RawVal.str s, rest) := by
  obtain ⟨hne, hall, hcl⟩ := plainOk_spec s hp
  rw [emitStr, if_pos hp]
  obtain ⟨c, t, hd⟩ := List.exists_cons_of_ne_nil hne
  have h := parseFlowF_plain fuel s.data rest c t hd
    (fun x hx => by
      have := plainChar_flow x (hall x hx)
      exact ⟨this.1, this.2.1, this.2.2.1⟩)
    hstop hfuel
  rw [h, string_eta, hcl]

theorem emitStr_quoted_spec (s : String) (hp : plainOk s = false) (fuel : Nat) (rest : List Char)
    (hfuel : 1 ≤ fuel) :
    parseFlowF fuel ((emitStr s).data ++ rest) = some (RawVal.str s, rest) := by
  obtain ⟨f, rfl⟩ : ∃ f, fuel = f + 1 := ⟨fuel - 1, by omega⟩
  rw [emitStr_data_quoted s hp]
  simp only [List.cons_append, List.append_assoc, List.singleton_append]
  simp only [parseFlowF, if_pos rfl]
  rw [parseDQ_escChars]
  simp [string_eta]

theorem emitStr_spec (s : String) (fuel : Nat) (rest : List Char)
    (hstop : stopB rest = true) (hfuel : 1 ≤ fuel) :
    parseFlowF fuel ((emitStr s).data ++ rest) = some (RawVal.str s, rest) := by
  by_cases hp : plainOk s = true
  · exact emitStr_plain_spec s hp fuel rest hstop hfuel
  · exact emitStr_quoted_spec s (by simpa using hp) fuel rest hfuel

theorem intRepr_spec (n : Int) (fuel : Nat) (rest : List Char)
    (hstop : stopB rest = true) (hfuel : 1 ≤ fuel) :
    parseFlowF fuel ((intRepr n).data ++ rest) = some (RawVal.int n, rest) := by
  obtain ⟨hne, hall⟩ := intRepr_num n
  rw [List.all_eq_true] at hall
  obtain ⟨c, t, hd⟩ := List.exists_cons_of_ne_nil hne
  have h := parseFlowF_plain fuel (intRepr n).data rest c t hd
    (fun x hx => by
      have := numChar_flow x (hall x hx)
      exact ⟨this.1, this.2.1, this.2.2.1⟩)
    hstop hfuel
  rw [h, string_eta, classifyPlain_intRepr]

theorem floatRepr_spec (m : Int) (e : Nat) (fuel : Nat) (rest : List Char)
    (hstop : stopB rest = true) (hfuel : 1 ≤ fuel) :
    parseFlowF fuel ((floatRepr m e).data ++ rest) = some (RawVal.float m e, rest) := by
  obtain ⟨hne, hall⟩ := floatRepr_num m e
  rw [List.all_eq_true] at hall
  obtain ⟨c, t, hd⟩ := List.exists_cons_of_ne_nil hne
  have h := parseFlowF_plain fuel (floatRepr m e).data rest c t hd
    (fun x hx => by
      have := numChar_flow x (hall x hx)
      exact ⟨this.1, this.2.1, this.2.2.1⟩)
    hstop hfuel
  rw [h, string_eta, classifyPlain_floatRepr]

theorem boolYaml_spec (b : Bool) (fuel : Nat) (rest : List Char)
    (hstop : stopB rest = true) (hfuel : 1 ≤ fuel) :
    parseFlowF fuel ((boolYaml b).data ++ rest) = some (RawVal.bool b, rest) := by
  have hd : ∃ c t, (boolYaml b).data = c :: t := by
    cases b
    · exact ⟨'f', _, rfl⟩
    · exact ⟨'t', _, rfl⟩
  obtain ⟨c, t, hd⟩ := hd
  have h := parseFlowF_plain fuel (boolYaml b).data rest c t hd
    (fun x hx => by
      have := boolYaml_chars b x hx
      exact ⟨this.1, this.2.1, this.2.2.1⟩)
    hstop hfuel
  rw [h, string_eta, classifyPlain_boolYaml]

mutual

def parseFlow_emit : ∀ (v : Val) (out : String) (fuel : Nat) (rest : List Char),
    serOk v = true → flowEmit v = some out → stopB rest = true →
    2 * (out.data.length + rest.length) + 2 ≤ fuel →
    parseFlowF fuel (out.data ++ rest) = some (rawOf v, rest)
  | .str s, out, fuel, rest => by
      intro hse h hstop hfuel
      simp only [flowEmit, Option.some.injEq] at h
      subst h
      exact emitStr_spec s fuel rest hstop (by omega)
  | .path s, out, fuel, rest => by
      intro hse h hstop hfuel
      simp only [flowEmit, Option.some.injEq] at h
      subst h
      exact emitStr_spec s fuel rest hstop (by omega)
  | .int n, out, fuel, rest => by
      intro hse h hstop hfuel
      simp only [flowEmit, Option.some.injEq] at h
      subst h
      exact intRepr_spec n fuel rest hstop (by omega)
  | .float m e, out, fuel, rest => by
      intro hse h hstop hfuel
      simp only [flowEmit, Option.some.injEq] at h
      subst h
      exact floatRepr_spec m e fuel rest hstop (by omega)
  | .bool b, out, fuel, rest => by
      intro hse h hstop hfuel
      simp only [flowEmit, Option.some.injEq] at h
      subst h
      exact boolYaml_spec b fuel rest hstop (by omega)
  | .record fs, out, fuel, rest => by
      intro hse h hstop hfuel
      exact absurd hse (by simp [serOk])
  | .tuple vs, out, fuel, rest => by
      intro hse h hstop hfuel
      simp only [flowEmit, Option.map_eq_some'] at h
      obtain ⟨ss, hss, hout⟩ := h
      have hdata2 : out.data ++ rest = '[' :: ((joinComma ss).data ++ ']' :: rest) := by
        rw [← hout]
        simp [String.data_append]
      rw [hdata2]
      obtain ⟨f, rfl⟩ : ∃ f, fuel = f + 1 := ⟨fuel - 1, by omega⟩
      simp only [parseFlowF]
      rw [parseFlowItems_emit vs ss f rest (by simpa [serOk] using hse) hss (by
        have hlen : out.data.length = (joinComma ss).data.length + 2 := by
          rw [← hout]
          simp [String.data_append]
        omega)]
      simp [rawOf]
  | .list vs, out, fuel, rest => by
      intro hse h hstop hfuel
      simp only [flowEmit, Option.map_eq_some'] at h
      obtain ⟨ss, hss, hout⟩ := h
      have hdata2 : out.data ++ rest = '[' :: ((joinComma ss).data ++ ']' :: rest) := by
        rw [← hout]
        simp [String.data_append]
      rw [hdata2]
      obtain ⟨f, rfl⟩ : ∃ f, fuel = f + 1 := ⟨fuel - 1, by omega⟩
      simp only [parseFlowF]
      rw [parseFlowItems_emit vs ss f rest (by simpa [serOk] using hse) hss (by
        have hlen : out.data.length = (joinComma ss).data.length + 2 := by
          rw [← hout]
          simp [String.data_append]
        omega)]
      simp [rawOf]

def parseFlowItems_emit : ∀ (vs : List Val) (ss : List String) (fuel : Nat) (rest : List Char),
    serOkList vs = true → flowEmitList vs = some ss →
    2 * ((joinComma ss).data.length + 1 + rest.length) + 3 ≤ fuel →
    parseFlowItems fuel ((joinComma ss).data ++ ']' :: rest) = some (rawOfList vs, rest)
  | [], ss, fuel, rest => by
      intro hse h hfuel
      simp only [flowEmitList, Option.some.injEq] at h
      subst h
      obtain ⟨f, rfl⟩ : ∃ f, fuel = f + 1 := ⟨fuel - 1, by omega⟩
      simp only [joinComma, parseFlowItems]
      rw [show (String.mk []).data ++ ']' :: rest = ']' :: rest from rfl]
      rw [List.dropWhile_cons]
      simp [rawOfList]
  | v :: vs', ss, fuel, rest => by
      intro hse h hfuel
      have hse1 : serOk v = true ∧ serOkList vs' = true := by
        simpa [serOkList, Bool.and_eq_true] using hse
      rw [flowEmitList] at h
      cases hv : flowEmit v with
      | none => rw [hv] at h; exact absurd h (by simp)
      | some sv =>
          rw [hv] at h
          cases hvs : flowEmitList vs' with
          | none => rw [hvs] at h; exact absurd h (by simp)
          | some ss' =>
              rw [hvs] at h
              simp only [Option.some.injEq] at h
              subst h
              obtain ⟨c, t, hsv, hcsp, hcbr⟩ := flowEmit_head v sv hv
              cases vs' with
              | nil =>
                  have hss0 : ss' = [] := by
                    simpa [flowEmitList] using hvs.symm
                  subst hss0
                  rw [show joinComma [sv] = sv from rfl]
                  obtain ⟨f, rfl⟩ : ∃ f, fuel = f + 1 := ⟨fuel - 1, by omega⟩
                  simp only [parseFlowItems]
                  rw [hsv, List.cons_append, List.dropWhile_cons]
                  rw [if_neg (by simp [hcsp])]
                  dsimp only
                  rw [if_neg (by simpa using hcbr)]
                  rw [← List.cons_append, ← hsv]
                  rw [parseFlow_emit v sv f (']' :: rest) hse1.1 hv (by simp [stopB, stopChar])
                    (by
                      have hj : sv.data.length = (joinComma [sv]).data.length := rfl
                      have he : (']' :: rest).length = rest.length + 1 := by simp
                      omega)]
                  simp [rawOfList]
              | cons v' vs'' =>
                  have hss1 : ∃ s' rss, ss' = s' :: rss := by
                    rw [flowEmitList] at hvs
                    cases hv' : flowEmit v' with
                    | none => rw [hv'] at hvs; exact absurd hvs (by simp)
                    | some s' =>
                        rw [hv'] at hvs
                        cases hvs' : flowEmitList vs'' with
                        | none => rw [hvs'] at hvs; exact absurd hvs (by simp)
                        | some rss =>
                            rw [hvs'] at hvs
                            exact ⟨s', rss, by simpa using hvs.symm⟩
                  obtain ⟨s', rss, rfl⟩ := hss1
                  have hjoin : joinComma (sv :: s' :: rss) = sv ++ ", " ++ joinComma (s' :: rss) := rfl
                  have h1 : (sv ++ ", " ++ joinComma (s' :: rss)).data.length
                      = sv.data.length + 2 + (joinComma (s' :: rss)).data.length := by
                    simp [String.data_append]
                    omega
                  rw [hjoin] at hfuel ⊢
                  rw [h1] at hfuel
                  have hsplit : (sv ++ ", " ++ joinComma (s' :: rss)).data ++ ']' :: rest
                      = sv.data ++ ',' :: ' ' :: ((joinComma (s' :: rss)).data ++ ']' :: rest) := by
                    simp [String.data_append]
                  rw [hsplit]
                  obtain ⟨f, rfl⟩ : ∃ f, fuel = f + 1 := ⟨fuel - 1, by omega⟩
                  simp only [parseFlowItems]
                  rw [hsv, List.cons_append, List.dropWhile_cons]
                  rw [if_neg (by simp [hcsp])]
                  dsimp only
                  rw [if_neg (by simpa using hcbr)]
                  rw [← List.cons_append, ← hsv]
                  rw [parseFlow_emit v sv f (',' :: ' ' :: ((joinComma (s' :: rss)).data ++ ']' :: rest))
                    hse1.1 hv (by simp [stopB, stopChar])
                    (by
                      simp only [List.length_cons, List.length_append]
                      omega)]
                  dsimp only
                  rw [if_neg (show ¬(',' = ']') by decide), if_pos rfl]
                  obtain ⟨f2, rfl⟩ : ∃ f2, f = f2 + 1 := ⟨f - 1, by omega⟩
                  rw [parseFlowItems_space]
                  rw [parseFlowItems_emit (v' :: vs'') (s' :: rss) (f2 + 1) rest hse1.2 hvs
                    (by omega)]
                  rfl

end

/-! Document layer: lines, Python string helpers (`rstrip`, `textwrap.dedent`,
`textwrap.indent`), the yaml generator and the block parser. -/

def wsChar (c : Char) : Bool := c = ' ' || c = '\t' || c = '\n' || c = '\r'

/-- Python `str.rstrip()`. -/
def rstrip (s : String) : String := String.mk (s.data.reverse.dropWhile wsChar).reverse

def splitCh : List Char → List (List Char)
  | [] => [[]]
  | c :: cs =>
      if c = '\n' then [] :: splitCh cs
      else match splitCh cs with
        | [] => [[c]]
        | l :: ls => (c :: l) :: ls

/-- Lines of a string, splitting at every newline. -/
def splitLines (s : String) : List String := (splitCh s.data).map String.mk

def joinNL : List String → String
  | [] => ""
  | [l] => l
  | l :: ls => l ++ "\n" ++ joinNL ls

def isWSOnly (l : String) : Bool := l.data.all wsChar

def indentWS (c : Char) : Bool := c = ' ' || c = '\t'

def leadWS (l : List Char) : List Char := l.takeWhile indentWS

def commonPre : List Char → List Char → List Char
  | a :: as_, b :: bs => if a = b then a :: commonPre as_ bs else []
  | _, _ => []

/-- Model of `textwrap.dedent`: whitespace-only lines are normalised to empty
lines, and the longest common `[ \t]` margin of the remaining lines is
removed from each of them. -/
def dedent (s : String) : String :=
  let blanked := (splitLines s).map (fun l => if isWSOnly l then "" else l)
  let margins := (blanked.filter (fun l => !(l == ""))).map (fun l => leadWS l.data)
  let margin := match margins with
    | [] => []
    | m :: ms => ms.foldl commonPre m
  joinNL (blanked.map (fun l => if l == "" then l else String.mk (l.data.drop margin.length)))

/-- Model of `textwrap.indent` with its default predicate: prefix every line
that is not whitespace-only. -/
def indentBy (pre : String) (s : String) : String :=
  joinNL ((splitLines s).map (fun l => if isWSOnly l then l else pre ++ l))

/-- Comment block emitted for a docstring or field annotation:
`indent(dedent(comment), "# ")`. -/
def commentBlock (d : String) : String := indentBy "# " (dedent d)

/-- Model of `to_nice_yaml`: `Path` values serialise via `str` and tuples as
lists (both identities in `flowEmit`), then
`yaml.dump({name: obj}, default_flow_style=True)` with the surrounding
braces stripped, i.e. `name: <flow value>`. -/
def toNiceYaml (name : String) (v : Val) : Option String :=
  (flowEmit v).map (fun out => name ++ ": " ++ out)

mutual

/-- Model of `Config.generate_default_config_yaml`: an optional docstring
comment, then per field an optional annotation comment followed by either
`name:` plus the two-space-indented sub-document (record fields) or a
`name: value` line (leaf fields); parts are right-stripped and joined with
newlines. -/
def genYaml : RecordSchema → Option String
  | .mk doc fs =>
      match genParts fs with
      | none => none
      | some parts =>
          some (joinNL ((match doc with
            | some d => commentBlock d :: parts
            | none => parts).map rstrip))

def genParts : List FieldSchema → Option (List String)
  | [] => some []
  | .mk name desc ty dflt :: fs =>
      match genParts fs with
      | none => none
      | some rest =>
          match (match ty with
            | .record r =>
                match genYaml r with
                | none => none
                | some sub => some [name ++ ":", indentBy "  " sub]
            | _ =>
                match toNiceYaml name dflt with
                | none => none
                | some line => some [line]) with
          | none => none
          | some fieldParts =>
              some ((match desc with
                | some d => commentBlock d :: fieldParts
                | none => fieldParts) ++ rest)

end

/-- Lines ignored by the yaml parser: whitespace-only lines and comment
lines. -/
def skipLine (l : String) : Bool :=
  match l.data.dropWhile indentWS with
  | [] => true
  | c :: _ => c = '#'

def lineIndent (l : String) : Nat := (l.data.takeWhile (fun c => c = ' ')).length

/-- Block-mapping parser over the comment-stripped structural lines, at
nesting level `k` (two spaces of indentation per level — the shape `genYaml`
emits).  Returns the parsed entries and the lines left over (the first line
whose indentation is shallower than the block's).  A `name:` line with an
empty sub-block denotes `null`, as in yaml. -/
def parseFieldsF : Nat → List String → Nat → Option (List (String × RawVal) × List String)
  | 0, _, _ => none
  | _ + 1, [], _ => some ([], [])
  | fuel + 1, l :: rest, k =>
      if lineIndent l < 2 * k then some ([], l :: rest)
      else if lineIndent l = 2 * k then
        let core := l.data.drop (2 * k)
        let name := core.takeWhile (fun c => !(c = ':'))
        if name = [] then none
        else
          match core.drop name.length with
          | [] => none
          | _ :: after =>
              match after with
              | [] =>
                  match parseFieldsF fuel rest (k + 1) with
                  | none => none
                  | some (sub, rem) =>
                      match parseFieldsF fuel rem k with
                      | none => none
                      | some (more, rem2) =>
                          some ((String.mk name,
                            if sub = [] then RawVal.null else RawVal.map sub) :: more, rem2)
              | sp :: vchars =>
                  if sp = ' ' then
                    (match parseFlowF (2 * (vchars.length + 1) + 3) vchars with
                    | some (v, []) =>
                        (match parseFieldsF fuel rest k with
                        | none => none
                        | some (more, rem2) => some ((String.mk name, v) :: more, rem2))
                    | _ => none)
                  else none
      else none

/-- Model of `yaml.safe_load` on the block documents that `genYaml` emits:
strip comment and blank lines, parse the block mapping, and require all
lines consumed.  An empty document is `null`. -/
def parseDoc (s : String) : Option RawVal :=
  match parseFieldsF (((splitLines s).filter (fun l => !skipLine l)).length + 1)
      ((splitLines s).filter (fun l => !skipLine l)) 0 with
  | some (entries, []) => some (if entries = [] then RawVal.null else RawVal.map entries)
  | _ => none

/-- Defaults tree of a schema: the instance `cls()`, whose fields carry their
declared default values. -/
def defaultsOf (S : RecordSchema) : Val := .record (S.fields.map (fun f => (f.name, f.dflt)))

/-- Embedding of the test schema `SmallConfig` from `tests/test_config.py`:
`name: str = "Joe"` then `age: Annotated[int, "Pass -1 if you don't want to
tell"] = -1`, with docstring `A small config`. -/
def SmallConfig : RecordSchema :=
  .mk (some "A small config")
    [ .mk "name" none .str (.str "Joe"),
      .mk "age" (some "Pass -1 if you don't want to tell") .int (.int (-1)) ]

/-- Embedding of the test schema `ConfigWithList`: `names: list[str] = []`
and `rect: tuple[int, int] = (3, 4)`, with docstring `With lists`. -/
def ConfigWithList : RecordSchema :=
  .mk (some "With lists")
    [ .mk "names" none (.list .str) (.list []),
      .mk "rect" none (.tuple [.int, .int]) (.tuple [.int 3, .int 4]) ]

/-- Embedding of the test schema `RecursiveConfig`: nested `small:
SmallConfig = SmallConfig()` and annotated `lists: ConfigWithList =
ConfigWithList()`, with docstring `Recursivity!`. -/
def RecursiveConfig : RecordSchema :=
  .mk (some "Recursivity!")
    [ .mk "small" none (.record SmallConfig) (defaultsOf SmallConfig),
      .mk "lists" (some "Annot for a sub-config") (.record ConfigWithList)
          (defaultsOf ConfigWithList) ]

/-! Loader layer: `gather_updates`, `unflatten`, `merge` and `load` from
`base_config.Config`, plus the CLI decorator from `mk_typer_cli`. -/

def joinDot : List String → String
  | [] => ""
  | [p] => p
  | p :: ps => p ++ "." ++ joinDot ps

def sq : String := Char.toString (Char.ofNat 39)

def pyQuote (s : String) : String := sq ++ s ++ sq

def typeName : RawVal → String
  | .str _ => "str"
  | .int _ => "int"
  | .float _ _ => "float"
  | .bool _ => "bool"
  | .null => "NoneType"
  | .list _ => "list"
  | .map _ => "dict"

mutual

/-- CPython `repr` of raw data (dict repr uses literal braces, written with
escapes here). -/
def rawRepr : RawVal → String
  | .str s => pyQuote s
  | .int n => intRepr n
  | .float m e => floatRepr m e
  | .bool b => if b then "True" else "False"
  | .null => "None"
  | .list xs => "[" ++ joinComma (rawReprList xs) ++ "]"
  | .map es => "\x7b" ++ joinComma (rawReprMap es) ++ "\x7d"

def rawReprList : List RawVal → List String
  | [] => []
  | x :: xs => rawRepr x :: rawReprList xs

def rawReprMap : List (String × RawVal) → List String
  | [] => []
  | (k, v) :: es => (pyQuote k ++ ": " ++ rawRepr v) :: rawReprMap es

end

/-- CPython `str` of raw data (as interpolated by f-strings in the error
messages): like `repr`, except strings appear unquoted. -/
def rawStr : RawVal → String
  | .str s => s
  | v => rawRepr v

/-- CPython `int(x)` on raw data.  String parsing covers the optional-sign
decimal subset (underscores, surrounding whitespace and non-decimal bases
are not modelled); floats truncate toward zero. -/
def pyInt : RawVal → Except String Val
  | .int n => .ok (.int n)
  | .bool b => .ok (.int (if b then 1 else 0))
  | .float m e =>
      .ok (.int (if m < 0 then -((m.natAbs / 10 ^ (e + 1) : Nat) : Int)
        else ((m.natAbs / 10 ^ (e + 1) : Nat) : Int)))
  | .str s =>
      match lexInt s.data with
      | some n => .ok (.int n)
      | none => .error ("invalid literal for int() with base 10: " ++ pyQuote s)
  | d => .error ("int() argument must be a string, a bytes-like object or a real number, not "
      ++ pyQuote (typeName d))

/-- CPython `float(x)` on raw data (same modelling caveats as `pyInt`). -/
def pyFloat : RawVal → Except String Val
  | .float m e => .ok (.float m e)
  | .int n => .ok (.float (n * 10) 0)
  | .bool b => .ok (.float (if b then 10 else 0) 0)
  | .str s =>
      match lexFloat s.data with
      | some me => .ok (.float me.1 me.2)
      | none =>
          match lexInt s.data with
          | some n => .ok (.float (n * 10) 0)
          | none => .error ("could not convert string to float: " ++ pyQuote s)
  | d => .error ("float() argument must be a string or a real number, not "
      ++ pyQuote (typeName d))

/-- CPython truthiness, as used by `bool(x)`: every non-empty string is
truthy — including the string `"false"`. -/
def pyTruthy : RawVal → Bool
  | .bool b => b
  | .int n => !(n = 0)
  | .float m _ => !(m = 0)
  | .str s => !(s = "")
  | .null => false
  | .list xs => !xs.isEmpty
  | .map es => !es.isEmpty

/-- CPython `str(x)`: never fails. -/
def pyStr (d : RawVal) : Except String Val := .ok (.str (rawStr d))

/-- CPython `pathlib.Path(x)`: accepts strings (no pathname normalisation is
modelled); everything else raises a `TypeError`. -/
def pyPath : RawVal → Except String Val
  | .str s => .ok (.path s)
  | d => .error ("argument should be a str or an os.PathLike object where __fspath__ returns a str, not <class "
      ++ pyQuote (typeName d) ++ ">")

/-- The coercion `expected_type(data)` applied by `gather_updates` at a
primitive leaf: the declared type's constructor applied directly to the raw
value, with no wrapping of the exception it may raise. -/
def pyCoerce : Ty → RawVal → Except String Val
  | .str, d => pyStr d
  | .int, d => pyInt d
  | .float, d => pyFloat d
  | .bool, d => .ok (.bool (pyTruthy d))
  | .path, d => pyPath d
  | _, _ => .error "unsupported type"

/-- The flat `to_update` dict accumulated by `gather_updates`, keyed by
path. -/
def Upd := List (List String × Val)

/-- Python dict assignment `to_update[path] = v`: replace in place or append
at the end. -/
def setFlat : Upd → List String → Val → Upd
  | [], p, v => [(p, v)]
  | (q, w) :: rest, p, v =>
      if q = p then (q, v) :: rest else (q, w) :: setFlat rest p v

def findField : List FieldSchema → String → Option FieldSchema
  | [], _ => none
  | f :: fs, n => if f.name = n then some f else findField fs n

mutual

/-- Model of the inner `gather_updates(path, data, expected_type,
is_inside_list)` of `Config.load`.  Record types require a mapping (anything
else hits `data.items()` and raises `AttributeError`); unknown keys raise
the unknown-field `ValueError`; collections require a sequence, tuples check
arity, and the whole converted collection is recorded at its path; primitive
leaves are coerced by the declared type's constructor.  List indices inside
paths are rendered with `natRepr` (CPython's `".".join` would itself raise
a `TypeError` on integer path parts, a divergence confined to error messages
of nested collections that no claim exercises). -/
def gather (path : List String) (data : RawVal) (ty : Ty) (insideList : Bool)
    (st : Upd) : Except String (Val × Upd) :=
  match ty with
  | .record r =>
      match data with
      | .map entries =>
          match gatherFields path entries r.fields insideList st with
          | .error e => .error e
          | .ok (converted, st2) =>
              .ok (.record (r.fields.map (fun f =>
                (f.name, (lookupS converted f.name).getD f.dflt))), st2)
      | d => .error ("AttributeError: " ++ pyQuote (typeName d)
          ++ " object has no attribute " ++ pyQuote "items")
  | .tuple ts =>
      match data with
      | .list ds =>
          if ds.length = ts.length then
            match gatherTuple path 0 ds ts st with
            | .error e => .error e
            | .ok (vs, st2) =>
                .ok (.tuple vs, if insideList then st2 else setFlat st2 path (.tuple vs))
          else
            .error ("Expected a tuple of size " ++ natRepr ts.length ++ " at "
              ++ joinDot path ++ ", got " ++ natRepr ds.length)
      | d => .error ("Expected a list at " ++ joinDot path ++ ", got " ++ rawStr d)
  | .list t =>
      match data with
      | .list ds =>
          match gatherHom path 0 ds t st with
          | .error e => .error e
          | .ok (vs, st2) =>
              .ok (.list vs, if insideList then st2 else setFlat st2 path (.list vs))
      | d => .error ("Expected a list at " ++ joinDot path ++ ", got " ++ rawStr d)
  | t =>
      match pyCoerce t data with
      | .error e => .error e
      | .ok v => .ok (v, if insideList then st else setFlat st path v)

def gatherFields (path : List String) (entries : List (String × RawVal))
    (fs : List FieldSchema) (insideList : Bool) (st : Upd) :
    Except String (List (String × Val) × Upd) :=
  match entries with
  | [] => .ok ([], st)
  | (name, value) :: rest =>
      match findField fs name with
      | none =>
          .error ("Unknown field " ++ joinDot (path ++ [name]) ++ ". Valid fields are "
            ++ joinComma (fs.map (fun f => f.name)))
      | some f =>
          match gather (path ++ [name]) value f.ty insideList st with
          | .error e => .error e
          | .ok (v, st2) =>
              match gatherFields path rest fs insideList st2 with
              | .error e => .error e
              | .ok (vs, st3) => .ok ((name, v) :: vs, st3)

def gatherTuple (path : List String) (i : Nat) (ds : List RawVal) (ts : List Ty)
    (st : Upd) : Except String (List Val × Upd) :=
  match ds, ts with
  | [], _ => .ok ([], st)
  | d :: ds2, t :: ts2 =>
      match gather (path ++ [natRepr i]) d t true st with
      | .error e => .error e
      | .ok (v, st2) =>
          match gatherTuple path (i + 1) ds2 ts2 st2 with
          | .error e => .error e
          | .ok (vs, st3) => .ok (v :: vs, st3)
  | _ :: _, [] => .error "tuple arity mismatch"

def gatherHom (path : List String) (i : Nat) (ds : List RawVal) (t : Ty)
    (st : Upd) : Except String (List Val × Upd) :=
  match ds with
  | [] => .ok ([], st)
  | d :: ds2 =>
      match gather (path ++ [natRepr i]) d t true st with
      | .error e => .error e
      | .ok (v, st2) =>
          match gatherHom path (i + 1) ds2 t st2 with
          | .error e => .error e
          | .ok (vs, st3) => .ok (v :: vs, st3)

end

/-- Nested override structure: the recursive dict built by `unflatten` and
consumed by `merge` (values are either further dicts or already-typed
values). -/
inductive Ov : Type where
  | leaf (v : Val)
  | node (entries : List (String × Ov))

def OvMap := List (String × Ov)

def setOv : OvMap → String → Ov → OvMap
  | [], n, o => [(n, o)]
  | (k, w) :: rest, n, o =>
      if k = n then (k, o) :: rest else (k, w) :: setOv rest n o

/-- One step of `unflatten`: walk `path[:-1]` with `setdefault(part, \x7b\x7d)`
then assign the final component.  Walking into a non-dict value raises a
`TypeError` in Python; the paths recorded by `gather_updates` are prefix-free
so this never happens in `load`. -/
def insertPath : OvMap → List String → Val → Except String OvMap
  | _, [], _ => .error "TypeError: empty path"
  | m, [last], v => .ok (setOv m last (.leaf v))
  | m, part :: rest, v =>
      match lookupS m part with
      | some (.node sub) =>
          match insertPath sub rest v with
          | .error e => .error e
          | .ok sub2 => .ok (setOv m part (.node sub2))
      | some (.leaf _) => .error "TypeError: walked into a non-dict value"
      | none =>
          match insertPath [] rest v with
          | .error e => .error e
          | .ok sub2 => .ok (setOv m part (.node sub2))

def unflattenF : OvMap → Upd → Except String OvMap
  | acc, [] => .ok acc
  | acc, (p, v) :: rest =>
      match insertPath acc p v with
      | .error e => .error e
      | .ok acc2 => unflattenF acc2 rest

/-- Model of the `unflatten` helper inside `Config.load`. -/
def unflatten (d : Upd) : Except String OvMap := unflattenF [] d

def getattrV : Val → String → Option Val
  | .record es, n => lookupS es n
  | _, _ => none

mutual

/-- Model of `Config.merge`: build `kwargs` only from the fields named in
`values` (record-typed fields recurse into `getattr(self, name).merge(...)`)
and construct `type(self)(**kwargs)` — so every field NOT named in `values`
is filled from the dataclass field default, not from `self`.  The docstring
of `merge` says it performs no validation of paths or types; the two
ill-typed combinations (a non-dict override for a record field, a dict
override for a leaf field) are modelled as errors — Python would raise a
`TypeError` in the former case and build an ill-typed instance in the
latter, and no claim depends on either. -/
def mergeRecord : RecordSchema → Val → OvMap → Except String Val
  | .mk _ fs, self, values =>
      match mergeFields fs self values with
      | .error e => .error e
      | .ok kwargs => .ok (.record kwargs)

def mergeFields : List FieldSchema → Val → OvMap → Except String (List (String × Val))
  | [], _, _ => .ok []
  | .mk fname _ fty fdflt :: rest, self, values =>
      match lookupS values fname with
      | none =>
          (match mergeFields rest self values with
           | .error e => .error e
           | .ok kvs => .ok ((fname, fdflt) :: kvs))
      | some ov =>
          match fty with
          | .record r =>
              (match ov with
               | .node sub =>
                   (match getattrV self fname with
                    | some selfSub =>
                        (match mergeRecord r selfSub sub with
                         | .error e => .error e
                         | .ok merged =>
                             (match mergeFields rest self values with
                              | .error e => .error e
                              | .ok kvs => .ok ((fname, merged) :: kvs)))
                    | none => .error "AttributeError")
               | .leaf _ => .error "TypeError: argument of type is not iterable")
          | _ =>
              match ov with
              | .leaf v =>
                  (match mergeFields rest self values with
                   | .error e => .error e
                   | .ok kvs => .ok ((fname, v) :: kvs))
              | .node _ => .error "dict value for a leaf field"

end

/-- Model of `Config.load` applied to already-parsed raw data (the
`isinstance(conf, dict)` branch): run `gather_updates((), data, type(self))`,
unflatten the recorded flat updates, and `self.merge` the result. -/
def loadVal (self : Val) (S : RecordSchema) (data : RawVal) : Except String Val :=
  match gather [] data (.record S) false [] with
  | .error e => .error e
  | .ok (_, st) =>
      match unflatten st with
      | .error e => .error e
      | .ok ov => mergeRecord S self ov

/-- Model of `Config.load` applied to yaml text (`yaml.safe_load` then the
raw-data path; the `Path` overload additionally reads the file, which is not
modelled). -/
def loadStr (self : Val) (S : RecordSchema) (conf : String) : Except String Val :=
  match parseDoc conf with
  | none => .error "yaml parse error"
  | some data => loadVal self S data

/-- Model of the function produced by `Config.mk_typer_cli`'s decorator
around the application entry point: it loads the stored document into a
fresh defaults instance, maps the CLI keyword arguments back to their dotted
names, calls `config.merge(params_overwritten_by_cli)` — and DISCARDS the
result (line 279 of base_config.py does not assign the returned config) —
then invokes the wrapped function with `config`, i.e. with the persisted
configuration and none of the CLI overrides applied. -/
def decorated (S : RecordSchema) (storedDoc : String) (cliKwargs : List (String × Val)) :
    Except String Val :=
  match loadStr (defaultsOf S) S storedDoc with
  | .error e => .error e
  | .ok config =>
      match mergeRecord S config (cliKwargs.map (fun p => (p.1, Ov.leaf p.2))) with
      | .error e => .error e
      | .ok _ => .ok config

/-! Presence server (`src/server.py`): the `update` endpoint's response. -/

/-- One user's stored record (`UserData` in server.py).  Timestamps are
floats in Python; they are modelled as integers since no claim depends on
their arithmetic. -/
structure UserData where
  username : String
  timer_end : Int
  start : Int
  purpose : Option String
  purpose_start : Option Int
  last_update : Int
deriving DecidableEq

/-- Python string comparison: lexicographic on code points. -/
def pyStrLe : List Char → List Char → Bool
  | [], _ => true
  | _ :: _, [] => false
  | c :: as_, d :: bs => if c = d then pyStrLe as_ bs else decide (c.toNat < d.toNat)

def pyInsertByUsername (x : UserData) : List UserData → List UserData
  | [] => [x]
  | y :: ys =>
      if pyStrLe x.username.data y.username.data then x :: y :: ys
      else y :: pyInsertByUsername x ys

/-- Python's `sorted(records, key=lambda x: x.username)`: a stable ascending
sort by username (each element is inserted before the equal-keyed elements
that followed it, which is exactly Timsort's stability). -/
def pySortByUsername : List UserData → List UserData
  | [] => []
  | x :: xs => pyInsertByUsername x (pySortByUsername xs)

/-- Model of the read-and-respond step of the `update` endpoint: the room's
user files after the caller's write, in file-system iteration order
(`iterdir`), keyed by user id (the file stem), with the response
`sorted(room_data.values(), key=lambda x: x.username)`. -/
def updateResponse (roomFiles : List (String × UserData)) : List UserData :=
  pySortByUsername (roomFiles.map Prod.snd)

theorem pyStrLe_total : ∀ a b : List Char, pyStrLe a b = true ∨ pyStrLe b a = true := by
  intro a
  induction a with
  | nil => intro b; exact Or.inl rfl
  | cons x as_ ih =>
      intro b
      cases b with
      | nil => exact Or.inr rfl
      | cons y bs =>
          by_cases hxy : x = y
          · subst hxy
            rcases ih bs with h | h
            · exact Or.inl (by simpa [pyStrLe] using h)
            · exact Or.inr (by simpa [pyStrLe] using h)
          · have hyx : ¬y = x := fun e => hxy e.symm
            have hne : x.toNat ≠ y.toNat := fun e => hxy (Char.ext (UInt32.ext e))
            rcases Nat.lt_or_ge x.toNat y.toNat with h | h
            · exact Or.inl (by simp [pyStrLe, hxy, h])
            · have h2 : y.toNat < x.toNat := by omega
              exact Or.inr (by simp [pyStrLe, hyx, h2])

theorem pyStrLe_antisymm : ∀ a b : List Char,
    pyStrLe a b = true → pyStrLe b a = true → a = b := by
  intro a
  induction a with
  | nil =>
      intro b h1 h2
      cases b with
      | nil => rfl
      | cons y bs => exact absurd h2 (by simp [pyStrLe])
  | cons x as_ ih =>
      intro b h1 h2
      cases b with
      | nil => exact absurd h1 (by simp [pyStrLe])
      | cons y bs =>
          by_cases hxy : x = y
          · subst hxy
            have h1' : pyStrLe as_ bs = true := by simpa [pyStrLe] using h1
            have h2' : pyStrLe bs as_ = true := by simpa [pyStrLe] using h2
            rw [ih bs h1' h2']
          · have hyx : ¬y = x := fun e => hxy e.symm
            have hlt1 : x.toNat < y.toNat := by simpa [pyStrLe, hxy] using h1
            have hlt2 : y.toNat < x.toNat := by simpa [pyStrLe, hyx] using h2
            omega

theorem pyStrLe_trans : ∀ a b c : List Char,
    pyStrLe a b = true → pyStrLe b c = true → pyStrLe a c = true := by
  intro a
  induction a with
  | nil => intro b c h1 h2; rfl
  | cons x as_ ih =>
      intro b c h1 h2
      cases b with
      | nil => exact absurd h1 (by simp [pyStrLe])
      | cons y bs =>
          cases c with
          | nil => exact absurd h2 (by simp [pyStrLe])
          | cons z cs =>
              by_cases hxy : x = y
              · subst hxy
                by_cases hyz : x = z
                · subst hyz
                  have h1' : pyStrLe as_ bs = true := by simpa [pyStrLe] using h1
                  have h2' : pyStrLe bs cs = true := by simpa [pyStrLe] using h2
                  simpa [pyStrLe] using ih bs cs h1' h2'
                · have hlt : x.toNat < z.toNat := by simpa [pyStrLe, hyz] using h2
                  simp [pyStrLe, hyz, hlt]
              · have hlt1 : x.toNat < y.toNat := by simpa [pyStrLe, hxy] using h1
                by_cases hyz : y = z
                · subst hyz
                  simp [pyStrLe, hxy, hlt1]
                · have hlt2 : y.toNat < z.toNat := by simpa [pyStrLe, hyz] using h2
                  have hxzn : x.toNat < z.toNat := by omega
                  have hxz : ¬x = z := by
                    intro e
                    subst e
                    omega
                  simp [pyStrLe, hxz, hxzn]

def leU (a b : UserData) : Prop := pyStrLe a.username.data b.username.data = true

theorem pyInsert_perm (x : UserData) (l : List UserData) :
    (pyInsertByUsername x l).Perm (x :: l) := by
  induction l with
  | nil => exact List.Perm.refl _
  | cons y ys ih =>
      rw [pyInsertByUsername]
      by_cases h : pyStrLe x.username.data y.username.data = true
      · rw [if_pos h]
      · rw [if_neg h]
        exact ((ih.cons y).trans (List.Perm.swap x y ys))

theorem pySort_perm (l : List UserData) : (pySortByUsername l).Perm l := by
  induction l with
  | nil => exact List.Perm.refl _
  | cons x xs ih =>
      rw [pySortByUsername]
      exact (pyInsert_perm x (pySortByUsername xs)).trans (ih.cons x)

theorem pyInsert_sorted (x : UserData) (l : List UserData) (h : l.Pairwise leU) :
    (pyInsertByUsername x l).Pairwise leU := by
  induction l with
  | nil => simp [pyInsertByUsername, List.pairwise_singleton]
  | cons y ys ih =>
      rw [pyInsertByUsername]
      rcases List.pairwise_cons.mp h with ⟨hy, hys⟩
      by_cases hxy : pyStrLe x.username.data y.username.data = true
      · rw [if_pos hxy]
        refine List.pairwise_cons.mpr ⟨?_, h⟩
        intro z hz
        rcases List.mem_cons.mp hz with rfl | hz
        · exact hxy
        · exact pyStrLe_trans _ _ _ hxy (hy z hz)
      · rw [if_neg hxy]
        have hyx : leU y x := by
          rcases pyStrLe_total x.username.data y.username.data with ht | ht
          · exact absurd ht hxy
          · exact ht
        refine List.pairwise_cons.mpr ⟨?_, ih hys⟩
        intro z hz
        have hz2 := (pyInsert_perm x ys).mem_iff.mp hz
        rcases List.mem_cons.mp hz2 with rfl | hz2
        · exact hyx
        · exact hy z hz2

theorem pySort_sorted (l : List UserData) : (pySortByUsername l).Pairwise leU := by
  induction l with
  | nil => exact List.Pairwise.nil
  | cons x xs ih =>
      rw [pySortByUsername]
      exact pyInsert_sorted x _ ih

/-! Round-trip development (claim C3): spec-level descriptions of the
document a schema generates and of the intermediate loader states it
induces, and the well-formedness condition under which
`load(generate_default_config_yaml())` returns the defaults instance. -/

def identChar (c : Char) : Bool := c.isAlphanum || c = '_'

/-- Python-identifier-shaped field name (nonempty, alphanumeric or
underscore) — the shape `dataclasses` field names have. -/
def identOk (s : String) : Bool := !s.data.isEmpty && s.data.all identChar

def nodupB : List String → Bool
  | [] => true
  | n :: ns => !(ns.contains n) && nodupB ns

mutual

/-- Well-formedness of a schema, under which the round trip holds: every
record has at least one field, field names are identifier-shaped and
pairwise distinct, record-typed fields default to their sub-schema's
defaults instance (as `field: SubConfig = SubConfig()` does), and leaf
defaults are well-typed at their declared type. -/
def goodSchema : RecordSchema → Bool
  | .mk _ fs => !fs.isEmpty && nodupB (fs.map FieldSchema.name) && goodFields fs

def goodFields : List FieldSchema → Bool
  | [] => true
  | .mk name _ ty dflt :: fs =>
      (identOk name &&
        (match ty with
         | .record r => decide (dflt = defaultsOf r) && goodSchema r
         | t => hasTyB dflt t))
      && goodFields fs

end

mutual

/-- The raw value `yaml.safe_load` recovers from the generated defaults
document: per field the untyped image of its default, sub-records
recursively. -/
def rawDocOf : RecordSchema → RawVal
  | .mk _ fs => .map (rawFieldsOf fs)

def rawFieldsOf : List FieldSchema → List (String × RawVal)
  | [] => []
  | .mk name _ ty dflt :: fs =>
      (name, match ty with
        | .record r => rawDocOf r
        | _ => rawOf dflt) :: rawFieldsOf fs

end

def rawEntriesOf : RecordSchema → List (String × RawVal)
  | .mk _ fs => rawFieldsOf fs

mutual

/-- The structural (non-comment, non-blank) lines of the document `genYaml`
emits, indented relative to the record's own nesting level. -/
def structLinesOf : RecordSchema → List String
  | .mk _ fs => structFieldLines fs

def structFieldLines : List FieldSchema → List String
  | [] => []
  | .mk name _ ty dflt :: fs =>
      (match ty with
        | .record r => (name ++ ":") :: (structLinesOf r).map (fun l => "  " ++ l)
        | _ => [name ++ ": " ++ (flowEmit dflt).getD ""])
      ++ structFieldLines fs

end

mutual

/-- The flat `to_update` dict `gather_updates` accumulates while walking the
defaults document rooted at `path`: one entry per leaf field, keyed by
absolute path, in field order. -/
def flattenD : List String → RecordSchema → List (List String × Val)
  | path, .mk _ fs => flattenFields path fs

def flattenFields : List String → List FieldSchema → List (List String × Val)
  | _, [] => []
  | path, .mk name _ ty dflt :: fs =>
      (match ty with
        | .record r => flattenD (path ++ [name]) r
        | _ => [(path ++ [name], dflt)])
      ++ flattenFields path fs

end

mutual

/-- The nested override dict `unflatten` rebuilds from the flat updates of
the defaults document. -/
def ovOf : RecordSchema → List (String × Ov)
  | .mk _ fs => ovFields fs

def ovFields : List FieldSchema → List (String × Ov)
  | [] => []
  | .mk name _ ty dflt :: fs =>
      (name, match ty with
        | .record r => Ov.node (ovOf r)
        | _ => Ov.leaf dflt) :: ovFields fs

end

def spacesK (k : Nat) : String := String.mk (List.replicate (2 * k) ' ')

def indentK (k : Nat) (l : String) : String := spacesK k ++ l

mutual

def hasTy_serOk : ∀ (v : Val) (t : Ty), hasTyB v t = true → serOk v = true
  | .str _, _ => fun _ => rfl
  | .int _, _ => fun _ => rfl
  | .float _ _, _ => fun _ => rfl
  | .bool _, _ => fun _ => rfl
  | .path _, _ => fun _ => rfl
  | .record _, t => fun h => by cases t <;> exact absurd h Bool.false_ne_true
  | .tuple vs, t => fun h => by
      cases t
      case tuple ts => exact hasTyTup_serOk vs ts h
      all_goals exact absurd h Bool.false_ne_true
  | .list vs, t => fun h => by
      cases t
      case list s => exact hasTyHom_serOk vs s h
      all_goals exact absurd h Bool.false_ne_true

def hasTyTup_serOk : ∀ (vs : List Val) (ts : List Ty),
    hasTyTup vs ts = true → serOkList vs = true
  | [], _ => fun _ => rfl
  | _ :: _, [] => fun h => by simp [hasTyTup] at h
  | v :: vs, t :: ts => fun h => by
      simp only [hasTyTup, Bool.and_eq_true] at h
      simp only [serOkList, Bool.and_eq_true]
      exact ⟨hasTy_serOk v t h.1, hasTyTup_serOk vs ts h.2⟩

def hasTyHom_serOk : ∀ (vs : List Val) (t : Ty),
    hasTyHom vs t = true → serOkList vs = true
  | [], _ => fun _ => rfl
  | v :: vs, t => fun h => by
      simp only [hasTyHom, Bool.and_eq_true] at h
      simp only [serOkList, Bool.and_eq_true]
      exact ⟨hasTy_serOk v t h.1, hasTyHom_serOk vs t h.2⟩

end

mutual

def serOk_flowEmit : ∀ v : Val, serOk v = true → ∃ out, flowEmit v = some out
  | .str s => fun _ => ⟨emitStr s, rfl⟩
  | .path s => fun _ => ⟨emitStr s, rfl⟩
  | .int n => fun _ => ⟨intRepr n, rfl⟩
  | .float m e => fun _ => ⟨floatRepr m e, rfl⟩
  | .bool b => fun _ => ⟨boolYaml b, rfl⟩
  | .record _ => fun h => by simp [serOk] at h
  | .tuple vs => fun h => by
      obtain ⟨parts, hp⟩ := serOkList_flowEmit vs (by simpa [serOk] using h)
      exact ⟨"[" ++ joinComma parts ++ "]", by simp [flowEmit, hp]⟩
  | .list vs => fun h => by
      obtain ⟨parts, hp⟩ := serOkList_flowEmit vs (by simpa [serOk] using h)
      exact ⟨"[" ++ joinComma parts ++ "]", by simp [flowEmit, hp]⟩

def serOkList_flowEmit : ∀ vs : List Val,
    serOkList vs = true → ∃ parts, flowEmitList vs = some parts
  | [] => fun _ => ⟨[], rfl⟩
  | v :: vs => fun h => by
      have h2 : serOk v = true ∧ serOkList vs = true := by
        simpa [serOkList, Bool.and_eq_true] using h
      obtain ⟨out, ho⟩ := serOk_flowEmit v h2.1
      obtain ⟨parts, hp⟩ := serOkList_flowEmit vs h2.2
      exact ⟨out :: parts, by simp [flowEmitList, ho, hp]⟩

end

theorem rawFieldsOf_ne_nil (fs : List FieldSchema) (h : fs ≠ []) : rawFieldsOf fs ≠ [] := by
  match fs with
  | [] => exact absurd rfl h
  | .mk name desc ty dflt :: fs =>
      intro e
      exact List.noConfusion e

theorem identChar_spec (c : Char) (h : identChar c = true) :
    c ≠ ' ' ∧ c ≠ '\t' ∧ c ≠ '\n' ∧ c ≠ '\r' ∧ c ≠ '#' ∧ c ≠ ':' := by
  refine ⟨?_, ?_, ?_, ?_, ?_, ?_⟩ <;>
    · intro e; rw [e] at h; exact absurd h (by decide)

theorem identOk_spec (s : String) (h : identOk s = true) :
    s.data ≠ [] ∧ ∀ c ∈ s.data, identChar c = true := by
  simp only [identOk, Bool.and_eq_true] at h
  refine ⟨?_, ?_⟩
  · intro e
    rw [e] at h
    exact absurd h.1 (by decide)
  · simpa [List.all_eq_true] using h.2

/-! Line algebra: how `splitLines`, `joinNL`, `rstrip`, `indentBy` and
`skipLine` interact. -/

theorem splitCh_ne_nil : ∀ cs : List Char, splitCh cs ≠ []
  | [] => by simp [splitCh]
  | c :: cs => by
      simp only [splitCh]
      by_cases h : c = '\n'
      · simp [h]
      · rw [if_neg h]
        cases hs : splitCh cs with
        | nil => simp
        | cons l ls => simp

theorem splitCh_append_nl : ∀ xs ys : List Char,
    splitCh (xs ++ '\n' :: ys) = splitCh xs ++ splitCh ys
  | [], ys => by simp [splitCh]
  | x :: xs, ys => by
      by_cases h : x = '\n'
      · subst h
        show splitCh ('\n' :: (xs ++ '\n' :: ys)) = splitCh ('\n' :: xs) ++ splitCh ys
        simp only [splitCh, if_pos rfl]
        rw [splitCh_append_nl xs ys]
        rfl
      · show splitCh (x :: (xs ++ '\n' :: ys)) = _
        simp only [splitCh, if_neg h]
        rw [splitCh_append_nl xs ys]
        cases hs : splitCh xs with
        | nil => exact absurd hs (splitCh_ne_nil xs)
        | cons l ls => simp

theorem splitCh_no_nl : ∀ cs : List Char, '\n' ∉ cs → splitCh cs = [cs]
  | [], _ => rfl
  | c :: cs, h => by
      have hc : ¬c = '\n' := fun e => h (by rw [e]; exact List.mem_cons_self _ _)
      simp only [splitCh, if_neg hc]
      rw [splitCh_no_nl cs (fun hm => h (List.mem_cons_of_mem c hm))]

theorem mem_splitCh_no_nl : ∀ (cs : List Char), ∀ l ∈ splitCh cs, '\n' ∉ l
  | [], l, hl => by
      simp only [splitCh, List.mem_singleton] at hl
      subst hl
      simp
  | c :: cs, l, hl => by
      by_cases h : c = '\n'
      · rw [show splitCh (c :: cs) = [] :: splitCh cs by simp [splitCh, h]] at hl
        rcases List.mem_cons.mp hl with rfl | hl
        · simp
        · exact mem_splitCh_no_nl cs l hl
      · rw [show splitCh (c :: cs) = (match splitCh cs with
            | [] => [[c]]
            | l :: ls => (c :: l) :: ls) by simp [splitCh, h]] at hl
        cases hs : splitCh cs with
        | nil => exact absurd hs (splitCh_ne_nil cs)
        | cons m ms =>
            rw [hs] at hl
            rcases List.mem_cons.mp hl with rfl | hl
            · intro hmem
              rcases List.mem_cons.mp hmem with e | hmem
              · exact h e.symm
              · exact mem_splitCh_no_nl cs m (by rw [hs]; exact List.mem_cons_self m ms) hmem
            · exact mem_splitCh_no_nl cs l (by rw [hs]; exact List.mem_cons_of_mem m hl)

theorem splitCh_pre : ∀ (csp cs : List Char), csp <+: cs →
    ∃ m ms n ns, splitCh csp = m :: ms ∧ splitCh cs = n :: ns ∧ m <+: n ∧
      ∀ lp ∈ ms, ∃ l ∈ ns, lp <+: l
  | [], cs, _ => by
      cases hs : splitCh cs with
      | nil => exact absurd hs (splitCh_ne_nil cs)
      | cons n ns => exact ⟨[], [], n, ns, rfl, rfl, List.nil_prefix, by simp⟩
  | c :: csp, cs, hp => by
      obtain ⟨u, hu⟩ := hp
      subst hu
      by_cases h : c = '\n'
      · subst h
        obtain ⟨m, ms, n, ns, h1, h2, h3, h4⟩ := splitCh_pre csp (csp ++ u) ⟨u, rfl⟩
        refine ⟨[], splitCh csp, [], splitCh (csp ++ u), by simp [splitCh],
          by simp [splitCh], List.nil_prefix, ?_⟩
        intro lp hlp
        rw [h1] at hlp
        rw [h2]
        rcases List.mem_cons.mp hlp with rfl | hlp
        · exact ⟨n, List.mem_cons_self n ns, h3⟩
        · obtain ⟨l, hl, hll⟩ := h4 lp hlp
          exact ⟨l, List.mem_cons_of_mem n hl, hll⟩
      · obtain ⟨m, ms, n, ns, h1, h2, h3, h4⟩ := splitCh_pre csp (csp ++ u) ⟨u, rfl⟩
        refine ⟨c :: m, ms, c :: n, ns, ?_, ?_, ?_, h4⟩
        · simp [splitCh, h, h1]
        · simp [splitCh, h, h2]
        · exact (List.cons_prefix_cons).mpr ⟨rfl, h3⟩

theorem mem_splitCh_pre (csp cs : List Char) (hp : csp <+: cs) :
    ∀ lp ∈ splitCh csp, ∃ l ∈ splitCh cs, lp <+: l := by
  obtain ⟨m, ms, n, ns, h1, h2, h3, h4⟩ := splitCh_pre csp cs hp
  intro lp hlp
  rw [h1] at hlp
  rw [h2]
  rcases List.mem_cons.mp hlp with rfl | hlp
  · exact ⟨n, List.mem_cons_self n ns, h3⟩
  · obtain ⟨l, hl, hll⟩ := h4 lp hlp
    exact ⟨l, List.mem_cons_of_mem n hl, hll⟩

theorem joinNL_data_cons (l : String) (ls : List String) (h : ls ≠ []) :
    (joinNL (l :: ls)).data = l.data ++ '\n' :: (joinNL ls).data := by
  cases ls with
  | nil => exact absurd rfl h
  | cons l2 ls2 =>
      show (l ++ "\n" ++ joinNL (l2 :: ls2)).data = _
      rw [String.data_append, String.data_append]
      simp

theorem splitLines_joinNL : ∀ ls : List String, ls ≠ [] →
    splitLines (joinNL ls) = ls.flatMap splitLines
  | [], h => absurd rfl h
  | [l], _ => by simp [joinNL, List.flatMap]
  | l :: l2 :: ls, _ => by
      rw [show splitLines (joinNL (l :: l2 :: ls))
            = (splitCh (joinNL (l :: l2 :: ls)).data).map String.mk from rfl]
      rw [joinNL_data_cons l (l2 :: ls) (by simp), splitCh_append_nl, List.map_append]
      rw [show (splitCh (joinNL (l2 :: ls)).data).map String.mk
            = splitLines (joinNL (l2 :: ls)) from rfl]
      rw [splitLines_joinNL (l2 :: ls) (by simp)]
      rw [List.flatMap_cons]
      rfl

theorem splitLines_single (s : String) (h : '\n' ∉ s.data) : splitLines s = [s] := by
  unfold splitLines
  rw [splitCh_no_nl s.data h]
  simp [string_eta]

theorem splitLines_ne_nil (s : String) : splitLines s ≠ [] := by
  unfold splitLines
  intro e
  exact splitCh_ne_nil s.data (by simpa using e)

/-- Generic: a `flatMap` whose function yields singletons is a `map`. -/
theorem flatMap_singleton {α β : Type} (ls : List α) (g : α → List β) (f : α → β)
    (h : ∀ x ∈ ls, g x = [f x]) : ls.flatMap g = ls.map f := by
  induction ls with
  | nil => rfl
  | cons x xs ih =>
      rw [List.flatMap_cons, List.map_cons, h x (List.mem_cons_self x xs),
        ih (fun y hy => h y (List.mem_cons_of_mem x hy))]
      rfl

theorem filter_flatMap {α β : Type} (ls : List α) (g : α → List β) (p : β → Bool) :
    (ls.flatMap g).filter p = ls.flatMap (fun a => (g a).filter p) := by
  induction ls with
  | nil => rfl
  | cons x xs ih => rw [List.flatMap_cons, List.flatMap_cons, List.filter_append, ih]

theorem rstrip_data_reverse (s : String) :
    (rstrip s).data.reverse = s.data.reverse.dropWhile wsChar := by
  show (s.data.reverse.dropWhile wsChar).reverse.reverse = _
  rw [List.reverse_reverse]

theorem rstrip_pre (s : String) : (rstrip s).data <+: s.data := by
  have h1 : (rstrip s).data.reverse <:+ s.data.reverse := by
    rw [rstrip_data_reverse]
    exact List.dropWhile_suffix wsChar
  exact List.reverse_suffix.mp h1

/-- A string whose final character is not whitespace. -/
def endsSolid (s : String) : Prop := ∃ c t, s.data.reverse = c :: t ∧ wsChar c = false

theorem dropWhile_head_false {p : Char → Bool} : ∀ (l : List Char) (x : Char) (xs : List Char),
    l.dropWhile p = x :: xs → p x = false
  | [], x, xs => fun h => by simp at h
  | c :: cs, x, xs => fun h => by
      rw [List.dropWhile_cons] at h
      by_cases hc : p c = true
      · rw [if_pos hc] at h
        exact dropWhile_head_false cs x xs h
      · rw [if_neg hc] at h
        cases h
        simpa using hc

theorem rstrip_eq_self (s : String) (h : endsSolid s) : rstrip s = s := by
  obtain ⟨c, t, hr, hc⟩ := h
  have : (rstrip s).data.reverse = s.data.reverse := by
    rw [rstrip_data_reverse, hr, List.dropWhile_cons, hc]
    simp
  have h2 : (rstrip s).data = s.data := by
    have := congrArg List.reverse this
    simpa using this
  calc rstrip s = String.mk (rstrip s).data := rfl
  _ = String.mk s.data := by rw [h2]
  _ = s := string_eta s

theorem rstrip_cases (s : String) : rstrip s = "" ∨ endsSolid (rstrip s) := by
  cases hd : (rstrip s).data.reverse with
  | nil =>
      left
      have : (rstrip s).data = [] := by
        have := congrArg List.reverse hd
        simpa using this
      calc rstrip s = String.mk (rstrip s).data := rfl
      _ = "" := by rw [this]
  | cons c t =>
      right
      refine ⟨c, t, hd, ?_⟩
      rw [rstrip_data_reverse] at hd
      exact dropWhile_head_false _ c t hd

theorem skipLine_mk_cons_ws (x : Char) (a : List Char) (hx : indentWS x = true) :
    skipLine (String.mk (x :: a)) = skipLine (String.mk a) := by
  simp [skipLine, List.dropWhile_cons, hx]

theorem skipLine_mk_cons_solid (x : Char) (a : List Char) (hx : indentWS x = false) :
    skipLine (String.mk (x :: a)) = decide (x = '#') := by
  simp [skipLine, List.dropWhile_cons, hx]

theorem skip_of_pre : ∀ (a b : List Char), a <+: b →
    skipLine (String.mk b) = true → skipLine (String.mk a) = true
  | [], _ => fun _ _ => rfl
  | x :: a, b => fun hp hb => by
      obtain ⟨u, hu⟩ := hp
      subst hu
      by_cases hx : indentWS x = true
      · rw [show (x :: a) ++ u = x :: (a ++ u) from rfl, skipLine_mk_cons_ws x _ hx] at hb
        rw [skipLine_mk_cons_ws x a hx]
        exact skip_of_pre a (a ++ u) ⟨u, rfl⟩ hb
      · have hx2 : indentWS x = false := by simpa using hx
        rw [show (x :: a) ++ u = x :: (a ++ u) from rfl,
          skipLine_mk_cons_solid x _ hx2] at hb
        rw [skipLine_mk_cons_solid x a hx2]
        exact hb

theorem skip_empty : skipLine "" = true := rfl

theorem skip_hash (cs : List Char) : skipLine (String.mk ('#' :: cs)) = true := by
  rw [skipLine_mk_cons_solid '#' cs (by decide)]
  simp

theorem skip_indent2 (l : String) : skipLine ("  " ++ l) = skipLine l := by
  have h : ("  " ++ l).data = ' ' :: ' ' :: l.data := by
    rw [String.data_append]
    rfl
  calc skipLine ("  " ++ l) = skipLine (String.mk (("  " ++ l).data)) := rfl
  _ = skipLine (String.mk (' ' :: ' ' :: l.data)) := by rw [h]
  _ = skipLine (String.mk l.data) := by
      rw [skipLine_mk_cons_ws ' ' _ (by decide), skipLine_mk_cons_ws ' ' _ (by decide)]
  _ = skipLine l := by rw [string_eta]

theorem skip_head_solid (l : String) (c : Char) (t : List Char) (hd : l.data = c :: t)
    (hws : indentWS c = false) (hh : c ≠ '#') : skipLine l = false := by
  have h1 : skipLine l = skipLine (String.mk (c :: t)) := by
    rw [← hd, string_eta]
  rw [h1, skipLine_mk_cons_solid c t hws]
  simp [hh]

theorem isWSOnly_indent2 (l : String) : isWSOnly ("  " ++ l) = isWSOnly l := by
  have h : ("  " ++ l).data = ' ' :: ' ' :: l.data := by
    rw [String.data_append]
    rfl
  simp [isWSOnly, h, wsChar]

/-- Every whitespace-only line of the string is empty (no stray tabs or
carriage returns on blank lines) — true of every document the generator
emits. -/
def cleanLines (s : String) : Prop := ∀ l ∈ splitLines s, isWSOnly l = true → l = ""

theorem isWSOnly_empty : isWSOnly "" = true := rfl

theorem commonPre_pre_left : ∀ a b : List Char, commonPre a b <+: a
  | [], _ => List.nil_prefix
  | _ :: _, [] => List.nil_prefix
  | a :: as_, b :: bs => by
      by_cases h : a = b
      · simp only [commonPre, if_pos h]
        exact (List.cons_prefix_cons).mpr ⟨rfl, commonPre_pre_left as_ bs⟩
      · simp only [commonPre, if_neg h]
        exact List.nil_prefix

theorem commonPre_pre_right : ∀ a b : List Char, commonPre a b <+: b
  | [], _ => List.nil_prefix
  | _ :: _, [] => List.nil_prefix
  | a :: as_, b :: bs => by
      by_cases h : a = b
      · simp only [commonPre, if_pos h]
        exact (List.cons_prefix_cons).mpr ⟨h, commonPre_pre_right as_ bs⟩
      · simp only [commonPre, if_neg h]
        exact List.nil_prefix

theorem foldl_commonPre_pre : ∀ (ls : List (List Char)) (acc : List Char),
    (ls.foldl commonPre acc <+: acc) ∧ ∀ x ∈ ls, ls.foldl commonPre acc <+: x
  | [], acc => ⟨List.prefix_refl acc, by simp⟩
  | y :: ls, acc => by
      obtain ⟨h1, h2⟩ := foldl_commonPre_pre ls (commonPre acc y)
      rw [List.foldl_cons]
      refine ⟨h1.trans (commonPre_pre_left acc y), ?_⟩
      intro x hx
      rcases List.mem_cons.mp hx with rfl | hx
      · exact h1.trans (commonPre_pre_right acc x)
      · exact h2 x hx

theorem margin_pre (ms0 : List (List Char)) :
    ∀ x ∈ ms0, (match ms0 with
      | [] => []
      | m :: ms => ms.foldl commonPre m) <+: x := by
  cases ms0 with
  | nil => simp
  | cons m ms =>
      intro x hx
      rcases List.mem_cons.mp hx with rfl | hx
      · exact (foldl_commonPre_pre ms x).1
      · exact (foldl_commonPre_pre ms m).2 x hx

theorem dedent_shape (ls : List String) (k : Nat) :
    (ls.map (fun l => if isWSOnly l then "" else l)).map
        (fun l => if l == "" then l else String.mk (l.data.drop k))
      = ls.map (fun l => if isWSOnly l then "" else String.mk (l.data.drop k)) := by
  rw [List.map_map]
  apply List.map_congr_left
  intro l _
  by_cases hw : isWSOnly l = true
  · simp [Function.comp, hw]
  · have hne : ¬l = "" := by
      intro e
      rw [e] at hw
      exact hw isWSOnly_empty
    simp [Function.comp, hw, hne]

theorem dedent_eq (s : String) : ∃ k : Nat,
    dedent s = joinNL ((splitLines s).map (fun l =>
      if isWSOnly l then "" else String.mk (l.data.drop k)))
    ∧ ∀ l ∈ splitLines s, isWSOnly l = false → k ≤ (leadWS l.data).length := by
  refine ⟨(match ((((splitLines s).map (fun l => if isWSOnly l then "" else l)).filter
        (fun (l : String) => !(l == ""))).map (fun (l : String) => leadWS l.data)) with
      | [] => []
      | m :: ms => ms.foldl commonPre m).length, ?_, ?_⟩
  · rw [← dedent_shape]
    rfl
  · intro l hl hw
    have hfl : (if isWSOnly l then "" else l) = l := by rw [hw]; rfl
    have hmem : leadWS l.data ∈ ((((splitLines s).map (fun l => if isWSOnly l then "" else l)).filter
        (fun l => !(l == ""))).map (fun l => leadWS l.data)) := by
      refine List.mem_map_of_mem _ (List.mem_filter.mpr ⟨?_, ?_⟩)
      · rw [← hfl]
        exact List.mem_map_of_mem _ hl
      · have hne : ¬l = "" := by
          intro e
          rw [e] at hw
          exact absurd isWSOnly_empty (by rw [hw]; simp)
        simp [hne]
    exact (margin_pre _ _ hmem).length_le

theorem indentWS_wsChar (c : Char) (h : indentWS c = true) : wsChar c = true := by
  rcases Bool.or_eq_true_iff.mp h with h1 | h1
  · rw [show c = ' ' from of_decide_eq_true h1]; rfl
  · rw [show c = '\t' from of_decide_eq_true h1]; rfl

theorem isWSOnly_drop (l : String) (k : Nat) (hw : isWSOnly l = false)
    (hk : k ≤ (leadWS l.data).length) : isWSOnly (String.mk (l.data.drop k)) = false := by
  have hex : ∃ c ∈ l.data, ¬wsChar c = true := by
    have : ¬∀ c ∈ l.data, wsChar c = true := by
      intro hall
      rw [show isWSOnly l = l.data.all wsChar from rfl, List.all_eq_true.mpr hall] at hw
      cases hw
    push_neg at this
    exact this
  obtain ⟨c, hc, hcw⟩ := hex
  have hsplit : l.data.takeWhile indentWS ++ l.data.dropWhile indentWS = l.data :=
    List.takeWhile_append_dropWhile indentWS l.data
  have hcd : c ∈ l.data.dropWhile indentWS := by
    rcases List.mem_append.mp (by rw [hsplit]; exact hc) with h | h
    · exact absurd (indentWS_wsChar c (List.mem_takeWhile_imp h)) hcw
    · exact h
  have hdrop : l.data.drop k = (l.data.takeWhile indentWS).drop k ++ l.data.dropWhile indentWS := by
    conv_lhs => rw [← hsplit]
    exact List.drop_append_of_le_length hk
  rw [Bool.eq_false_iff]
  intro h2
  have hall := List.all_eq_true.mp (show (l.data.drop k).all wsChar = true from h2)
  exact hcw (hall c (by rw [hdrop]; exact List.mem_append_right _ hcd))

theorem mem_splitLines_no_nl (s : String) (l : String) (h : l ∈ splitLines s) :
    '\n' ∉ l.data := by
  obtain ⟨l0, hl0, rfl⟩ := List.mem_map.mp h
  exact mem_splitCh_no_nl s.data l0 hl0

theorem dedent_lines (d : String) :
    ∀ l ∈ splitLines (dedent d), l = "" ∨ isWSOnly l = false := by
  obtain ⟨k, heq, hbound⟩ := dedent_eq d
  rw [heq]
  rw [splitLines_joinNL _ (by
    intro e
    exact splitLines_ne_nil d (List.map_eq_nil_iff.mp e))]
  rw [flatMap_singleton _ _ id ?hs, List.map_id]
  case hs =>
    intro x hx
    obtain ⟨l0, hl0, rfl⟩ := List.mem_map.mp hx
    by_cases hw : isWSOnly l0 = true
    · rw [if_pos hw]
      simpa using splitLines_single "" (by simp)
    · rw [if_neg hw]
      refine splitLines_single _ ?_
      intro hmem
      exact mem_splitLines_no_nl d l0 hl0 (List.mem_of_mem_drop hmem)
  intro l hl
  obtain ⟨l0, hl0, rfl⟩ := List.mem_map.mp hl
  by_cases hw : isWSOnly l0 = true
  · left
    rw [if_pos hw]
  · right
    have hw2 : isWSOnly l0 = false := by simpa using hw
    rw [if_neg hw]
    exact isWSOnly_drop l0 k hw2 (hbound l0 hl0 hw2)

theorem joinNL_splitCh : ∀ cs : List Char, (joinNL ((splitCh cs).map String.mk)).data = cs
  | [] => rfl
  | c :: cs => by
      by_cases h : c = '\n'
      · subst h
        rw [show splitCh ('\n' :: cs) = [] :: splitCh cs from by simp [splitCh]]
        rw [List.map_cons]
        rw [joinNL_data_cons "" _ (by
          intro e
          exact splitCh_ne_nil cs (List.map_eq_nil_iff.mp e))]
        rw [joinNL_splitCh cs]
        rfl
      · cases hs : splitCh cs with
        | nil => exact absurd hs (splitCh_ne_nil cs)
        | cons m ms =>
            rw [show splitCh (c :: cs) = (c :: m) :: ms from by simp [splitCh, h, hs]]
            rw [List.map_cons]
            cases ms with
            | nil =>
                have h2 : m = cs := by
                  have := joinNL_splitCh cs
                  rw [hs] at this
                  exact this
                show (String.mk (c :: m)).data = c :: cs
                rw [show (String.mk (c :: m)).data = c :: m from rfl, h2]
            | cons m2 ms2 =>
                rw [joinNL_data_cons _ _ (by simp)]
                have h2 := joinNL_splitCh cs
                rw [hs, List.map_cons] at h2
                rw [joinNL_data_cons (String.mk m) _ (by simp)] at h2
                show (String.mk (c :: m)).data ++ '\n' :: _ = c :: cs
                rw [← h2]
                rfl

theorem joinNL_splitLines (s : String) : joinNL (splitLines s) = s := by
  have h := joinNL_splitCh s.data
  calc joinNL (splitLines s) = String.mk (joinNL (splitLines s)).data := (string_eta _).symm
  _ = String.mk s.data := by
      rw [show splitLines s = (splitCh s.data).map String.mk from rfl, h]
  _ = s := string_eta s

theorem joinNL_snoc_rev : ∀ (qs : List String) (q : String),
    ∃ u, (joinNL (qs ++ [q])).data.reverse = q.data.reverse ++ u
      ∧ (u = [] ∨ ∃ u2, u = '\n' :: u2)
  | [], q => ⟨[], by simp [joinNL], Or.inl rfl⟩
  | q1 :: qs, q => by
      obtain ⟨u, hu, hshape⟩ := joinNL_snoc_rev qs q
      refine ⟨u ++ ('\n' :: q1.data.reverse), ?_, ?_⟩
      · rw [show (q1 :: qs) ++ [q] = q1 :: (qs ++ [q]) from rfl]
        rw [joinNL_data_cons q1 (qs ++ [q]) (by simp)]
        rw [List.reverse_append]
        rw [show ('\n' :: (joinNL (qs ++ [q])).data).reverse
              = (joinNL (qs ++ [q])).data.reverse ++ ['\n'] from by simp]
        rw [hu]
        simp
      · rcases hshape with rfl | ⟨u2, rfl⟩
        · exact Or.inr ⟨q1.data.reverse, rfl⟩
        · exact Or.inr ⟨u2 ++ '\n' :: q1.data.reverse, rfl⟩

theorem endsSolid_joinNL (qs : List String) (q : String) (h : endsSolid q) :
    endsSolid (joinNL (qs ++ [q])) := by
  obtain ⟨c, t, hr, hc⟩ := h
  obtain ⟨u, hu, -⟩ := joinNL_snoc_rev qs q
  exact ⟨c, t ++ u, by rw [hu, hr]; rfl, hc⟩

theorem endsSolid_last (s : String) (h : endsSolid s) :
    ∃ ps q, splitLines s = ps ++ [q] ∧ endsSolid q ∧ '\n' ∉ q.data := by
  rcases List.eq_nil_or_concat (splitLines s) with he | ⟨ps, q, hpq⟩
  · exact absurd he (splitLines_ne_nil s)
  · rw [List.concat_eq_append] at hpq
    have hqmem : q ∈ splitLines s := by
      rw [hpq]
      exact List.mem_append_right ps (List.mem_singleton.mpr rfl)
    refine ⟨ps, q, hpq, ?_, mem_splitLines_no_nl s q hqmem⟩
    obtain ⟨c, t, hr, hc⟩ := h
    have hs2 : s = joinNL (ps ++ [q]) := by rw [← hpq, joinNL_splitLines]
    obtain ⟨u, hu, hshape⟩ := joinNL_snoc_rev ps q
    rw [← hs2] at hu
    rw [hr] at hu
    cases hqr : q.data.reverse with
    | nil =>
        exfalso
        rw [hqr, List.nil_append] at hu
        rcases hshape with rfl | ⟨u2, rfl⟩
        · exact List.noConfusion hu
        · injection hu with h1 h2
          rw [h1] at hc
          exact absurd hc (by decide)
    | cons d t2 =>
        rw [hqr] at hu
        have hd : d = c := by
          have := congrArg (fun l => l.headD ' ') hu.symm
          simpa using this
        exact ⟨c, t2, by rw [hqr, hd], hc⟩

theorem indentBy_lines (pre s : String) (hpre : '\n' ∉ pre.data) :
    splitLines (indentBy pre s)
      = (splitLines s).map (fun l => if isWSOnly l then l else pre ++ l) := by
  unfold indentBy
  rw [splitLines_joinNL _ (by
    intro e
    exact splitLines_ne_nil s (List.map_eq_nil_iff.mp e))]
  rw [flatMap_singleton _ _ id ?hs, List.map_id]
  case hs =>
    intro x hx
    obtain ⟨l0, hl0, rfl⟩ := List.mem_map.mp hx
    by_cases hw : isWSOnly l0 = true
    · rw [if_pos hw]
      simpa using splitLines_single l0 (mem_splitLines_no_nl s l0 hl0)
    · rw [if_neg hw]
      refine splitLines_single _ ?_
      rw [String.data_append]
      intro hmem
      rcases List.mem_append.mp hmem with h | h
      · exact hpre h
      · exact mem_splitLines_no_nl s l0 hl0 h

theorem indentBy_endsSolid (pre s : String) (h : endsSolid s) :
    endsSolid (indentBy pre s) := by
  obtain ⟨ps, q, hpq, hq, -⟩ := endsSolid_last s h
  unfold indentBy
  rw [hpq, List.map_append]
  rw [show ([q].map (fun l => if isWSOnly l then l else pre ++ l))
        = [if isWSOnly q then q else pre ++ q] from rfl]
  apply endsSolid_joinNL
  by_cases hw : isWSOnly q = true
  · rw [if_pos hw]
    exact hq
  · rw [if_neg hw]
    obtain ⟨c, t, hr, hc⟩ := hq
    exact ⟨c, t ++ pre.data.reverse, by rw [String.data_append, List.reverse_append, hr]; rfl, hc⟩

theorem commentBlock_skip (d : String) :
    ∀ l ∈ splitLines (commentBlock d), skipLine l = true := by
  unfold commentBlock
  rw [indentBy_lines "# " (dedent d) (by decide)]
  intro l hl
  obtain ⟨l0, hl0, rfl⟩ := List.mem_map.mp hl
  by_cases hw : isWSOnly l0 = true
  · rw [if_pos hw]
    rcases dedent_lines d l0 hl0 with rfl | hno
    · exact skip_empty
    · rw [hno] at hw
      cases hw
  · rw [if_neg hw]
    have hd : ("# " ++ l0).data = '#' :: ' ' :: l0.data := by
      rw [String.data_append]
      rfl
    rw [← string_eta ("# " ++ l0), hd]
    exact skip_hash _

/-- All lines of the right-stripped comment block are comment or blank
lines: they parse to nothing. -/
theorem commentBlock_rstrip_skip (d : String) :
    ∀ l ∈ splitLines (rstrip (commentBlock d)), skipLine l = true := by
  intro l hl
  obtain ⟨l0, hl0, rfl⟩ := List.mem_map.mp hl
  obtain ⟨lc, hlc, hpre2⟩ := mem_splitCh_pre (rstrip (commentBlock d)).data
    (commentBlock d).data (rstrip_pre _) l0 hl0
  have hskip := commentBlock_skip d (String.mk lc) (List.mem_map_of_mem String.mk hlc)
  exact skip_of_pre l0 lc hpre2 hskip

/-! Character facts about emitted flow scalars: they contain no newline and
end in a non-whitespace character. -/

theorem wsChar_eq_false (c : Char) (h1 : c ≠ ' ') (h2 : c ≠ '\t') (h3 : c ≠ '\n')
    (h4 : c ≠ '\r') : wsChar c = false := by
  simp [wsChar, h1, h2, h3, h4]

theorem plainChar_spec (c : Char) (h : plainChar c = true) :
    c ≠ '\n' ∧ wsChar c = false := by
  have h1 : c ≠ ' ' := by intro e; rw [e] at h; exact absurd h (by decide)
  have h2 : c ≠ '\t' := by intro e; rw [e] at h; exact absurd h (by decide)
  have h3 : c ≠ '\n' := by intro e; rw [e] at h; exact absurd h (by decide)
  have h4 : c ≠ '\r' := by intro e; rw [e] at h; exact absurd h (by decide)
  exact ⟨h3, wsChar_eq_false c h1 h2 h3 h4⟩

theorem isDigit_not_ws (c : Char) (h : c.isDigit = true) : wsChar c = false := by
  refine wsChar_eq_false c ?_ ?_ ?_ ?_ <;>
    · intro e; rw [e] at h; exact absurd h (by decide)

theorem isDigit_not_nl (c : Char) (h : c.isDigit = true) : c ≠ '\n' := by
  intro e; rw [e] at h; exact absurd h (by decide)

theorem numChar_not_nl (c : Char) (h : numChar c = true) : c ≠ '\n' := by
  intro e; rw [e] at h; exact absurd h (by decide)

theorem escChars_no_nl : ∀ (l : List Char), ∀ c ∈ escChars l, c ≠ '\n'
  | [], c, hc => by simp [escChars] at hc
  | x :: l, c, hc => by
      rw [escChars] at hc
      rcases List.mem_append.mp hc with h | h
      · by_cases h1 : x = '"' ∨ x = '\\'
        · rw [show escCh x = ['\\', x] from by simp [escCh, h1]] at h
          rcases h1 with rfl | rfl <;>
            · rcases List.mem_cons.mp h with rfl | h
              · decide
              · rcases List.mem_singleton.mp h with rfl
                decide
        · by_cases h2 : x = '\n'
          · rw [show escCh x = ['\\', 'n'] from by simp [escCh, h1, h2]] at h
            rcases List.mem_cons.mp h with rfl | h
            · decide
            · rcases List.mem_singleton.mp h with rfl
              decide
          · rw [show escCh x = [x] from by simp [escCh, h1, h2]] at h
            rcases List.mem_singleton.mp h with rfl
            exact h2
      · exact escChars_no_nl l c h

theorem joinComma_chars : ∀ (ss : List String), ∀ c ∈ (joinComma ss).data,
    (∃ p ∈ ss, c ∈ p.data) ∨ c = ',' ∨ c = ' '
  | [], c, hc => by simp [joinComma] at hc
  | [s], c, hc => Or.inl ⟨s, List.mem_singleton.mpr rfl, hc⟩
  | s :: s2 :: ss, c, hc => by
      rw [show joinComma (s :: s2 :: ss) = s ++ ", " ++ joinComma (s2 :: ss) from rfl,
        String.data_append, String.data_append] at hc
      rcases List.mem_append.mp hc with h | h
      · rcases List.mem_append.mp h with h | h
        · exact Or.inl ⟨s, List.mem_cons_self s _, h⟩
        · rcases List.mem_cons.mp h with rfl | h
          · exact Or.inr (Or.inl rfl)
          · rcases List.mem_singleton.mp h with rfl
            exact Or.inr (Or.inr rfl)
      · rcases joinComma_chars (s2 :: ss) c h with ⟨p, hp, hcp⟩ | h
        · exact Or.inl ⟨p, List.mem_cons_of_mem s hp, hcp⟩
        · exact Or.inr h

mutual

def flowEmit_no_nl : ∀ (v : Val) (out : String), flowEmit v = some out →
    ∀ c ∈ out.data, c ≠ '\n'
  | .str s, out => fun h c hc => by
      simp only [flowEmit, Option.some.injEq] at h
      subst h
      by_cases hp : plainOk s = true
      · rw [emitStr, if_pos hp] at hc
        exact (plainChar_spec c ((plainOk_spec s hp).2.1 c hc)).1
      · rw [emitStr_data_quoted s (by simpa using hp)] at hc
        rcases List.mem_cons.mp hc with rfl | hc
        · decide
        · rcases List.mem_append.mp hc with h2 | h2
          · exact escChars_no_nl s.data c h2
          · rcases List.mem_singleton.mp h2 with rfl
            decide
  | .path s, out => fun h c hc => by
      simp only [flowEmit, Option.some.injEq] at h
      subst h
      by_cases hp : plainOk s = true
      · rw [emitStr, if_pos hp] at hc
        exact (plainChar_spec c ((plainOk_spec s hp).2.1 c hc)).1
      · rw [emitStr_data_quoted s (by simpa using hp)] at hc
        rcases List.mem_cons.mp hc with rfl | hc
        · decide
        · rcases List.mem_append.mp hc with h2 | h2
          · exact escChars_no_nl s.data c h2
          · rcases List.mem_singleton.mp h2 with rfl
            decide
  | .int n, out => fun h c hc => by
      simp only [flowEmit, Option.some.injEq] at h
      subst h
      have := (intRepr_num n).2
      rw [List.all_eq_true] at this
      exact numChar_not_nl c (this c hc)
  | .float m e, out => fun h c hc => by
      simp only [flowEmit, Option.some.injEq] at h
      subst h
      have := (floatRepr_num m e).2
      rw [List.all_eq_true] at this
      exact numChar_not_nl c (this c hc)
  | .bool b, out => fun h c hc => by
      simp only [flowEmit, Option.some.injEq] at h
      subst h
      cases b
      · intro e
        rw [show boolYaml false = "false" from rfl] at hc
        rw [e] at hc
        exact absurd hc (by decide)
      · intro e
        rw [show boolYaml true = "true" from rfl] at hc
        rw [e] at hc
        exact absurd hc (by decide)
  | .tuple vs, out => fun h c hc => by
      simp only [flowEmit, Option.map_eq_some'] at h
      obtain ⟨parts, hp, hout⟩ := h
      subst hout
      rw [String.data_append, String.data_append] at hc
      rcases List.mem_append.mp hc with h2 | h2
      · rcases List.mem_append.mp h2 with h2 | h2
        · rcases List.mem_singleton.mp h2 with rfl
          decide
        · rcases joinComma_chars parts c h2 with ⟨p, hpm, hcp⟩ | h3
          · exact flowEmitList_no_nl vs parts hp p hpm c hcp
          · rcases h3 with rfl | rfl <;> decide
      · rcases List.mem_singleton.mp h2 with rfl
        decide
  | .list vs, out => fun h c hc => by
      simp only [flowEmit, Option.map_eq_some'] at h
      obtain ⟨parts, hp, hout⟩ := h
      subst hout
      rw [String.data_append, String.data_append] at hc
      rcases List.mem_append.mp hc with h2 | h2
      · rcases List.mem_append.mp h2 with h2 | h2
        · rcases List.mem_singleton.mp h2 with rfl
          decide
        · rcases joinComma_chars parts c h2 with ⟨p, hpm, hcp⟩ | h3
          · exact flowEmitList_no_nl vs parts hp p hpm c hcp
          · rcases h3 with rfl | rfl <;> decide
      · rcases List.mem_singleton.mp h2 with rfl
        decide
  | .record _, out => fun h => by simp [flowEmit] at h

def flowEmitList_no_nl : ∀ (vs : List Val) (parts : List String),
    flowEmitList vs = some parts → ∀ p ∈ parts, ∀ c ∈ p.data, c ≠ '\n'
  | [], parts => fun h p hp => by
      simp only [flowEmitList, Option.some.injEq] at h
      subst h
      simp at hp
  | v :: vs, parts => fun h p hp => by
      rw [flowEmitList] at h
      cases he : flowEmit v with
      | none => rw [he] at h; cases h
      | some s =>
          cases hl : flowEmitList vs with
          | none => rw [he, hl] at h; cases h
          | some ss =>
              rw [he, hl] at h
              simp only [Option.some.injEq] at h
              subst h
              rcases List.mem_cons.mp hp with rfl | hp
              · exact flowEmit_no_nl v p he
              · exact flowEmitList_no_nl vs ss hl p hp

end

theorem endsSolid_of_last (s : String) (c : Char) (hc : wsChar c = false)
    (h : ∃ u, s.data = u ++ [c]) : endsSolid s := by
  obtain ⟨u, hu⟩ := h
  refine ⟨c, u.reverse, ?_, hc⟩
  rw [hu, List.reverse_append]
  rfl

theorem flowEmit_solid (v : Val) (out : String) (h : flowEmit v = some out) :
    endsSolid out := by
  cases v with
  | str s =>
      simp only [flowEmit, Option.some.injEq] at h
      subst h
      by_cases hp : plainOk s = true
      · obtain ⟨hne, hall, -⟩ := plainOk_spec s hp
        rw [emitStr, if_pos hp]
        rcases List.eq_nil_or_concat s.data with he | ⟨u, c, hu⟩
        · exact absurd he hne
        · rw [List.concat_eq_append] at hu
          refine endsSolid_of_last s c ?_ ⟨u, hu⟩
          exact (plainChar_spec c (hall c (by rw [hu]; exact List.mem_append_right u (by simp)))).2
      · refine endsSolid_of_last _ '"' (by decide) ?_
        rw [emitStr_data_quoted s (by simpa using hp)]
        exact ⟨'"' :: escChars s.data, by simp⟩
  | path s =>
      simp only [flowEmit, Option.some.injEq] at h
      subst h
      by_cases hp : plainOk s = true
      · obtain ⟨hne, hall, -⟩ := plainOk_spec s hp
        rw [emitStr, if_pos hp]
        rcases List.eq_nil_or_concat s.data with he | ⟨u, c, hu⟩
        · exact absurd he hne
        · rw [List.concat_eq_append] at hu
          refine endsSolid_of_last s c ?_ ⟨u, hu⟩
          exact (plainChar_spec c (hall c (by rw [hu]; exact List.mem_append_right u (by simp)))).2
      · refine endsSolid_of_last _ '"' (by decide) ?_
        rw [emitStr_data_quoted s (by simpa using hp)]
        exact ⟨'"' :: escChars s.data, by simp⟩
  | int n =>
      simp only [flowEmit, Option.some.injEq] at h
      subst h
      rcases List.eq_nil_or_concat (natRepr n.natAbs).data with he | ⟨u, c, hu⟩
      · exact absurd he (natRepr_ne_nil _)
      · rw [List.concat_eq_append] at hu
        refine endsSolid_of_last _ c ?_ ?_
        · refine isDigit_not_ws c (natRepr_digits n.natAbs c ?_)
          rw [hu]
          exact List.mem_append_right u (by simp)
        · refine ⟨(if n < 0 then ['-'] else []) ++ u, ?_⟩
          rw [intRepr_data, hu, List.append_assoc]
  | float m e =>
      simp only [flowEmit, Option.some.injEq] at h
      subst h
      rcases List.eq_nil_or_concat
          (natReprAux (m.natAbs % 10 ^ (e + 1) + 1) (m.natAbs % 10 ^ (e + 1))) with he | ⟨u, c, hu⟩
      · exact absurd he (natReprAux_ne_nil _ _ (by omega))
      · rw [List.concat_eq_append] at hu
        have hdig : c.isDigit = true := by
          refine natReprAux_digits (m.natAbs % 10 ^ (e + 1) + 1) (m.natAbs % 10 ^ (e + 1)) c ?_
          rw [hu]
          exact List.mem_append_right u (by simp)
        refine endsSolid_of_last _ c (isDigit_not_ws c hdig) ?_
        refine ⟨(if m < 0 then ['-'] else []) ++ (natRepr (m.natAbs / 10 ^ (e + 1))).data
          ++ '.' :: (List.replicate (e + 1 - (u ++ [c]).length) '0' ++ u), ?_⟩
        rw [floatRepr_data, hu]
        simp [padZeros]
  | bool b =>
      simp only [flowEmit, Option.some.injEq] at h
      subst h
      cases b
      · exact ⟨'e', ['s', 'l', 'a', 'f'], ⟨rfl, rfl⟩⟩
      · exact ⟨'e', ['u', 'r', 't'], ⟨rfl, rfl⟩⟩
  | tuple vs =>
      simp only [flowEmit, Option.map_eq_some'] at h
      obtain ⟨parts, hp, hout⟩ := h
      subst hout
      refine endsSolid_of_last _ ']' (by decide) ?_
      refine ⟨("[" ++ joinComma parts).data, ?_⟩
      rw [String.data_append]
  | list vs =>
      simp only [flowEmit, Option.map_eq_some'] at h
      obtain ⟨parts, hp, hout⟩ := h
      subst hout
      refine endsSolid_of_last _ ']' (by decide) ?_
      refine ⟨("[" ++ joinComma parts).data, ?_⟩
      rw [String.data_append]
  | record fs => simp [flowEmit] at h

theorem endsSolid_append_right (a b : String) (h : endsSolid b) : endsSolid (a ++ b) := by
  obtain ⟨c, t, hr, hc⟩ := h
  refine ⟨c, t ++ a.data.reverse, ?_, hc⟩
  rw [String.data_append, List.reverse_append, hr]
  rfl

theorem isWSOnly_head_false (l : String) (c : Char) (t : List Char) (hd : l.data = c :: t)
    (hc : wsChar c = false) : isWSOnly l = false := by
  rw [Bool.eq_false_iff]
  intro h2
  have := List.all_eq_true.mp (show l.data.all wsChar = true from h2) c
    (by rw [hd]; exact List.mem_cons_self _ _)
  rw [hc] at this
  cases this

theorem indentWS_eq_false (c : Char) (h1 : c ≠ ' ') (h2 : c ≠ '\t') : indentWS c = false := by
  simp [indentWS, h1, h2]

theorem ident_head (name : String) (h : identOk name = true) :
    ∃ nc nt, name.data = nc :: nt ∧ wsChar nc = false ∧ indentWS nc = false ∧ nc ≠ '#' := by
  obtain ⟨hne, hall⟩ := identOk_spec name h
  obtain ⟨nc, nt, hd⟩ := List.exists_cons_of_ne_nil hne
  have hc := identChar_spec nc (hall nc (by rw [hd]; exact List.mem_cons_self _ _))
  exact ⟨nc, nt, hd, wsChar_eq_false nc hc.1 hc.2.1 hc.2.2.1 hc.2.2.2.1,
    indentWS_eq_false nc hc.1 hc.2.1, hc.2.2.2.2.1⟩

theorem name_line_data (name : String) : (name ++ ":").data = name.data ++ [':'] := by
  rw [String.data_append]

theorem leaf_line_data (name out : String) :
    (name ++ ": " ++ out).data = name.data ++ ':' :: ' ' :: out.data := by
  rw [String.data_append, String.data_append]
  simp

/-- A single solid non-comment line: right-strip is the identity, it is its
own only line, it survives the comment filter, and it is clean. -/
theorem solid_line_P (p : String) (c : Char) (t : List Char) (hd : p.data = c :: t)
    (hnl : '\n' ∉ p.data) (hsolid : endsSolid p)
    (hcws : wsChar c = false) (hcind : indentWS c = false) (hch : c ≠ '#') :
    rstrip p = p ∧ (splitLines p).filter (fun l => !skipLine l) = [p] ∧ cleanLines p := by
  have hr := rstrip_eq_self p hsolid
  have hsl := splitLines_single p hnl
  have hskip := skip_head_solid p c t hd hcind hch
  refine ⟨hr, ?_, ?_⟩
  · rw [hsl]
    simp [hskip]
  · intro l hl hw
    rw [hsl] at hl
    rcases List.mem_singleton.mp hl with rfl
    rw [isWSOnly_head_false l c t hd hcws] at hw
    cases hw

theorem comment_part_filter (d : String) :
    (splitLines (rstrip (commentBlock d))).filter (fun l => !skipLine l) = [] := by
  rw [List.filter_eq_nil_iff]
  intro l hl
  rw [commentBlock_rstrip_skip d l hl]
  simp

theorem comment_part_clean (d : String) : cleanLines (rstrip (commentBlock d)) := by
  intro l hl hw
  obtain ⟨l0, hl0, rfl⟩ := List.mem_map.mp hl
  obtain ⟨lc, hlc, hpre2⟩ := mem_splitCh_pre _ _ (rstrip_pre (commentBlock d)) l0 hl0
  have hmem : String.mk lc ∈ splitLines (commentBlock d) := List.mem_map_of_mem _ hlc
  rw [show commentBlock d = indentBy "# " (dedent d) from rfl,
    indentBy_lines "# " (dedent d) (by decide)] at hmem
  obtain ⟨m0, hm0, hfm⟩ := List.mem_map.mp hmem
  by_cases hw0 : isWSOnly m0 = true
  · rcases dedent_lines d m0 hm0 with rfl | hno
    · rw [if_pos hw0] at hfm
      have hlc0 : lc = [] := by
        have := congrArg String.data hfm
        simpa using this.symm
      rw [hlc0] at hpre2
      have hl00 : l0 = [] := List.prefix_nil.mp hpre2
      rw [hl00]
    · rw [hno] at hw0
      cases hw0
  · rw [if_neg hw0] at hfm
    cases l0 with
    | nil => rfl
    | cons a l0t =>
        exfalso
        have hlc2 : lc = '#' :: ' ' :: m0.data := by
          have h2 := congrArg String.data hfm
          rw [String.data_append] at h2
          simpa using h2.symm
        rw [hlc2] at hpre2
        have ha : a = '#' := ((List.cons_prefix_cons).mp hpre2).1
        have := List.all_eq_true.mp (show (String.mk (a :: l0t)).data.all wsChar = true from hw)
          a (List.mem_cons_self _ _)
        rw [ha] at this
        exact absurd this (by decide)

theorem filter_skip_indent2 (ls : List String)
    (hclean : ∀ l ∈ ls, isWSOnly l = true → l = "") :
    ((ls.map (fun l => if isWSOnly l then l else "  " ++ l)).filter (fun l => !skipLine l))
      = (ls.filter (fun l => !skipLine l)).map (fun l => "  " ++ l) := by
  induction ls with
  | nil => rfl
  | cons x xs ih =>
      have ihx := ih (fun l hl => hclean l (List.mem_cons_of_mem x hl))
      rw [List.map_cons, List.filter_cons, List.filter_cons]
      by_cases hw : isWSOnly x = true
      · have hx : x = "" := hclean x (List.mem_cons_self _ _) hw
        subst hx
        rw [if_pos hw]
        simp [skip_empty, ihx]
      · rw [if_neg hw]
        rw [show skipLine ("  " ++ x) = skipLine x from skip_indent2 x]
        by_cases hs : skipLine x = true
        · simp [hs, ihx]
        · simp [hs, ihx]

theorem clean_indent2 (s : String) (hclean : cleanLines s) : cleanLines (indentBy "  " s) := by
  intro l hl hw
  rw [indentBy_lines "  " s (by decide)] at hl
  obtain ⟨l0, hl0, hfl⟩ := List.mem_map.mp hl
  by_cases hw0 : isWSOnly l0 = true
  · rw [if_pos hw0] at hfl
    rw [← hfl]
    rw [← hfl] at hw
    exact hclean l0 hl0 hw
  · rw [if_neg hw0] at hfl
    rw [← hfl, isWSOnly_indent2] at hw
    exact absurd hw hw0

/-- Assembly of the generator characterization for one leaf field, given the
reduced equations for this field's parts and structural lines. -/
theorem genParts_struct_leaf (name : String) (desc : Option String) (ty : Ty) (dflt : Val)
    (fs : List FieldSchema) (out : String) (rest : List String)
    (hid : identOk name = true) (hout : flowEmit dflt = some out)
    (hgp : genParts (.mk name desc ty dflt :: fs) = some ((match desc with
        | some d0 => commentBlock d0 :: [name ++ ": " ++ out]
        | none => [name ++ ": " ++ out]) ++ rest))
    (hsf : structFieldLines (.mk name desc ty dflt :: fs)
        = (name ++ ": " ++ out) :: structFieldLines fs)
    (hfilterR : (rest.map rstrip).flatMap (fun p => (splitLines p).filter (fun l => !skipLine l))
        = structFieldLines fs)
    (hcleanR : ∀ p ∈ rest, cleanLines (rstrip p))
    (hnilR : fs = [] → rest = [])
    (hlastR : fs ≠ [] → ∃ ps q, rest = ps ++ [q] ∧ endsSolid (rstrip q)) :
    ∃ parts, genParts (.mk name desc ty dflt :: fs) = some parts
      ∧ ((parts.map rstrip).flatMap (fun p => (splitLines p).filter (fun l => !skipLine l)))
          = structFieldLines (.mk name desc ty dflt :: fs)
      ∧ (∀ p ∈ parts, cleanLines (rstrip p))
      ∧ ((.mk name desc ty dflt :: fs : List FieldSchema) = [] → parts = [])
      ∧ ((.mk name desc ty dflt :: fs : List FieldSchema) ≠ [] →
          ∃ ps q, parts = ps ++ [q] ∧ endsSolid (rstrip q)) := by
  obtain ⟨nc, nt, hnd, hncws, hncind, hnch⟩ := ident_head name hid
  have hd1 : (name ++ ": " ++ out).data = nc :: (nt ++ ':' :: ' ' :: out.data) := by
    rw [leaf_line_data, hnd]
    rfl
  have hnl1 : '\n' ∉ (name ++ ": " ++ out).data := by
    rw [leaf_line_data]
    intro hm
    rcases List.mem_append.mp hm with h | h
    · exact (identChar_spec _ ((identOk_spec name hid).2 _ h)).2.2.1 rfl
    · rcases List.mem_cons.mp h with h2 | h2
      · exact absurd h2 (by decide)
      · rcases List.mem_cons.mp h2 with h3 | h3
        · exact absurd h3 (by decide)
        · exact flowEmit_no_nl dflt out hout '\n' h3 rfl
  have hsolid1 : endsSolid (name ++ ": " ++ out) :=
    endsSolid_append_right (name ++ ": ") out (flowEmit_solid dflt out hout)
  obtain ⟨hr1, hP1, hc1⟩ := solid_line_P (name ++ ": " ++ out) nc (nt ++ ':' :: ' ' :: out.data)
    hd1 hnl1 hsolid1 hncws hncind hnch
  cases desc with
  | none =>
      refine ⟨[name ++ ": " ++ out] ++ rest, hgp, ?_, ?_, ?_, ?_⟩
      · rw [hsf, List.map_append, List.flatMap_append, hfilterR]
        rw [List.map_cons, List.map_nil, hr1]
        rw [List.flatMap_cons, List.flatMap_nil, hP1]
        simp
      · intro p hp
        rcases List.mem_append.mp hp with h | h
        · rcases List.mem_singleton.mp h with rfl
          rw [hr1]
          exact hc1
        · exact hcleanR p h
      · intro e
        exact absurd e (by simp)
      · intro _
        by_cases hfe : fs = []
        · rw [hnilR hfe]
          refine ⟨[], name ++ ": " ++ out, by simp, ?_⟩
          rw [hr1]
          exact hsolid1
        · obtain ⟨psR, qR, hpsR, hsolidR⟩ := hlastR hfe
          refine ⟨[name ++ ": " ++ out] ++ psR, qR, ?_, hsolidR⟩
          rw [hpsR]
          simp
  | some d0 =>
      refine ⟨(commentBlock d0 :: [name ++ ": " ++ out]) ++ rest, hgp, ?_, ?_, ?_, ?_⟩
      · rw [hsf, List.map_append, List.flatMap_append, hfilterR]
        rw [List.map_cons, List.map_cons, List.map_nil, hr1]
        rw [List.flatMap_cons, List.flatMap_cons, List.flatMap_nil]
        rw [comment_part_filter, hP1]
        simp
      · intro p hp
        rcases List.mem_append.mp hp with h | h
        · rcases List.mem_cons.mp h with rfl | h
          · exact comment_part_clean d0
          · rcases List.mem_singleton.mp h with rfl
            rw [hr1]
            exact hc1
        · exact hcleanR p h
      · intro e
        exact absurd e (by simp)
      · intro _
        by_cases hfe : fs = []
        · rw [hnilR hfe]
          refine ⟨[commentBlock d0], name ++ ": " ++ out, by simp, ?_⟩
          rw [hr1]
          exact hsolid1
        · obtain ⟨psR, qR, hpsR, hsolidR⟩ := hlastR hfe
          refine ⟨(commentBlock d0 :: [name ++ ": " ++ out]) ++ psR, qR, ?_, hsolidR⟩
          rw [hpsR]
          simp

mutual

/-- Characterization of the generated document of a well-formed schema: it
exists, its non-comment lines are exactly the structural lines, blank lines
are empty, and it ends in a non-whitespace character. -/
def genYaml_struct : ∀ S : RecordSchema, goodSchema S = true →
    ∃ doc, genYaml S = some doc
      ∧ (splitLines doc).filter (fun l => !skipLine l) = structLinesOf S
      ∧ cleanLines doc ∧ endsSolid doc
  | .mk doc0 fs => fun hg => by
      rw [goodSchema, Bool.and_eq_true, Bool.and_eq_true] at hg
      obtain ⟨⟨hne0, -⟩, hgf⟩ := hg
      have hfs : fs ≠ [] := by
        intro e
        rw [e] at hne0
        exact absurd hne0 (by decide)
      obtain ⟨parts, hparts, hfilter, hclean, -, hlast⟩ := genParts_struct fs hgf
      obtain ⟨ps, q, hpq, hsolidq⟩ := hlast hfs
      have hpartsne : parts ≠ [] := by
        rw [hpq]
        simp
      cases doc0 with
      | none =>
          refine ⟨joinNL (parts.map rstrip), ?_, ?_, ?_, ?_⟩
          · rw [genYaml, hparts]
          · rw [splitLines_joinNL _ (by
              intro e
              exact hpartsne (List.map_eq_nil_iff.mp e))]
            rw [filter_flatMap]
            exact hfilter
          · intro l hl hw
            rw [splitLines_joinNL _ (by
              intro e
              exact hpartsne (List.map_eq_nil_iff.mp e))] at hl
            obtain ⟨p, hp, hlp⟩ := List.mem_flatMap.mp hl
            obtain ⟨p0, hp0, rfl⟩ := List.mem_map.mp hp
            exact hclean p0 hp0 l hlp hw
          · rw [hpq, List.map_append]
            exact endsSolid_joinNL _ _ hsolidq
      | some d =>
          refine ⟨joinNL ((commentBlock d :: parts).map rstrip), ?_, ?_, ?_, ?_⟩
          · rw [genYaml, hparts]
          · rw [splitLines_joinNL _ (by simp)]
            rw [filter_flatMap]
            rw [List.map_cons, List.flatMap_cons, comment_part_filter, List.nil_append]
            exact hfilter
          · intro l hl hw
            rw [splitLines_joinNL _ (by simp)] at hl
            obtain ⟨p, hp, hlp⟩ := List.mem_flatMap.mp hl
            rw [List.map_cons] at hp
            rcases List.mem_cons.mp hp with rfl | hp
            · exact comment_part_clean d l hlp hw
            · obtain ⟨p0, hp0, rfl⟩ := List.mem_map.mp hp
              exact hclean p0 hp0 l hlp hw
          · rw [List.map_cons, hpq, List.map_append]
            rw [show rstrip (commentBlock d) :: (ps.map rstrip ++ [q].map rstrip)
                  = (rstrip (commentBlock d) :: ps.map rstrip) ++ [rstrip q] from by simp]
            exact endsSolid_joinNL _ _ hsolidq

def genParts_struct : ∀ fs : List FieldSchema, goodFields fs = true →
    ∃ parts, genParts fs = some parts
      ∧ ((parts.map rstrip).flatMap (fun p => (splitLines p).filter (fun l => !skipLine l)))
          = structFieldLines fs
      ∧ (∀ p ∈ parts, cleanLines (rstrip p))
      ∧ (fs = [] → parts = [])
      ∧ (fs ≠ [] → ∃ ps q, parts = ps ++ [q] ∧ endsSolid (rstrip q))
  | [] => fun _ => ⟨[], rfl, rfl, by simp, fun _ => rfl, fun h => absurd rfl h⟩
  | .mk name desc ty dflt :: fs => fun hg => by
      cases ty with
      | record r =>
          rw [goodFields, Bool.and_eq_true] at hg
          obtain ⟨hhead, hgf⟩ := hg
          rw [Bool.and_eq_true] at hhead
          obtain ⟨hid, hmatch⟩ := hhead
          rw [Bool.and_eq_true] at hmatch
          obtain ⟨hdec, hgr⟩ := hmatch
          obtain ⟨rest, hrest, hfilterR, hcleanR, hnilR, hlastR⟩ := genParts_struct fs hgf
          obtain ⟨sub, hsub, hfilterS, hcleanS, hsolidS⟩ := genYaml_struct r hgr
          obtain ⟨nc, nt, hnd, hncws, hncind, hnch⟩ := ident_head name hid
          have hnl1 : '\n' ∉ (name ++ ":").data := by
            rw [name_line_data]
            intro hm
            rcases List.mem_append.mp hm with h | h
            · exact (identChar_spec _ ((identOk_spec name hid).2 _ h)).2.2.1 rfl
            · rcases List.mem_singleton.mp h with h2
              exact absurd h2 (by decide)
          have hd1 : (name ++ ":").data = nc :: (nt ++ [':']) := by
            rw [name_line_data, hnd]
            rfl
          have hsolid1 : endsSolid (name ++ ":") := by
            refine endsSolid_of_last _ ':' (by decide) ⟨name.data, name_line_data name⟩
          obtain ⟨hr1, hP1, hc1⟩ := solid_line_P (name ++ ":") nc (nt ++ [':'])
            hd1 hnl1 hsolid1 hncws hncind hnch
          have hsolid2 : endsSolid (indentBy "  " sub) := indentBy_endsSolid "  " sub hsolidS
          have hr2 : rstrip (indentBy "  " sub) = indentBy "  " sub :=
            rstrip_eq_self _ hsolid2
          have hP2 : (splitLines (indentBy "  " sub)).filter (fun l => !skipLine l)
              = (structLinesOf r).map (fun l => "  " ++ l) := by
            rw [indentBy_lines "  " sub (by decide), filter_skip_indent2 _ hcleanS, hfilterS]
          have hc2 : cleanLines (indentBy "  " sub) := clean_indent2 sub hcleanS
          have hgp : genParts (FieldSchema.mk name desc (.record r) dflt :: fs)
              = some ((match desc with
                  | some d0 => commentBlock d0 :: [name ++ ":", indentBy "  " sub]
                  | none => [name ++ ":", indentBy "  " sub]) ++ rest) := by
            rw [genParts, hrest, hsub]
          have hsfR : structFieldLines (FieldSchema.mk name desc (.record r) dflt :: fs)
              = ((name ++ ":") :: (structLinesOf r).map (fun l => "  " ++ l))
                ++ structFieldLines fs := by
            rw [structFieldLines]
          cases desc with
          | none =>
              refine ⟨[name ++ ":", indentBy "  " sub] ++ rest, hgp, ?_, ?_, ?_, ?_⟩
              · rw [hsfR, List.map_append, List.flatMap_append, hfilterR]
                rw [List.map_cons, List.map_cons, List.map_nil, hr1, hr2]
                rw [List.flatMap_cons, List.flatMap_cons, List.flatMap_nil]
                rw [hP1, hP2]
                simp
              · intro p hp
                rcases List.mem_append.mp hp with h | h
                · rcases List.mem_cons.mp h with rfl | h
                  · rw [hr1]
                    exact hc1
                  · rcases List.mem_singleton.mp h with rfl
                    rw [hr2]
                    exact hc2
                · exact hcleanR p h
              · intro e
                exact absurd e (by simp)
              · intro _
                by_cases hfe : fs = []
                · rw [hnilR hfe]
                  refine ⟨[name ++ ":"], indentBy "  " sub, by simp, ?_⟩
                  rw [hr2]
                  exact hsolid2
                · obtain ⟨psR, qR, hpsR, hsolidR⟩ := hlastR hfe
                  refine ⟨[name ++ ":", indentBy "  " sub] ++ psR, qR, ?_, hsolidR⟩
                  rw [hpsR]
                  simp
          | some d0 =>
              refine ⟨(commentBlock d0 :: [name ++ ":", indentBy "  " sub]) ++ rest,
                hgp, ?_, ?_, ?_, ?_⟩
              · rw [hsfR, List.map_append, List.flatMap_append, hfilterR]
                rw [List.map_cons, List.map_cons, List.map_cons, List.map_nil, hr1, hr2]
                rw [List.flatMap_cons, List.flatMap_cons, List.flatMap_cons, List.flatMap_nil]
                rw [comment_part_filter, hP1, hP2]
                simp
              · intro p hp
                rcases List.mem_append.mp hp with h | h
                · rcases List.mem_cons.mp h with rfl | h
                  · exact comment_part_clean d0
                  · rcases List.mem_cons.mp h with rfl | h
                    · rw [hr1]
                      exact hc1
                    · rcases List.mem_singleton.mp h with rfl
                      rw [hr2]
                      exact hc2
                · exact hcleanR p h
              · intro e
                exact absurd e (by simp)
              · intro _
                by_cases hfe : fs = []
                · rw [hnilR hfe]
                  refine ⟨[commentBlock d0, name ++ ":"], indentBy "  " sub, by simp, ?_⟩
                  rw [hr2]
                  exact hsolid2
                · obtain ⟨psR, qR, hpsR, hsolidR⟩ := hlastR hfe
                  refine ⟨(commentBlock d0 :: [name ++ ":", indentBy "  " sub]) ++ psR, qR,
                    ?_, hsolidR⟩
                  rw [hpsR]
                  simp
      | str =>
          rw [goodFields, Bool.and_eq_true] at hg
          all_goals try (intro x hx; exact Ty.noConfusion hx)
          obtain ⟨hhead, hgf⟩ := hg
          rw [Bool.and_eq_true] at hhead
          obtain ⟨hid, hmatch⟩ := hhead
          obtain ⟨rest, hrest, hfilterR, hcleanR, hnilR, hlastR⟩ := genParts_struct fs hgf
          have hty : hasTyB dflt Ty.str = true := hmatch
          obtain ⟨out, hout⟩ := serOk_flowEmit dflt (hasTy_serOk dflt Ty.str hty)
          have hline : toNiceYaml name dflt = some (name ++ ": " ++ out) := by
            rw [toNiceYaml, hout]
            rfl
          have hgp : genParts (FieldSchema.mk name desc Ty.str dflt :: fs)
              = some ((match desc with
                  | some d0 => commentBlock d0 :: [name ++ ": " ++ out]
                  | none => [name ++ ": " ++ out]) ++ rest) := by
            rw [genParts, hrest, hline]
            all_goals first
              | rfl
              | (intro x hx; exact Ty.noConfusion hx)
          have hsf : structFieldLines (FieldSchema.mk name desc Ty.str dflt :: fs)
              = (name ++ ": " ++ out) :: structFieldLines fs := by
            rw [structFieldLines, hout]
            all_goals first
              | rfl
              | (intro x hx; exact Ty.noConfusion hx)
          exact genParts_struct_leaf name desc Ty.str dflt fs out rest hid hout hgp hsf
            hfilterR hcleanR hnilR hlastR
      | int =>
          rw [goodFields, Bool.and_eq_true] at hg
          all_goals try (intro x hx; exact Ty.noConfusion hx)
          obtain ⟨hhead, hgf⟩ := hg
          rw [Bool.and_eq_true] at hhead
          obtain ⟨hid, hmatch⟩ := hhead
          obtain ⟨rest, hrest, hfilterR, hcleanR, hnilR, hlastR⟩ := genParts_struct fs hgf
          have hty : hasTyB dflt Ty.int = true := hmatch
          obtain ⟨out, hout⟩ := serOk_flowEmit dflt (hasTy_serOk dflt Ty.int hty)
          have hline : toNiceYaml name dflt = some (name ++ ": " ++ out) := by
            rw [toNiceYaml, hout]
            rfl
          have hgp : genParts (FieldSchema.mk name desc Ty.int dflt :: fs)
              = some ((match desc with
                  | some d0 => commentBlock d0 :: [name ++ ": " ++ out]
                  | none => [name ++ ": " ++ out]) ++ rest) := by
            rw [genParts, hrest, hline]
            all_goals first
              | rfl
              | (intro x hx; exact Ty.noConfusion hx)
          have hsf : structFieldLines (FieldSchema.mk name desc Ty.int dflt :: fs)
              = (name ++ ": " ++ out) :: structFieldLines fs := by
            rw [structFieldLines, hout]
            all_goals first
              | rfl
              | (intro x hx; exact Ty.noConfusion hx)
          exact genParts_struct_leaf name desc Ty.int dflt fs out rest hid hout hgp hsf
            hfilterR hcleanR hnilR hlastR
      | float =>
          rw [goodFields, Bool.and_eq_true] at hg
          all_goals try (intro x hx; exact Ty.noConfusion hx)
          obtain ⟨hhead, hgf⟩ := hg
          rw [Bool.and_eq_true] at hhead
          obtain ⟨hid, hmatch⟩ := hhead
          obtain ⟨rest, hrest, hfilterR, hcleanR, hnilR, hlastR⟩ := genParts_struct fs hgf
          have hty : hasTyB dflt Ty.float = true := hmatch
          obtain ⟨out, hout⟩ := serOk_flowEmit dflt (hasTy_serOk dflt Ty.float hty)
          have hline : toNiceYaml name dflt = some (name ++ ": " ++ out) := by
            rw [toNiceYaml, hout]
            rfl
          have hgp : genParts (FieldSchema.mk name desc Ty.float dflt :: fs)
              = some ((match desc with
                  | some d0 => commentBlock d0 :: [name ++ ": " ++ out]
                  | none => [name ++ ": " ++ out]) ++ rest) := by
            rw [genParts, hrest, hline]
            all_goals first
              | rfl
              | (intro x hx; exact Ty.noConfusion hx)
          have hsf : structFieldLines (FieldSchema.mk name desc Ty.float dflt :: fs)
              = (name ++ ": " ++ out) :: structFieldLines fs := by
            rw [structFieldLines, hout]
            all_goals first
              | rfl
              | (intro x hx; exact Ty.noConfusion hx)
          exact genParts_struct_leaf name desc Ty.float dflt fs out rest hid hout hgp hsf
            hfilterR hcleanR hnilR hlastR
      | bool =>
          rw [goodFields, Bool.and_eq_true] at hg
          all_goals try (intro x hx; exact Ty.noConfusion hx)
          obtain ⟨hhead, hgf⟩ := hg
          rw [Bool.and_eq_true] at hhead
          obtain ⟨hid, hmatch⟩ := hhead
          obtain ⟨rest, hrest, hfilterR, hcleanR, hnilR, hlastR⟩ := genParts_struct fs hgf
          have hty : hasTyB dflt Ty.bool = true := hmatch
          obtain ⟨out, hout⟩ := serOk_flowEmit dflt (hasTy_serOk dflt Ty.bool hty)
          have hline : toNiceYaml name dflt = some (name ++ ": " ++ out) := by
            rw [toNiceYaml, hout]
            rfl
          have hgp : genParts (FieldSchema.mk name desc Ty.bool dflt :: fs)
              = some ((match desc with
                  | some d0 => commentBlock d0 :: [name ++ ": " ++ out]
                  | none => [name ++ ": " ++ out]) ++ rest) := by
            rw [genParts, hrest, hline]
            all_goals first
              | rfl
              | (intro x hx; exact Ty.noConfusion hx)
          have hsf : structFieldLines (FieldSchema.mk name desc Ty.bool dflt :: fs)
              = (name ++ ": " ++ out) :: structFieldLines fs := by
            rw [structFieldLines, hout]
            all_goals first
              | rfl
              | (intro x hx; exact Ty.noConfusion hx)
          exact genParts_struct_leaf name desc Ty.bool dflt fs out rest hid hout hgp hsf
            hfilterR hcleanR hnilR hlastR
      | path =>
          rw [goodFields, Bool.and_eq_true] at hg
          all_goals try (intro x hx; exact Ty.noConfusion hx)
          obtain ⟨hhead, hgf⟩ := hg
          rw [Bool.and_eq_true] at hhead
          obtain ⟨hid, hmatch⟩ := hhead
          obtain ⟨rest, hrest, hfilterR, hcleanR, hnilR, hlastR⟩ := genParts_struct fs hgf
          have hty : hasTyB dflt Ty.path = true := hmatch
          obtain ⟨out, hout⟩ := serOk_flowEmit dflt (hasTy_serOk dflt Ty.path hty)
          have hline : toNiceYaml name dflt = some (name ++ ": " ++ out) := by
            rw [toNiceYaml, hout]
            rfl
          have hgp : genParts (FieldSchema.mk name desc Ty.path dflt :: fs)
              = some ((match desc with
                  | some d0 => commentBlock d0 :: [name ++ ": " ++ out]
                  | none => [name ++ ": " ++ out]) ++ rest) := by
            rw [genParts, hrest, hline]
            all_goals first
              | rfl
              | (intro x hx; exact Ty.noConfusion hx)
          have hsf : structFieldLines (FieldSchema.mk name desc Ty.path dflt :: fs)
              = (name ++ ": " ++ out) :: structFieldLines fs := by
            rw [structFieldLines, hout]
            all_goals first
              | rfl
              | (intro x hx; exact Ty.noConfusion hx)
          exact genParts_struct_leaf name desc Ty.path dflt fs out rest hid hout hgp hsf
            hfilterR hcleanR hnilR hlastR
      | tuple ts =>
          rw [goodFields, Bool.and_eq_true] at hg
          all_goals try (intro x hx; exact Ty.noConfusion hx)
          obtain ⟨hhead, hgf⟩ := hg
          rw [Bool.and_eq_true] at hhead
          obtain ⟨hid, hmatch⟩ := hhead
          obtain ⟨rest, hrest, hfilterR, hcleanR, hnilR, hlastR⟩ := genParts_struct fs hgf
          have hty : hasTyB dflt (Ty.tuple ts) = true := hmatch
          obtain ⟨out, hout⟩ := serOk_flowEmit dflt (hasTy_serOk dflt (Ty.tuple ts) hty)
          have hline : toNiceYaml name dflt = some (name ++ ": " ++ out) := by
            rw [toNiceYaml, hout]
            rfl
          have hgp : genParts (FieldSchema.mk name desc (Ty.tuple ts) dflt :: fs)
              = some ((match desc with
                  | some d0 => commentBlock d0 :: [name ++ ": " ++ out]
                  | none => [name ++ ": " ++ out]) ++ rest) := by
            rw [genParts, hrest, hline]
            all_goals first
              | rfl
              | (intro x hx; exact Ty.noConfusion hx)
          have hsf : structFieldLines (FieldSchema.mk name desc (Ty.tuple ts) dflt :: fs)
              = (name ++ ": " ++ out) :: structFieldLines fs := by
            rw [structFieldLines, hout]
            all_goals first
              | rfl
              | (intro x hx; exact Ty.noConfusion hx)
          exact genParts_struct_leaf name desc (Ty.tuple ts) dflt fs out rest hid hout hgp hsf
            hfilterR hcleanR hnilR hlastR
      | list t =>
          rw [goodFields, Bool.and_eq_true] at hg
          all_goals try (intro x hx; exact Ty.noConfusion hx)
          obtain ⟨hhead, hgf⟩ := hg
          rw [Bool.and_eq_true] at hhead
          obtain ⟨hid, hmatch⟩ := hhead
          obtain ⟨rest, hrest, hfilterR, hcleanR, hnilR, hlastR⟩ := genParts_struct fs hgf
          have hty : hasTyB dflt (Ty.list t) = true := hmatch
          obtain ⟨out, hout⟩ := serOk_flowEmit dflt (hasTy_serOk dflt (Ty.list t) hty)
          have hline : toNiceYaml name dflt = some (name ++ ": " ++ out) := by
            rw [toNiceYaml, hout]
            rfl
          have hgp : genParts (FieldSchema.mk name desc (Ty.list t) dflt :: fs)
              = some ((match desc with
                  | some d0 => commentBlock d0 :: [name ++ ": " ++ out]
                  | none => [name ++ ": " ++ out]) ++ rest) := by
            rw [genParts, hrest, hline]
            all_goals first
              | rfl
              | (intro x hx; exact Ty.noConfusion hx)
          have hsf : structFieldLines (FieldSchema.mk name desc (Ty.list t) dflt :: fs)
              = (name ++ ": " ++ out) :: structFieldLines fs := by
            rw [structFieldLines, hout]
            all_goals first
              | rfl
              | (intro x hx; exact Ty.noConfusion hx)
          exact genParts_struct_leaf name desc (Ty.list t) dflt fs out rest hid hout hgp hsf
            hfilterR hcleanR hnilR hlastR

end

/-! Parse side of the round trip: `parseFieldsF` recovers the raw defaults
document from the structural lines. -/

theorem strext (a b : String) (h : a.data = b.data) : a = b := by
  rw [← string_eta a, ← string_eta b, h]

/-- The lines left over for a block at nesting level `k`: none, or starting
shallower than the block's indentation. -/
def restOk : List String → Nat → Prop
  | [], _ => True
  | l :: _, k => lineIndent l < 2 * k

theorem restOk_mono (rest : List String) (k k2 : Nat) (h : restOk rest k) (hk : k ≤ k2) :
    restOk rest k2 := by
  cases rest with
  | nil => trivial
  | cons l ls =>
      show lineIndent l < 2 * k2
      have : lineIndent l < 2 * k := h
      omega

theorem lineIndent_indentK (k : Nat) (l : String) (c : Char) (t : List Char)
    (hd : l.data = c :: t) (hc : c ≠ ' ') : lineIndent (indentK k l) = 2 * k := by
  unfold lineIndent
  have hdata : (indentK k l).data = List.replicate (2 * k) ' ' ++ (c :: t) := by
    show (spacesK k ++ l).data = _
    rw [String.data_append, hd]
    rfl
  rw [hdata]
  rw [takeWhile_all_append _ _ c t (fun x hx => by
      have := List.eq_of_mem_replicate hx
      simp [this]) (by simp [hc])]
  exact List.length_replicate _ _

theorem indentK_drop (k : Nat) (l : String) : (indentK k l).data.drop (2 * k) = l.data := by
  show (spacesK k ++ l).data.drop (2 * k) = l.data
  rw [String.data_append]
  exact List.drop_left' (List.length_replicate _ _)

theorem indentK_indent2 (k : Nat) (l : String) : indentK k ("  " ++ l) = indentK (k + 1) l := by
  apply strext
  show (spacesK k ++ ("  " ++ l)).data = (spacesK (k + 1) ++ l).data
  rw [String.data_append, String.data_append, String.data_append]
  rw [show ("  " : String).data = List.replicate 2 ' ' from rfl]
  rw [show (spacesK k).data = List.replicate (2 * k) ' ' from rfl]
  rw [show (spacesK (k + 1)).data = List.replicate (2 * k + 2) ' ' from by
    show List.replicate (2 * (k + 1)) ' ' = _
    rw [show 2 * (k + 1) = 2 * k + 2 from by omega]]
  rw [← List.append_assoc, ← List.replicate_add]

theorem map_indentK_indent2 (k : Nat) (ls : List String) :
    (ls.map (fun l => "  " ++ l)).map (indentK k) = ls.map (indentK (k + 1)) := by
  rw [List.map_map]
  apply List.map_congr_left
  intro l _
  exact indentK_indent2 k l

theorem goodFields_parts : ∀ (f : FieldSchema) (fs : List FieldSchema),
    goodFields (f :: fs) = true → identOk f.name = true ∧ goodFields fs = true
  | .mk name desc ty dflt, fs => fun hg => by
      cases ty <;>
        · rw [goodFields, Bool.and_eq_true] at hg
          all_goals try (intro x hx; exact Ty.noConfusion hx)
          obtain ⟨hhead, hgf⟩ := hg
          rw [Bool.and_eq_true] at hhead
          exact ⟨hhead.1, hgf⟩

theorem goodFields_leaf_ty (name : String) (desc : Option String) (ty : Ty) (dflt : Val)
    (fs : List FieldSchema) (hg : goodFields (.mk name desc ty dflt :: fs) = true)
    (hnr : ∀ r, ty ≠ .record r) : hasTyB dflt ty = true := by
  cases ty
  case record r => exact absurd rfl (hnr r)
  all_goals
  · rw [goodFields, Bool.and_eq_true, Bool.and_eq_true] at hg
    all_goals try (intro x hx; exact Ty.noConfusion hx)
    exact hg.1.2

theorem goodFields_record (name : String) (desc : Option String) (r : RecordSchema)
    (dflt : Val) (fs : List FieldSchema)
    (hg : goodFields (.mk name desc (.record r) dflt :: fs) = true) :
    dflt = defaultsOf r ∧ goodSchema r = true := by
  rw [goodFields, Bool.and_eq_true, Bool.and_eq_true, Bool.and_eq_true] at hg
  exact ⟨of_decide_eq_true hg.1.2.1, hg.1.2.2⟩

theorem goodSchema_parts : ∀ S : RecordSchema, goodSchema S = true →
    S.fields ≠ [] ∧ nodupB (S.fields.map FieldSchema.name) = true
      ∧ goodFields S.fields = true
  | .mk doc fs => fun hg => by
      rw [goodSchema, Bool.and_eq_true, Bool.and_eq_true] at hg
      refine ⟨?_, hg.1.2, hg.2⟩
      intro e
      have hg2 := hg.1.1
      rw [show RecordSchema.fields (.mk doc fs) = fs from rfl] at e
      rw [e] at hg2
      exact absurd hg2 (by decide)

theorem structFieldLines_head : ∀ (f : FieldSchema) (fs2 : List FieldSchema),
    identOk f.name = true → ∃ l0 tl c t,
      structFieldLines (f :: fs2) = l0 :: tl ∧ l0.data = c :: t ∧ c ≠ ' '
  | .mk name desc ty dflt, fs2 => fun hid => by
      obtain ⟨hnne, hall⟩ := identOk_spec name hid
      obtain ⟨nc, nt, hnd⟩ := List.exists_cons_of_ne_nil hnne
      have hni : nc ≠ ' ' :=
        (identChar_spec nc (hall nc (by rw [hnd]; exact List.mem_cons_self _ _))).1
      cases ty <;> first
        | exact ⟨name ++ ":", _, nc, nt ++ [':'], rfl, by rw [name_line_data, hnd]; rfl, hni⟩
        | exact ⟨name ++ ": " ++ (flowEmit dflt).getD "", _, nc,
            nt ++ ':' :: ' ' :: ((flowEmit dflt).getD "").data, rfl,
            by rw [leaf_line_data, hnd]; rfl, hni⟩

theorem rawEntriesOf_ne_nil (S : RecordSchema) (hg : goodSchema S = true) :
    rawEntriesOf S ≠ [] := by
  obtain ⟨hne, -, -⟩ := goodSchema_parts S hg
  cases S with
  | mk doc fs => exact rawFieldsOf_ne_nil fs hne

theorem rawDocOf_eq (S : RecordSchema) : rawDocOf S = RawVal.map (rawEntriesOf S) := by
  cases S with
  | mk doc fs => rfl

/-- One parsing step for a leaf field line at nesting level `k`, given the
recursion result for the remaining fields. -/
theorem parseRTF_leaf (name : String) (desc : Option String) (ty : Ty) (dflt : Val)
    (fs : List FieldSchema) (out0 : String) (k f : Nat) (rest : List String)
    (hid : identOk name = true) (hty : hasTyB dflt ty = true)
    (hout : flowEmit dflt = some out0)
    (hsf : structFieldLines (.mk name desc ty dflt :: fs)
        = (name ++ ": " ++ out0) :: structFieldLines fs)
    (hrf : rawFieldsOf (.mk name desc ty dflt :: fs)
        = (name, rawOf dflt) :: rawFieldsOf fs)
    (hrec : parseFieldsF f ((structFieldLines fs).map (indentK k) ++ rest) k
        = some (rawFieldsOf fs, rest)) :
    parseFieldsF (f + 1) ((structFieldLines (.mk name desc ty dflt :: fs)).map (indentK k)
        ++ rest) k = some (rawFieldsOf (.mk name desc ty dflt :: fs), rest) := by
  obtain ⟨hnne, hall⟩ := identOk_spec name hid
  obtain ⟨nc, nt, hnd⟩ := List.exists_cons_of_ne_nil hnne
  have hnsp : nc ≠ ' ' :=
    (identChar_spec nc (hall nc (by rw [hnd]; exact List.mem_cons_self _ _))).1
  have hd0 : (name ++ ": " ++ out0).data = nc :: (nt ++ ':' :: ' ' :: out0.data) := by
    rw [leaf_line_data, hnd]
    rfl
  have hli : lineIndent (indentK k (name ++ ": " ++ out0)) = 2 * k :=
    lineIndent_indentK k _ nc _ hd0 hnsp
  have hcore : (indentK k (name ++ ": " ++ out0)).data.drop (2 * k)
      = name.data ++ ':' :: ' ' :: out0.data := by
    rw [indentK_drop, leaf_line_data]
  have htake : (name.data ++ ':' :: ' ' :: out0.data).takeWhile (fun c => !(c = ':'))
      = name.data :=
    takeWhile_all_append _ name.data ':' _ (fun x hx => by
      have := (identChar_spec x (hall x hx)).2.2.2.2.2
      simp [this]) (by simp)
  have hflow : parseFlowF (2 * (out0.data.length + 1) + 3) out0.data
      = some (rawOf dflt, []) := by
    have h2 := parseFlow_emit dflt out0 (2 * (out0.data.length + 1) + 3) []
      (hasTy_serOk dflt ty hty) hout rfl (by simp only [List.length_nil]; omega)
    rwa [List.append_nil] at h2
  rw [hsf, hrf, List.map_cons, List.cons_append]
  simp only [parseFieldsF]
  rw [hli]
  rw [if_neg (by omega), if_pos rfl]
  rw [hcore, htake]
  rw [if_neg hnne]
  rw [List.drop_left]
  dsimp only
  rw [if_pos rfl]
  rw [hflow]
  dsimp only
  rw [hrec]

mutual

/-- The block parser recovers the raw defaults document of a well-formed
schema from its structural lines at any nesting level. -/
def parseRTS : ∀ (S : RecordSchema), goodSchema S = true →
    ∀ (k fuel : Nat) (rest : List String), restOk rest k →
    (structLinesOf S).length + rest.length + 1 ≤ fuel →
    parseFieldsF fuel ((structLinesOf S).map (indentK k) ++ rest) k
      = some (rawEntriesOf S, rest)
  | .mk doc fs => fun hg k fuel rest hro hfuel =>
      parseRTF fs (goodSchema_parts _ hg).2.2 k fuel rest hro hfuel

def parseRTF : ∀ (fs : List FieldSchema), goodFields fs = true →
    ∀ (k fuel : Nat) (rest : List String), restOk rest k →
    (structFieldLines fs).length + rest.length + 1 ≤ fuel →
    parseFieldsF fuel ((structFieldLines fs).map (indentK k) ++ rest) k
      = some (rawFieldsOf fs, rest)
  | [] => fun _ k fuel rest hro hfuel => by
      obtain ⟨f, rfl⟩ : ∃ f, fuel = f + 1 := ⟨fuel - 1, by omega⟩
      rw [show structFieldLines [] = [] from rfl, List.map_nil, List.nil_append]
      cases rest with
      | nil => rfl
      | cons l ls =>
          have hlt : lineIndent l < 2 * k := hro
          rw [parseFieldsF, if_pos hlt]
          rfl
  | .mk name desc ty dflt :: fs => fun hg k fuel rest hro hfuel => by
      obtain ⟨f, rfl⟩ : ∃ f, fuel = f + 1 := ⟨fuel - 1, by omega⟩
      obtain ⟨hid, hgf⟩ := goodFields_parts _ fs hg
      cases ty with
      | record r =>
          obtain ⟨hdflt, hgr⟩ := goodFields_record name desc r dflt fs hg
          obtain ⟨hnne, hall⟩ := identOk_spec name hid
          obtain ⟨nc, nt, hnd⟩ := List.exists_cons_of_ne_nil hnne
          have hnsp : nc ≠ ' ' :=
            (identChar_spec nc (hall nc (by rw [hnd]; exact List.mem_cons_self _ _))).1
          have hd0 : (name ++ ":").data = nc :: (nt ++ [':']) := by
            rw [name_line_data, hnd]
            rfl
          have hli : lineIndent (indentK k (name ++ ":")) = 2 * k :=
            lineIndent_indentK k _ nc _ hd0 hnsp
          have hcore : (indentK k (name ++ ":")).data.drop (2 * k) = name.data ++ [':'] := by
            rw [indentK_drop, name_line_data]
          have htake : (name.data ++ [':']).takeWhile (fun c => !(c = ':')) = name.data :=
            takeWhile_all_append _ name.data ':' [] (fun x hx => by
              have := (identChar_spec x (hall x hx)).2.2.2.2.2
              simp [this]) (by simp)
          have hsf : structFieldLines (FieldSchema.mk name desc (Ty.record r) dflt :: fs)
              = ((name ++ ":") :: (structLinesOf r).map (fun l => "  " ++ l))
                ++ structFieldLines fs := rfl
          have hlen1 : (structFieldLines
                (FieldSchema.mk name desc (Ty.record r) dflt :: fs)).length
              = 1 + (structLinesOf r).length + (structFieldLines fs).length := by
            rw [hsf]
            simp only [List.length_append, List.length_cons, List.length_map]
            omega
          rw [hlen1] at hfuel
          have hro2 : restOk ((structFieldLines fs).map (indentK k) ++ rest) (k + 1) := by
            cases fs with
            | nil => exact restOk_mono rest k (k + 1) hro (by omega)
            | cons f1 fs1 =>
                obtain ⟨l0x, tlx, cx, tx, hslx, hldx, hcspx⟩ :=
                  structFieldLines_head f1 fs1 (goodFields_parts f1 fs1 hgf).1
                rw [hslx, List.map_cons, List.cons_append]
                show lineIndent (indentK k l0x) < 2 * (k + 1)
                rw [lineIndent_indentK k l0x cx tx hldx hcspx]
                omega
          have hsub : parseFieldsF f ((structLinesOf r).map (indentK (k + 1))
                ++ ((structFieldLines fs).map (indentK k) ++ rest)) (k + 1)
              = some (rawEntriesOf r, (structFieldLines fs).map (indentK k) ++ rest) :=
            parseRTS r hgr (k + 1) f _ hro2 (by
              simp only [List.length_append, List.length_map]
              omega)
          have hrec : parseFieldsF f ((structFieldLines fs).map (indentK k) ++ rest) k
              = some (rawFieldsOf fs, rest) :=
            parseRTF fs hgf k f rest hro (by omega)
          rw [show rawFieldsOf (FieldSchema.mk name desc (Ty.record r) dflt :: fs)
              = (name, rawDocOf r) :: rawFieldsOf fs from rfl]
          rw [hsf]
          simp only [List.map_append, List.map_cons, List.cons_append, List.append_assoc]
          rw [map_indentK_indent2]
          simp only [parseFieldsF]
          rw [hli]
          rw [if_neg (by omega), if_pos rfl]
          rw [hcore, htake]
          rw [if_neg hnne]
          rw [List.drop_left]
          dsimp only
          rw [hsub]
          dsimp only
          rw [hrec]
          dsimp only
          rw [if_neg (rawEntriesOf_ne_nil r hgr)]
          rw [string_eta, ← rawDocOf_eq]
      | str =>
          have hty : hasTyB dflt Ty.str = true :=
            goodFields_leaf_ty name desc Ty.str dflt fs hg (fun r h => Ty.noConfusion h)
          obtain ⟨out0, hout⟩ := serOk_flowEmit dflt (hasTy_serOk dflt Ty.str hty)
          have hsf : structFieldLines (FieldSchema.mk name desc Ty.str dflt :: fs)
              = (name ++ ": " ++ out0) :: structFieldLines fs := by
            rw [show structFieldLines (FieldSchema.mk name desc Ty.str dflt :: fs)
                = (name ++ ": " ++ (flowEmit dflt).getD "") :: structFieldLines fs from rfl,
              hout]
            rfl
          refine parseRTF_leaf name desc Ty.str dflt fs out0 k f rest hid hty hout hsf rfl
            (parseRTF fs hgf k f rest hro ?_)
          rw [hsf] at hfuel
          simp only [List.length_cons] at hfuel
          omega
      | int =>
          have hty : hasTyB dflt Ty.int = true :=
            goodFields_leaf_ty name desc Ty.int dflt fs hg (fun r h => Ty.noConfusion h)
          obtain ⟨out0, hout⟩ := serOk_flowEmit dflt (hasTy_serOk dflt Ty.int hty)
          have hsf : structFieldLines (FieldSchema.mk name desc Ty.int dflt :: fs)
              = (name ++ ": " ++ out0) :: structFieldLines fs := by
            rw [show structFieldLines (FieldSchema.mk name desc Ty.int dflt :: fs)
                = (name ++ ": " ++ (flowEmit dflt).getD "") :: structFieldLines fs from rfl,
              hout]
            rfl
          refine parseRTF_leaf name desc Ty.int dflt fs out0 k f rest hid hty hout hsf rfl
            (parseRTF fs hgf k f rest hro ?_)
          rw [hsf] at hfuel
          simp only [List.length_cons] at hfuel
          omega
      | float =>
          have hty : hasTyB dflt Ty.float = true :=
            goodFields_leaf_ty name desc Ty.float dflt fs hg (fun r h => Ty.noConfusion h)
          obtain ⟨out0, hout⟩ := serOk_flowEmit dflt (hasTy_serOk dflt Ty.float hty)
          have hsf : structFieldLines (FieldSchema.mk name desc Ty.float dflt :: fs)
              = (name ++ ": " ++ out0) :: structFieldLines fs := by
            rw [show structFieldLines (FieldSchema.mk name desc Ty.float dflt :: fs)
                = (name ++ ": " ++ (flowEmit dflt).getD "") :: structFieldLines fs from rfl,
              hout]
            rfl
          refine parseRTF_leaf name desc Ty.float dflt fs out0 k f rest hid hty hout hsf rfl
            (parseRTF fs hgf k f rest hro ?_)
          rw [hsf] at hfuel
          simp only [List.length_cons] at hfuel
          omega
      | bool =>
          have hty : hasTyB dflt Ty.bool = true :=
            goodFields_leaf_ty name desc Ty.bool dflt fs hg (fun r h => Ty.noConfusion h)
          obtain ⟨out0, hout⟩ := serOk_flowEmit dflt (hasTy_serOk dflt Ty.bool hty)
          have hsf : structFieldLines (FieldSchema.mk name desc Ty.bool dflt :: fs)
              = (name ++ ": " ++ out0) :: structFieldLines fs := by
            rw [show structFieldLines (FieldSchema.mk name desc Ty.bool dflt :: fs)
                = (name ++ ": " ++ (flowEmit dflt).getD "") :: structFieldLines fs from rfl,
              hout]
            rfl
          refine parseRTF_leaf name desc Ty.bool dflt fs out0 k f rest hid hty hout hsf rfl
            (parseRTF fs hgf k f rest hro ?_)
          rw [hsf] at hfuel
          simp only [List.length_cons] at hfuel
          omega
      | path =>
          have hty : hasTyB dflt Ty.path = true :=
            goodFields_leaf_ty name desc Ty.path dflt fs hg (fun r h => Ty.noConfusion h)
          obtain ⟨out0, hout⟩ := serOk_flowEmit dflt (hasTy_serOk dflt Ty.path hty)
          have hsf : structFieldLines (FieldSchema.mk name desc Ty.path dflt :: fs)
              = (name ++ ": " ++ out0) :: structFieldLines fs := by
            rw [show structFieldLines (FieldSchema.mk name desc Ty.path dflt :: fs)
                = (name ++ ": " ++ (flowEmit dflt).getD "") :: structFieldLines fs from rfl,
              hout]
            rfl
          refine parseRTF_leaf name desc Ty.path dflt fs out0 k f rest hid hty hout hsf rfl
            (parseRTF fs hgf k f rest hro ?_)
          rw [hsf] at hfuel
          simp only [List.length_cons] at hfuel
          omega
      | tuple ts =>
          have hty : hasTyB dflt (Ty.tuple ts) = true :=
            goodFields_leaf_ty name desc (Ty.tuple ts) dflt fs hg (fun r h => Ty.noConfusion h)
          obtain ⟨out0, hout⟩ := serOk_flowEmit dflt (hasTy_serOk dflt (Ty.tuple ts) hty)
          have hsf : structFieldLines (FieldSchema.mk name desc (Ty.tuple ts) dflt :: fs)
              = (name ++ ": " ++ out0) :: structFieldLines fs := by
            rw [show structFieldLines (FieldSchema.mk name desc (Ty.tuple ts) dflt :: fs)
                = (name ++ ": " ++ (flowEmit dflt).getD "") :: structFieldLines fs from rfl,
              hout]
            rfl
          refine parseRTF_leaf name desc (Ty.tuple ts) dflt fs out0 k f rest hid hty hout
            hsf rfl (parseRTF fs hgf k f rest hro ?_)
          rw [hsf] at hfuel
          simp only [List.length_cons] at hfuel
          omega
      | list t =>
          have hty : hasTyB dflt (Ty.list t) = true :=
            goodFields_leaf_ty name desc (Ty.list t) dflt fs hg (fun r h => Ty.noConfusion h)
          obtain ⟨out0, hout⟩ := serOk_flowEmit dflt (hasTy_serOk dflt (Ty.list t) hty)
          have hsf : structFieldLines (FieldSchema.mk name desc (Ty.list t) dflt :: fs)
              = (name ++ ": " ++ out0) :: structFieldLines fs := by
            rw [show structFieldLines (FieldSchema.mk name desc (Ty.list t) dflt :: fs)
                = (name ++ ": " ++ (flowEmit dflt).getD "") :: structFieldLines fs from rfl,
              hout]
            rfl
          refine parseRTF_leaf name desc (Ty.list t) dflt fs out0 k f rest hid hty hout
            hsf rfl (parseRTF fs hgf k f rest hro ?_)
          rw [hsf] at hfuel
          simp only [List.length_cons] at hfuel
          omega

end

theorem indentK_zero (l : String) : indentK 0 l = l := by
  apply strext
  show (spacesK 0 ++ l).data = l.data
  rw [String.data_append]
  rfl

/-- `yaml.safe_load` of the generated document of a well-formed schema
recovers the raw defaults document. -/
theorem parseDoc_rt (S : RecordSchema) (hg : goodSchema S = true) (doc : String)
    (hdoc : genYaml S = some doc) : parseDoc doc = some (rawDocOf S) := by
  obtain ⟨doc2, hdoc2, hfilter, -, -⟩ := genYaml_struct S hg
  rw [hdoc] at hdoc2
  injection hdoc2 with he
  subst he
  unfold parseDoc
  rw [hfilter]
  have hmap0 : (structLinesOf S).map (indentK 0) = structLinesOf S := by
    rw [show (structLinesOf S).map (indentK 0) = (structLinesOf S).map id from
      List.map_congr_left (fun l _ => indentK_zero l), List.map_id]
  have hpf := parseRTS S hg 0 ((structLinesOf S).length + 1) [] trivial (by simp)
  rw [List.append_nil, hmap0] at hpf
  rw [hpf]
  dsimp only
  rw [if_neg (rawEntriesOf_ne_nil S hg), ← rawDocOf_eq]

/-! Loader side of the round trip: `gather_updates` on the raw defaults
document records exactly the per-leaf flat updates and converts every leaf
back to its typed default. -/

def updKeys : Upd → List (List String)
  | [] => []
  | (p, _) :: rest => p :: updKeys rest

theorem updKeys_append : ∀ (a b : List (List String × Val)),
    updKeys (a ++ b) = updKeys a ++ updKeys b
  | [], _ => rfl
  | (p, v) :: rest, b => by
      show p :: updKeys (rest ++ b) = _
      rw [updKeys_append rest b]
      rfl

theorem setFlat_fresh : ∀ (st : List (List String × Val)) (p : List String) (v : Val),
    (∀ q ∈ updKeys st, q ≠ p) → setFlat st p v = st ++ [(p, v)]
  | [], _, _ => fun _ => rfl
  | (q, w) :: rest, p, v => fun h => by
      show (if q = p then (q, v) :: rest else (q, w) :: setFlat rest p v) = _
      rw [if_neg (h q (List.mem_cons_self _ _))]
      rw [setFlat_fresh rest p v (fun q2 hq2 => h q2 (List.mem_cons_of_mem _ hq2))]
      rfl

theorem pre_append_cancel (path : List String) (a b : String) (u : List String)
    (h : path ++ [a] <+: path ++ b :: u) : a = b := by
  obtain ⟨t, ht⟩ := h
  rw [List.append_assoc] at ht
  have h2 := List.append_cancel_left ht
  rw [List.singleton_append] at h2
  exact (List.cons.injEq _ _ _ _).mp h2 |>.1

theorem hasTyTup_length : ∀ (vs : List Val) (ts : List Ty),
    hasTyTup vs ts = true → vs.length = ts.length
  | [], [] => fun _ => rfl
  | [], _ :: _ => fun h => absurd h Bool.false_ne_true
  | _ :: _, [] => fun h => absurd h Bool.false_ne_true
  | v :: vs, t :: ts => fun h => by
      have h2 : hasTyB v t = true ∧ hasTyTup vs ts = true := by
        simpa [hasTyTup, Bool.and_eq_true] using h
      simp [hasTyTup_length vs ts h2.2]

theorem rawOfList_length : ∀ vs : List Val, (rawOfList vs).length = vs.length
  | [] => rfl
  | v :: vs => by
      show (rawOfList vs).length + 1 = vs.length + 1
      rw [rawOfList_length vs]

mutual

/-- `gather_updates` is the identity on the untyped image of a well-typed
value: it converts back to the value itself, and records it at its path when
not inside a list. -/
def gather_rawOf : ∀ (v : Val) (t : Ty), hasTyB v t = true →
    ∀ (path : List String) (il : Bool) (st : Upd),
    gather path (rawOf v) t il st = .ok (v, if il then st else setFlat st path v)
  | .str s, t => fun h path il st => by
      cases t <;> try exact absurd h Bool.false_ne_true
      rfl
  | .int n, t => fun h path il st => by
      cases t <;> try exact absurd h Bool.false_ne_true
      rfl
  | .float m e, t => fun h path il st => by
      cases t <;> try exact absurd h Bool.false_ne_true
      rfl
  | .bool b, t => fun h path il st => by
      cases t <;> try exact absurd h Bool.false_ne_true
      rfl
  | .path s, t => fun h path il st => by
      cases t <;> try exact absurd h Bool.false_ne_true
      rfl
  | .record es, t => fun h path il st => by
      cases t <;> exact absurd h Bool.false_ne_true
  | .tuple vs, t => fun h path il st => by
      cases t <;> try exact absurd h Bool.false_ne_true
      case tuple ts =>
        have h2 : hasTyTup vs ts = true := h
        show gather path (.list (rawOfList vs)) (.tuple ts) il st = _
        rw [gather]
        rw [if_pos (by rw [rawOfList_length]; exact hasTyTup_length vs ts h2)]
        rw [gatherTuple_rawOf vs ts h2 path 0 st]
  | .list vs, t => fun h path il st => by
      cases t <;> try exact absurd h Bool.false_ne_true
      case list te =>
        have h2 : hasTyHom vs te = true := h
        show gather path (.list (rawOfList vs)) (.list te) il st = _
        rw [gather]
        rw [gatherHom_rawOf vs te h2 path 0 st]

def gatherTuple_rawOf : ∀ (vs : List Val) (ts : List Ty), hasTyTup vs ts = true →
    ∀ (path : List String) (i : Nat) (st : Upd),
    gatherTuple path i (rawOfList vs) ts st = .ok (vs, st)
  | [], ts => fun h path i st => by
      cases ts <;> rfl
  | v :: vs, [] => fun h path i st => absurd h Bool.false_ne_true
  | v :: vs, t :: ts => fun h path i st => by
      have h2 : hasTyB v t = true ∧ hasTyTup vs ts = true := by
        simpa [hasTyTup, Bool.and_eq_true] using h
      show gatherTuple path i (rawOf v :: rawOfList vs) (t :: ts) st = _
      rw [gatherTuple]
      rw [gather_rawOf v t h2.1 (path ++ [natRepr i]) true st, if_pos rfl]
      dsimp only
      rw [gatherTuple_rawOf vs ts h2.2 path (i + 1) st]

def gatherHom_rawOf : ∀ (vs : List Val) (te : Ty), hasTyHom vs te = true →
    ∀ (path : List String) (i : Nat) (st : Upd),
    gatherHom path i (rawOfList vs) te st = .ok (vs, st)
  | [], te => fun h path i st => rfl
  | v :: vs, te => fun h path i st => by
      have h2 : hasTyB v te = true ∧ hasTyHom vs te = true := by
        simpa [hasTyHom, Bool.and_eq_true] using h
      show gatherHom path i (rawOf v :: rawOfList vs) te st = _
      rw [gatherHom]
      rw [gather_rawOf v te h2.1 (path ++ [natRepr i]) true st, if_pos rfl]
      dsimp only
      rw [gatherHom_rawOf vs te h2.2 path (i + 1) st]

end

mutual

/-- Every path recorded for a sub-document extends the sub-document's own
path by one of its field names. -/
def flattenD_keys : ∀ (S : RecordSchema) (path q : List String),
    q ∈ updKeys (flattenD path S) → ∃ f, f ∈ S.fields ∧ (path ++ [f.name]) <+: q
  | .mk doc fs => fun path q hq => flattenFields_keys fs path q hq

def flattenFields_keys : ∀ (fs : List FieldSchema) (path q : List String),
    q ∈ updKeys (flattenFields path fs) → ∃ f, f ∈ fs ∧ (path ++ [f.name]) <+: q
  | [] => fun path q hq => absurd hq (List.not_mem_nil q)
  | .mk name desc ty dflt :: fs => fun path q hq => by
      cases ty with
      | record r =>
          rw [show flattenFields path (FieldSchema.mk name desc (Ty.record r) dflt :: fs)
              = flattenD (path ++ [name]) r ++ flattenFields path fs from rfl,
            updKeys_append] at hq
          rcases List.mem_append.mp hq with h | h
          · obtain ⟨g, hg, hpre2⟩ := flattenD_keys r (path ++ [name]) q h
            exact ⟨.mk name desc (Ty.record r) dflt, List.mem_cons_self _ _,
              List.IsPrefix.trans (List.prefix_append _ _) hpre2⟩
          · obtain ⟨g, hg, hpre2⟩ := flattenFields_keys fs path q h
            exact ⟨g, List.mem_cons_of_mem _ hg, hpre2⟩
      | str =>
          rcases List.mem_cons.mp hq with rfl | h
          · exact ⟨_, List.mem_cons_self _ _, List.prefix_refl _⟩
          · obtain ⟨g, hg, hpre2⟩ := flattenFields_keys fs path q h
            exact ⟨g, List.mem_cons_of_mem _ hg, hpre2⟩
      | int =>
          rcases List.mem_cons.mp hq with rfl | h
          · exact ⟨_, List.mem_cons_self _ _, List.prefix_refl _⟩
          · obtain ⟨g, hg, hpre2⟩ := flattenFields_keys fs path q h
            exact ⟨g, List.mem_cons_of_mem _ hg, hpre2⟩
      | float =>
          rcases List.mem_cons.mp hq with rfl | h
          · exact ⟨_, List.mem_cons_self _ _, List.prefix_refl _⟩
          · obtain ⟨g, hg, hpre2⟩ := flattenFields_keys fs path q h
            exact ⟨g, List.mem_cons_of_mem _ hg, hpre2⟩
      | bool =>
          rcases List.mem_cons.mp hq with rfl | h
          · exact ⟨_, List.mem_cons_self _ _, List.prefix_refl _⟩
          · obtain ⟨g, hg, hpre2⟩ := flattenFields_keys fs path q h
            exact ⟨g, List.mem_cons_of_mem _ hg, hpre2⟩
      | path =>
          rcases List.mem_cons.mp hq with rfl | h
          · exact ⟨_, List.mem_cons_self _ _, List.prefix_refl _⟩
          · obtain ⟨g, hg, hpre2⟩ := flattenFields_keys fs path q h
            exact ⟨g, List.mem_cons_of_mem _ hg, hpre2⟩
      | tuple ts =>
          rcases List.mem_cons.mp hq with rfl | h
          · exact ⟨_, List.mem_cons_self _ _, List.prefix_refl _⟩
          · obtain ⟨g, hg, hpre2⟩ := flattenFields_keys fs path q h
            exact ⟨g, List.mem_cons_of_mem _ hg, hpre2⟩
      | list t =>
          rcases List.mem_cons.mp hq with rfl | h
          · exact ⟨_, List.mem_cons_self _ _, List.prefix_refl _⟩
          · obtain ⟨g, hg, hpre2⟩ := flattenFields_keys fs path q h
            exact ⟨g, List.mem_cons_of_mem _ hg, hpre2⟩

end

theorem contains_false_not_mem {α : Type} [BEq α] [LawfulBEq α] (l : List α) (a : α)
    (h : l.contains a = false) : a ∉ l := fun hm => by
  have h2 : l.elem a = true := List.elem_iff.mpr hm
  rw [show l.contains a = l.elem a from rfl, h2] at h
  cases h

theorem nodupB_parts (n : String) (ns : List String) (h : nodupB (n :: ns) = true) :
    ns.contains n = false ∧ nodupB ns = true := by
  have h2 : (!(ns.contains n) && nodupB ns) = true := h
  rw [Bool.and_eq_true] at h2
  exact ⟨by simpa using h2.1, h2.2⟩

theorem findField_self : ∀ (fs : List FieldSchema),
    nodupB (fs.map FieldSchema.name) = true → ∀ f ∈ fs, findField fs f.name = some f
  | [] => fun _ f hf => absurd hf (List.not_mem_nil f)
  | g :: gs => fun hnd f hf => by
      have hparts := nodupB_parts g.name (gs.map FieldSchema.name) hnd
      rcases List.mem_cons.mp hf with rfl | hf2
      · rw [findField, if_pos rfl]
      · have hne : g.name ≠ f.name := fun e =>
          contains_false_not_mem _ _ hparts.1 (e ▸ List.mem_map_of_mem _ hf2)
        rw [findField, if_neg hne]
        exact findField_self gs hparts.2 f hf2

theorem lookupS_map_dflt : ∀ (fs : List FieldSchema),
    nodupB (fs.map FieldSchema.name) = true → ∀ f ∈ fs,
    lookupS (fs.map (fun g => (g.name, g.dflt))) f.name = some f.dflt
  | [] => fun _ f hf => absurd hf (List.not_mem_nil f)
  | g :: gs => fun hnd f hf => by
      have hparts := nodupB_parts g.name (gs.map FieldSchema.name) hnd
      rcases List.mem_cons.mp hf with rfl | hf2
      · show (if f.name = f.name then some f.dflt else _) = some f.dflt
        rw [if_pos rfl]
      · have hne : g.name ≠ f.name := fun e =>
          contains_false_not_mem _ _ hparts.1 (e ▸ List.mem_map_of_mem _ hf2)
        show (if g.name = f.name then some g.dflt else
          lookupS (gs.map (fun g2 => (g2.name, g2.dflt))) f.name) = some f.dflt
        rw [if_neg hne]
        exact lookupS_map_dflt gs hparts.2 f hf2

/-- One `gather_updates` step for a leaf field of the defaults document. -/
theorem gatherRTF_leaf (name : String) (desc : Option String) (ty : Ty) (dflt : Val)
    (rest fs0 : List FieldSchema) (path : List String) (st : List (List String × Val))
    (hty : hasTyB dflt ty = true)
    (hfind : findField fs0 name = some (.mk name desc ty dflt))
    (hfresh : ∀ q ∈ updKeys st, ∀ f ∈ (.mk name desc ty dflt :: rest : List FieldSchema),
        ¬((path ++ [f.name]) <+: q))
    (hnn : ∀ g ∈ rest, g.name ≠ name)
    (hrw : rawFieldsOf (.mk name desc ty dflt :: rest)
        = (name, rawOf dflt) :: rawFieldsOf rest)
    (hfl : flattenFields path (.mk name desc ty dflt :: rest)
        = (path ++ [name], dflt) :: flattenFields path rest)
    (hIH : ∀ (st2 : List (List String × Val)),
        (∀ q ∈ updKeys st2, ∀ f ∈ rest, ¬((path ++ [f.name]) <+: q)) →
        gatherFields path (rawFieldsOf rest) fs0 false st2
          = .ok (rest.map (fun f => (f.name, f.dflt)), st2 ++ flattenFields path rest)) :
    gatherFields path (rawFieldsOf (.mk name desc ty dflt :: rest)) fs0 false st
      = .ok (((.mk name desc ty dflt :: rest) : List FieldSchema).map
            (fun f => (f.name, f.dflt)),
          st ++ flattenFields path (.mk name desc ty dflt :: rest)) := by
  have hfresh2 : ∀ q ∈ updKeys (st ++ [(path ++ [name], dflt)]), ∀ f ∈ rest,
      ¬((path ++ [f.name]) <+: q) := by
    intro q hq f hf
    rw [updKeys_append] at hq
    rcases List.mem_append.mp hq with h | h
    · exact hfresh q h f (List.mem_cons_of_mem _ hf)
    · rcases List.mem_singleton.mp h with rfl
      intro hpre2
      exact hnn f hf (pre_append_cancel path f.name name [] (by simpa using hpre2))
  rw [hrw, hfl]
  rw [gatherFields]
  rw [hfind]
  dsimp only [FieldSchema.ty]
  rw [gather_rawOf dflt ty hty (path ++ [name]) false st]
  dsimp only
  rw [setFlat_fresh st (path ++ [name]) dflt (fun q hq e =>
    hfresh q hq (.mk name desc ty dflt) (List.mem_cons_self _ _)
      (show (path ++ [name]) <+: q from e ▸ List.prefix_refl _))]
  rw [if_neg (show ¬(false = true) from by decide)]
  rw [hIH (st ++ [(path ++ [name], dflt)]) hfresh2]
  dsimp only
  rw [List.append_assoc]
  rfl

mutual

/-- `gather_updates` on the raw defaults document of a well-formed schema
returns the defaults instance's field values and appends exactly the
schema's flat updates to the accumulated dict. -/
def gatherRTS : ∀ (S : RecordSchema), goodSchema S = true →
    ∀ (path : List String) (st : List (List String × Val)),
    (∀ q ∈ updKeys st, ∀ f ∈ S.fields, ¬((path ++ [f.name]) <+: q)) →
    gather path (rawDocOf S) (.record S) false st
      = .ok (defaultsOf S, st ++ flattenD path S)
  | .mk doc fs => fun hg path st hfresh => by
      obtain ⟨hne, hnd, hgf⟩ := goodSchema_parts _ hg
      show gather path (.map (rawFieldsOf fs)) (.record (.mk doc fs)) false st = _
      rw [gather]
      dsimp only [RecordSchema.fields]
      rw [gatherRTF fs hgf hnd fs (findField_self fs hnd) path st hfresh]
      dsimp only
      rw [show fs.map (fun f =>
            (f.name, (lookupS (fs.map (fun g => (g.name, g.dflt))) f.name).getD f.dflt))
          = fs.map (fun f => (f.name, f.dflt)) from
        List.map_congr_left (fun f hf => by rw [lookupS_map_dflt fs hnd f hf]; rfl)]
      rfl

def gatherRTF : ∀ (fsp : List FieldSchema), goodFields fsp = true →
    nodupB (fsp.map FieldSchema.name) = true →
    ∀ (fs0 : List FieldSchema), (∀ f ∈ fsp, findField fs0 f.name = some f) →
    ∀ (path : List String) (st : List (List String × Val)),
    (∀ q ∈ updKeys st, ∀ f ∈ fsp, ¬((path ++ [f.name]) <+: q)) →
    gatherFields path (rawFieldsOf fsp) fs0 false st
      = .ok (fsp.map (fun f => (f.name, f.dflt)), st ++ flattenFields path fsp)
  | [] => fun _ _ fs0 _ path st _ => by
      rw [show flattenFields path ([] : List FieldSchema) = [] from rfl, List.append_nil]
      rfl
  | .mk name desc ty dflt :: rest => fun hg hnd fs0 hfind0 path st hfresh => by
      have hnd2 : nodupB (name :: rest.map FieldSchema.name) = true := hnd
      have hndp := nodupB_parts name (rest.map FieldSchema.name) hnd2
      have hnn : ∀ g ∈ rest, g.name ≠ name := fun g hgm e =>
        contains_false_not_mem _ _ hndp.1 (e ▸ List.mem_map_of_mem _ hgm)
      have hgf := (goodFields_parts _ rest hg).2
      have hfindR : ∀ f ∈ rest, findField fs0 f.name = some f :=
        fun f hf => hfind0 f (List.mem_cons_of_mem _ hf)
      cases ty with
      | record r =>
          obtain ⟨hdflt, hgr⟩ := goodFields_record name desc r dflt rest hg
          have hfresh2 : ∀ q ∈ updKeys (st ++ flattenD (path ++ [name]) r), ∀ f ∈ rest,
              ¬((path ++ [f.name]) <+: q) := by
            intro q hq f hf
            rw [updKeys_append] at hq
            rcases List.mem_append.mp hq with h | h
            · exact hfresh q h f (List.mem_cons_of_mem _ hf)
            · obtain ⟨g, -, hgpre⟩ := flattenD_keys r (path ++ [name]) q h
              obtain ⟨u, hu⟩ : ∃ u, q = path ++ name :: u := by
                obtain ⟨t, ht⟩ := List.IsPrefix.trans (List.prefix_append _ _) hgpre
                exact ⟨t, by rw [← ht, List.append_assoc]; rfl⟩
              intro hpre2
              rw [hu] at hpre2
              exact hnn f hf (pre_append_cancel path f.name name u hpre2)
          rw [show rawFieldsOf (FieldSchema.mk name desc (Ty.record r) dflt :: rest)
              = (name, rawDocOf r) :: rawFieldsOf rest from rfl]
          rw [show flattenFields path (FieldSchema.mk name desc (Ty.record r) dflt :: rest)
              = flattenD (path ++ [name]) r ++ flattenFields path rest from rfl]
          rw [gatherFields]
          have hfindH : findField fs0 name
              = some (FieldSchema.mk name desc (Ty.record r) dflt) :=
            hfind0 _ (List.mem_cons_self _ _)
          rw [hfindH]
          dsimp only [FieldSchema.ty]
          rw [gatherRTS r hgr (path ++ [name]) st (by
            intro q hq g hgm hpre2
            exact hfresh q hq (FieldSchema.mk name desc (Ty.record r) dflt)
              (List.mem_cons_self _ _)
              (List.IsPrefix.trans (List.prefix_append _ _) hpre2))]
          dsimp only
          rw [gatherRTF rest hgf hndp.2 fs0 hfindR path _ hfresh2]
          dsimp only
          rw [List.append_assoc]
          rw [show (FieldSchema.mk name desc (Ty.record r) dflt :: rest).map
                (fun f => (f.name, f.dflt))
              = (name, dflt) :: rest.map (fun f => (f.name, f.dflt)) from rfl]
          rw [hdflt]
      | str =>
          exact gatherRTF_leaf name desc Ty.str dflt rest fs0 path st
            (goodFields_leaf_ty name desc Ty.str dflt rest hg (fun r h => Ty.noConfusion h))
            (hfind0 _ (List.mem_cons_self _ _)) hfresh hnn rfl rfl
            (fun st2 hf2 => gatherRTF rest hgf hndp.2 fs0 hfindR path st2 hf2)
      | int =>
          exact gatherRTF_leaf name desc Ty.int dflt rest fs0 path st
            (goodFields_leaf_ty name desc Ty.int dflt rest hg (fun r h => Ty.noConfusion h))
            (hfind0 _ (List.mem_cons_self _ _)) hfresh hnn rfl rfl
            (fun st2 hf2 => gatherRTF rest hgf hndp.2 fs0 hfindR path st2 hf2)
      | float =>
          exact gatherRTF_leaf name desc Ty.float dflt rest fs0 path st
            (goodFields_leaf_ty name desc Ty.float dflt rest hg (fun r h => Ty.noConfusion h))
            (hfind0 _ (List.mem_cons_self _ _)) hfresh hnn rfl rfl
            (fun st2 hf2 => gatherRTF rest hgf hndp.2 fs0 hfindR path st2 hf2)
      | bool =>
          exact gatherRTF_leaf name desc Ty.bool dflt rest fs0 path st
            (goodFields_leaf_ty name desc Ty.bool dflt rest hg (fun r h => Ty.noConfusion h))
            (hfind0 _ (List.mem_cons_self _ _)) hfresh hnn rfl rfl
            (fun st2 hf2 => gatherRTF rest hgf hndp.2 fs0 hfindR path st2 hf2)
      | path =>
          exact gatherRTF_leaf name desc Ty.path dflt rest fs0 path st
            (goodFields_leaf_ty name desc Ty.path dflt rest hg (fun r h => Ty.noConfusion h))
            (hfind0 _ (List.mem_cons_self _ _)) hfresh hnn rfl rfl
            (fun st2 hf2 => gatherRTF rest hgf hndp.2 fs0 hfindR path st2 hf2)
      | tuple ts =>
          exact gatherRTF_leaf name desc (Ty.tuple ts) dflt rest fs0 path st
            (goodFields_leaf_ty name desc (Ty.tuple ts) dflt rest hg
              (fun r h => Ty.noConfusion h))
            (hfind0 _ (List.mem_cons_self _ _)) hfresh hnn rfl rfl
            (fun st2 hf2 => gatherRTF rest hgf hndp.2 fs0 hfindR path st2 hf2)
      | list t =>
          exact gatherRTF_leaf name desc (Ty.list t) dflt rest fs0 path st
            (goodFields_leaf_ty name desc (Ty.list t) dflt rest hg
              (fun r h => Ty.noConfusion h))
            (hfind0 _ (List.mem_cons_self _ _)) hfresh hnn rfl rfl
            (fun st2 hf2 => gatherRTF rest hgf hndp.2 fs0 hfindR path st2 hf2)

end

/-! The `unflatten` helper on the recorded flat updates rebuilds the nested
override dict field by field. -/

theorem lookupS_setOv_self : ∀ (m : OvMap) (n : String) (o : Ov),
    lookupS (setOv m n o) n = some o
  | [], n, o => by
      show (if n = n then some o else none) = some o
      rw [if_pos rfl]
  | (k, w) :: rest, n, o => by
      by_cases hk : k = n
      · subst hk
        show lookupS (if k = k then (k, o) :: rest else (k, w) :: setOv rest k o) k = some o
        rw [if_pos rfl]
        show (if k = k then some o else lookupS rest k) = some o
        rw [if_pos rfl]
      · show lookupS (if k = n then (k, o) :: rest else (k, w) :: setOv rest n o) n = some o
        rw [if_neg hk]
        show (if k = n then some w else lookupS (setOv rest n o) n) = some o
        rw [if_neg hk]
        exact lookupS_setOv_self rest n o

theorem setOv_fresh : ∀ (m : List (String × Ov)) (n : String) (o : Ov),
    lookupS m n = none → setOv m n o = m ++ [(n, o)]
  | [], _, _ => fun _ => rfl
  | (k, w) :: rest, n, o => fun hlk => by
      by_cases hk : k = n
      · exfalso
        rw [show lookupS ((k, w) :: rest) n = (if k = n then some w else lookupS rest n)
            from rfl, if_pos hk] at hlk
        cases hlk
      · have hrest : lookupS rest n = none := by
          rw [show lookupS ((k, w) :: rest) n = (if k = n then some w else lookupS rest n)
              from rfl, if_neg hk] at hlk
          exact hlk
        show (if k = n then (k, o) :: rest else (k, w) :: setOv rest n o) = _
        rw [if_neg hk, setOv_fresh rest n o hrest]
        rfl

theorem setOv_setOv : ∀ (m : OvMap) (n : String) (o1 o2 : Ov),
    setOv (setOv m n o1) n o2 = setOv m n o2
  | [], n, o1, o2 => by
      show setOv [(n, o1)] n o2 = [(n, o2)]
      show (if n = n then (n, o2) :: ([] : OvMap) else (n, o1) :: setOv [] n o2) = [(n, o2)]
      rw [if_pos rfl]
  | (k, w) :: rest, n, o1, o2 => by
      have hset : setOv ((k, w) :: rest) n o1
          = (if k = n then (k, o1) :: rest else (k, w) :: setOv rest n o1) := rfl
      by_cases hk : k = n
      · rw [hset, if_pos hk]
        show (if k = n then (k, o2) :: rest else (k, o1) :: setOv rest n o2)
          = (if k = n then (k, o2) :: rest else (k, w) :: setOv rest n o2)
        rw [if_pos hk, if_pos hk]
      · rw [hset, if_neg hk]
        show (if k = n then (k, o2) :: setOv rest n o1
            else (k, w) :: setOv (setOv rest n o1) n o2)
          = (if k = n then (k, o2) :: rest else (k, w) :: setOv rest n o2)
        rw [if_neg hk, if_neg hk, setOv_setOv rest n o1 o2]

theorem unflattenF_append : ∀ (l1 l2 : List (List String × Val)) (acc : OvMap),
    unflattenF acc (l1 ++ l2) = match unflattenF acc l1 with
      | .error e => .error e
      | .ok a2 => unflattenF a2 l2
  | [], l2, acc => rfl
  | (p, v) :: l1, l2, acc => by
      show unflattenF acc ((p, v) :: (l1 ++ l2)) = _
      rw [unflattenF]
      cases hins : insertPath acc p v with
      | error e =>
          dsimp only
          rw [unflattenF, hins]
      | ok a2 =>
          dsimp only
          rw [unflattenF_append l1 l2 a2]
          rw [unflattenF, hins]

mutual

def flattenD_shift : ∀ (S : RecordSchema) (p1 p2 : List String),
    flattenD (p1 ++ p2) S = (flattenD p2 S).map (fun pv => (p1 ++ pv.1, pv.2))
  | .mk doc fs => fun p1 p2 => flattenFields_shift fs p1 p2

def flattenFields_shift : ∀ (fs : List FieldSchema) (p1 p2 : List String),
    flattenFields (p1 ++ p2) fs = (flattenFields p2 fs).map (fun pv => (p1 ++ pv.1, pv.2))
  | [] => fun _ _ => rfl
  | .mk name desc ty dflt :: fs => fun p1 p2 => by
      cases ty <;> first
        | (show ((p1 ++ p2) ++ [name], dflt) :: flattenFields (p1 ++ p2) fs
              = ((p2 ++ [name], dflt) :: flattenFields p2 fs).map
                (fun pv => (p1 ++ pv.1, pv.2))
           rw [List.map_cons]
           rw [flattenFields_shift fs p1 p2]
           rw [List.append_assoc])
        | (rename_i r
           show flattenD ((p1 ++ p2) ++ [name]) r ++ flattenFields (p1 ++ p2) fs
              = (flattenD (p2 ++ [name]) r ++ flattenFields p2 fs).map
                (fun pv => (p1 ++ pv.1, pv.2))
           rw [List.map_append]
           rw [List.append_assoc]
           rw [flattenD_shift r p1 (p2 ++ [name])]
           rw [flattenFields_shift fs p1 p2])

end

theorem flattenD_cons (r : RecordSchema) (name : String) :
    flattenD [name] r = (flattenD [] r).map (fun pv => (name :: pv.1, pv.2)) := by
  have h := flattenD_shift r [name] []
  rw [List.append_nil] at h
  exact h

mutual

def flattenD_ne : ∀ (S : RecordSchema) (path : List String), goodSchema S = true →
    flattenD path S ≠ []
  | .mk doc fs => fun path hg => by
      obtain ⟨hne, -, hgf⟩ := goodSchema_parts _ hg
      exact flattenFields_ne fs path hgf hne

def flattenFields_ne : ∀ (fs : List FieldSchema) (path : List String),
    goodFields fs = true → fs ≠ [] → flattenFields path fs ≠ []
  | [] => fun _ _ h => absurd rfl h
  | .mk name desc ty dflt :: fs => fun path hg hcons => by
      cases ty <;> first
        | (intro e
           exact List.noConfusion e)
        | (rename_i r
           intro e
           rcases List.append_eq_nil.mp e with ⟨h3, -⟩
           exact flattenD_ne r (path ++ [name])
             (goodFields_record name desc r dflt fs hg).2 h3)

end

theorem updKeys_mem : ∀ (st : List (List String × Val)) (pv : List String × Val),
    pv ∈ st → pv.1 ∈ updKeys st
  | [], pv => fun h => absurd h (List.not_mem_nil pv)
  | (q, w) :: rest, pv => fun h => by
      rcases List.mem_cons.mp h with rfl | h2
      · exact List.mem_cons_self _ _
      · exact List.mem_cons_of_mem _ (updKeys_mem rest pv h2)

theorem flattenD_paths_ne (S : RecordSchema) : ∀ pv ∈ flattenD [] S, pv.1 ≠ [] := by
  intro pv hpv e
  obtain ⟨f, -, hpre2⟩ := flattenD_keys S [] pv.1 (updKeys_mem _ pv hpv)
  rw [e] at hpre2
  have := hpre2.length_le
  simp at this

theorem lookupS_append_none {α : Type} : ∀ (a b : List (String × α)) (n : String),
    lookupS a n = none → lookupS (a ++ b) n = lookupS b n
  | [], _, _ => fun _ => rfl
  | (k, w) :: a, b, n => fun h => by
      have hk : ¬k = n := by
        intro e
        rw [show lookupS ((k, w) :: a) n = (if k = n then some w else lookupS a n) from rfl,
          if_pos e] at h
        cases h
      have h2 : lookupS a n = none := by
        rw [show lookupS ((k, w) :: a) n = (if k = n then some w else lookupS a n) from rfl,
          if_neg hk] at h
        exact h
      show (if k = n then some w else lookupS (a ++ b) n) = lookupS b n
      rw [if_neg hk]
      exact lookupS_append_none a b n h2

/-- Inserting a group of sibling paths that share their first component
builds one nested dict under that component. -/
theorem U_pref : ∀ (ts : List (List String × Val)) (m : List (String × Ov)) (name : String)
    (sub0 : OvMap),
    (lookupS m name = some (.node sub0) ∨ (lookupS m name = none ∧ sub0 = [])) →
    (∀ pv ∈ ts, pv.1 ≠ []) → ts ≠ [] →
    unflattenF m (ts.map (fun pv => (name :: pv.1, pv.2)))
      = match unflattenF sub0 ts with
        | .error e => .error e
        | .ok sub => .ok (setOv m name (.node sub))
  | [], _, _, _ => fun _ _ hne => absurd rfl hne
  | (p, v) :: ts, m, name, sub0 => fun hlk hpaths _ => by
      obtain ⟨p1, pt, hp⟩ :=
        List.exists_cons_of_ne_nil (hpaths (p, v) (List.mem_cons_self _ _))
      subst hp
      rw [List.map_cons]
      rw [unflattenF]
      rw [insertPath]
      all_goals try (intro h; exact List.noConfusion h)
      rcases hlk with hsome | ⟨hnone, rfl⟩
      · rw [hsome]
        dsimp only
        cases hins : insertPath sub0 (p1 :: pt) v with
        | error e =>
            dsimp only
            conv_rhs => rw [unflattenF, hins]
        | ok s1 =>
            dsimp only
            cases ts with
            | nil =>
                show Except.ok (setOv m name (Ov.node s1)) = _
                conv_rhs => rw [unflattenF, hins]
                rfl
            | cons t2 ts2 =>
                rw [U_pref (t2 :: ts2) (setOv m name (.node s1)) name s1
                  (Or.inl (lookupS_setOv_self m name _))
                  (fun pv hpv => hpaths pv (List.mem_cons_of_mem _ hpv)) (by simp)]
                conv_rhs => rw [unflattenF, hins]
                dsimp only
                cases hrec : unflattenF s1 (t2 :: ts2) with
                | error e => rfl
                | ok sub =>
                    dsimp only
                    rw [setOv_setOv]
      · rw [hnone]
        dsimp only
        cases hins : insertPath [] (p1 :: pt) v with
        | error e =>
            dsimp only
            conv_rhs => rw [unflattenF, hins]
        | ok s1 =>
            dsimp only
            cases ts with
            | nil =>
                show Except.ok (setOv m name (Ov.node s1)) = _
                conv_rhs => rw [unflattenF, hins]
                rfl
            | cons t2 ts2 =>
                rw [U_pref (t2 :: ts2) (setOv m name (.node s1)) name s1
                  (Or.inl (lookupS_setOv_self m name _))
                  (fun pv hpv => hpaths pv (List.mem_cons_of_mem _ hpv)) (by simp)]
                conv_rhs => rw [unflattenF, hins]
                dsimp only
                cases hrec : unflattenF s1 (t2 :: ts2) with
                | error e => rfl
                | ok sub =>
                    dsimp only
                    rw [setOv_setOv]

mutual

/-- `unflatten` on the recorded flat updates of a well-formed schema
rebuilds its nested override dict. -/
def unflatten_schema : ∀ (S : RecordSchema), goodSchema S = true →
    unflattenF [] (flattenD [] S) = .ok (ovOf S)
  | .mk doc fs => fun hg => by
      obtain ⟨-, hnd, hgf⟩ := goodSchema_parts _ hg
      exact unflatten_fields fs hgf hnd [] (fun f _ => rfl)

def unflatten_fields : ∀ (fs : List FieldSchema), goodFields fs = true →
    nodupB (fs.map FieldSchema.name) = true →
    ∀ (acc : List (String × Ov)), (∀ f ∈ fs, lookupS acc f.name = none) →
    unflattenF acc (flattenFields [] fs) = .ok (acc ++ ovFields fs)
  | [] => fun _ _ acc _ => by
      rw [show flattenFields [] ([] : List FieldSchema) = [] from rfl,
        show ovFields [] = [] from rfl, List.append_nil]
      rfl
  | .mk name desc ty dflt :: rest => fun hg hnd acc hacc => by
      have hnd2 : nodupB (name :: rest.map FieldSchema.name) = true := hnd
      have hndp := nodupB_parts name (rest.map FieldSchema.name) hnd2
      have hgf := (goodFields_parts _ rest hg).2
      have haccname : lookupS acc name = none := hacc _ (List.mem_cons_self _ _)
      have haccR : ∀ (ov : Ov), ∀ f ∈ rest, lookupS (acc ++ [(name, ov)]) f.name = none := by
        intro ov f hf
        rw [lookupS_append_none acc _ f.name (hacc f (List.mem_cons_of_mem _ hf))]
        show (if name = f.name then some ov else none) = none
        rw [if_neg (fun e => contains_false_not_mem _ _ hndp.1
          (by rw [e]; exact List.mem_map_of_mem _ hf))]
      cases ty <;> first
        | (show unflattenF acc (([name], dflt) :: flattenFields [] rest)
              = .ok (acc ++ (name, Ov.leaf dflt) :: ovFields rest)
           rw [unflattenF]
           rw [show insertPath acc [name] dflt
              = .ok (setOv acc name (Ov.leaf dflt)) from rfl]
           dsimp only
           rw [setOv_fresh acc name (Ov.leaf dflt) haccname]
           rw [unflatten_fields rest hgf hndp.2 (acc ++ [(name, Ov.leaf dflt)])
             (haccR (Ov.leaf dflt))]
           rw [List.append_assoc]
           rfl)
        | (rename_i r
           rw [show flattenFields [] (FieldSchema.mk name desc (Ty.record r) dflt :: rest)
              = flattenD [name] r ++ flattenFields [] rest from rfl]
           rw [show ovFields (FieldSchema.mk name desc (Ty.record r) dflt :: rest)
              = (name, Ov.node (ovOf r)) :: ovFields rest from rfl]
           rw [unflattenF_append]
           rw [flattenD_cons r name]
           rw [U_pref (flattenD [] r) acc name [] (Or.inr ⟨haccname, rfl⟩)
             (flattenD_paths_ne r)
             (flattenD_ne r [] (goodFields_record name desc r dflt rest hg).2)]
           rw [unflatten_schema r (goodFields_record name desc r dflt rest hg).2]
           dsimp only
           rw [setOv_fresh acc name (Ov.node (ovOf r)) haccname]
           rw [unflatten_fields rest hgf hndp.2 (acc ++ [(name, Ov.node (ovOf r))])
             (haccR (Ov.node (ovOf r)))]
           rw [List.append_assoc]
           rfl)

end

/-! Merge layer of the round trip: merging the unflattened overrides of the
defaults document into the defaults instance reproduces the defaults. -/

theorem lookupS_cons_self {α : Type} (k : String) (v : α) (rest : List (String × α)) :
    lookupS ((k, v) :: rest) k = some v := by
  show (if k = k then some v else lookupS rest k) = some v
  rw [if_pos rfl]

theorem lookupS_cons_ne {α : Type} (k n : String) (v : α) (rest : List (String × α))
    (h : k ≠ n) : lookupS ((k, v) :: rest) n = lookupS rest n := by
  show (if k = n then some v else lookupS rest n) = lookupS rest n
  rw [if_neg h]

/-- The override entry `unflatten` rebuilds for one field of the defaults
document: record fields carry the nested dict, leaves their default. -/
def ovEntry : FieldSchema → Ov
  | .mk _ _ ty dflt =>
      match ty with
      | .record r => .node (ovOf r)
      | _ => .leaf dflt

theorem lookupS_ovFields : ∀ (fs : List FieldSchema),
    nodupB (fs.map FieldSchema.name) = true → ∀ f ∈ fs,
    lookupS (ovFields fs) f.name = some (ovEntry f)
  | [] => fun _ f hf => absurd hf (List.not_mem_nil f)
  | .mk name desc ty dflt :: gs => fun hnd f hf => by
      have hnd2 : nodupB (name :: gs.map FieldSchema.name) = true := hnd
      have hparts := nodupB_parts name (gs.map FieldSchema.name) hnd2
      rcases List.mem_cons.mp hf with rfl | hf2
      · cases ty <;> exact lookupS_cons_self name _ (ovFields gs)
      · have hne : name ≠ f.name := fun e =>
          contains_false_not_mem _ _ hparts.1 (e ▸ List.mem_map_of_mem _ hf2)
        cases ty <;>
          exact (lookupS_cons_ne name f.name _ (ovFields gs) hne).trans
            (lookupS_ovFields gs hparts.2 f hf2)

mutual

/-- The merge step of `load` on the generated defaults document: merging the
unflattened overrides into `cls()` returns `cls()` again. -/
def mergeRT : ∀ (S : RecordSchema), goodSchema S = true →
    mergeRecord S (defaultsOf S) (ovOf S) = .ok (defaultsOf S)
  | .mk d fs => fun hg => by
      obtain ⟨-, hnd, hgf⟩ := goodSchema_parts _ hg
      rw [show ovOf (RecordSchema.mk d fs) = ovFields fs from rfl]
      rw [mergeRecord]
      rw [mergeRT_fields fs hgf (defaultsOf (.mk d fs)) (ovFields fs)
        (fun f hf => lookupS_ovFields fs hnd f hf)
        (fun f hf => lookupS_map_dflt fs hnd f hf)]
      all_goals rfl

def mergeRT_fields : ∀ (fs : List FieldSchema), goodFields fs = true →
    ∀ (self : Val) (values : List (String × Ov)),
    (∀ f ∈ fs, lookupS values f.name = some (ovEntry f)) →
    (∀ f ∈ fs, getattrV self f.name = some f.dflt) →
    mergeFields fs self values = .ok (fs.map (fun f => (f.name, f.dflt)))
  | [] => fun _ _ _ _ _ => rfl
  | .mk fname desc fty fdflt :: rest => fun hg self values hlook hself => by
      have hgf : goodFields rest = true := (goodFields_parts _ rest hg).2
      have hlf : lookupS values fname
          = some (ovEntry (FieldSchema.mk fname desc fty fdflt)) :=
        hlook _ (List.mem_cons_self _ _)
      have hsf : getattrV self fname = some fdflt := hself _ (List.mem_cons_self _ _)
      have hIH := mergeRT_fields rest hgf self values
        (fun f hf => hlook f (List.mem_cons_of_mem _ hf))
        (fun f hf => hself f (List.mem_cons_of_mem _ hf))
      cases fty <;> first
        | (rw [mergeFields, hlf]
           dsimp only [ovEntry]
           rw [hIH]
           all_goals rfl)
        | (rename_i r
           obtain ⟨hdflt, hgr⟩ := goodFields_record fname desc r fdflt rest hg
           rw [mergeFields, hlf]
           dsimp only [ovEntry]
           rw [hsf]
           dsimp only
           rw [hdflt]
           rw [mergeRT r hgr]
           dsimp only
           rw [hIH]
           all_goals rfl)

end

/-- `Config.load` applied to the parsed defaults document of a well-formed
schema: gather, unflatten and merge compose to return the defaults
instance. -/
theorem loadVal_rt (S : RecordSchema) (hg : goodSchema S = true) :
    loadVal (defaultsOf S) S (rawDocOf S) = .ok (defaultsOf S) := by
  have h1 := gatherRTS S hg [] [] (fun q hq => absurd hq (List.not_mem_nil q))
  have h2 : unflatten (flattenD [] S) = Except.ok (ovOf S) := by
    rw [unflatten]
    exact unflatten_schema S hg
  have h2b : unflatten (([] : List (List String × Val)) ++ flattenD [] S)
      = Except.ok (ovOf S) := by
    rw [List.nil_append]
    exact h2
  rw [loadVal, h1]
  dsimp only
  first | rw [h2] | rw [h2b]
  dsimp only
  exact mergeRT S hg

/-- A config class with a field-less nested config, as Python dataclasses
allow (`class Empty(Config): pass` used as a field's type). -/
def EmptyInner : RecordSchema := .mk none []

def HasEmpty : RecordSchema :=
  .mk none [.mk "sub" none (.record EmptyInner) (.record [])]

/-! Claim theorems. -/

/-- C3 counterexample: the claim quantifies over every schema built from the
supported types, but a schema with a field-less nested record — legal as a
Python dataclass — breaks the round trip: serialising `HasEmpty` emits the
bare header line `sub:` with no sub-entries, `yaml.safe_load` reads that key
back as `None` (`RawVal.null` here), and `gather_updates` then crashes
calling `.items()` on it, so `Load(Parse(Serialize(defaults)))` fails
instead of returning the defaults. -/
theorem c3_counterexample :
    genYaml HasEmpty = some "sub:\n"
      ∧ (genYaml HasEmpty).bind
          (fun doc => (loadStr (defaultsOf HasEmpty) HasEmpty doc).toOption)
        ≠ some (defaultsOf HasEmpty) := by
  refine ⟨rfl, ?_⟩
  intro h
  rw [show (genYaml HasEmpty).bind
      (fun doc => (loadStr (defaultsOf HasEmpty) HasEmpty doc).toOption)
    = none from rfl] at h
  exact Option.noConfusion h

/-- C3 as amended: for every WELL-FORMED schema — every record has at least
one field, field names are identifier-shaped and pairwise distinct,
record-typed fields default to their sub-schema's defaults instance, and
leaf defaults are well-typed at their declared type — loading the serialized
default document round-trips: `Load(Parse(Serialize(defaults(S), S)), S)`
is value-equal to `defaults(S)`. -/
theorem c3_roundtrip_wellformed (S : RecordSchema) (hg : goodSchema S = true) :
    (genYaml S).bind (fun doc => (loadStr (defaultsOf S) S doc).toOption)
      = some (defaultsOf S) := by
  obtain ⟨doc, hdoc, -, -, -⟩ := genYaml_struct S hg
  rw [hdoc]
  show (loadStr (defaultsOf S) S doc).toOption = some (defaultsOf S)
  rw [loadStr]
  rw [parseDoc_rt S hg doc hdoc]
  dsimp only
  rw [loadVal_rt S hg]
  all_goals rfl

/-- C3 witness: the nested test schema `RecursiveConfig` (two levels, with
string, int, list and tuple leaves) is well-formed, and its serialized
defaults document loads back to its defaults instance. -/
theorem c3_roundtrip_wellformed_witness :
    goodSchema RecursiveConfig = true
      ∧ (genYaml RecursiveConfig).bind
          (fun doc =>
            (loadStr (defaultsOf RecursiveConfig) RecursiveConfig doc).toOption)
        = some (defaultsOf RecursiveConfig) :=
  ⟨rfl, c3_roundtrip_wellformed RecursiveConfig rfl⟩

/-- C1: the claim says the wrapped application function receives the
persisted configuration with the explicitly passed CLI overrides merged in
(schema default → persisted document → explicit CLI flag).  In the code,
`decorated` calls `config.merge(params_overwritten_by_cli)` but discards the
returned config (a frozen dataclass method call with its result unused), so
with persisted document `name: Ana` and explicit CLI override `age = 5` the
application receives `age = -1` — the persisted tree unchanged — not `5`. -/
theorem c1_cli_overrides_discarded :
    decorated SmallConfig "name: Ana" [("age", .int 5)]
      = .ok (.record [("name", .str "Ana"), ("age", .int (-1))])
    ∧ lookupS [("name", Val.str "Ana"), ("age", Val.int (-1))] "age" ≠ some (Val.int 5) :=
  ⟨rfl, by decide⟩

/-- C2: the claim says fields not named in the overrides keep their value
from `tree`, so `Merge(tree, \x7b\x7d) == tree` for every tree.  The code
builds `kwargs` only from the named fields and calls `type(self)(**kwargs)`,
so every unnamed field is reset to its dataclass default: merging the empty
override set into `SmallConfig(name="Ana")` yields `name = "Joe"`, not
`name = "Ana"`. -/
theorem c2_merge_resets_unnamed_fields :
    mergeRecord SmallConfig (.record [("name", .str "Ana"), ("age", .int (-1))]) []
      = .ok (.record [("name", .str "Joe"), ("age", .int (-1))])
    ∧ Val.record [("name", .str "Joe"), ("age", .int (-1))]
        ≠ Val.record [("name", .str "Ana"), ("age", .int (-1))] :=
  ⟨rfl, by decide⟩

/-- C4 counterexample: serialising the `SmallConfig` defaults does not
produce the claimed document (annotation comment, `age: -1`, `name: Joe`):
the code emits the class docstring as a leading comment and keeps
declaration order, `name` before `age`. -/
theorem c4_counterexample :
    genYaml SmallConfig
      ≠ some "# Pass -1 if you don't want to tell\nage: -1\nname: Joe" := by
  decide

/-- C4 as amended: `Serialize` of the `SmallConfig` defaults produces
exactly the docstring comment line `# A small config`, then `name: Joe`,
then the annotation comment `# Pass -1 if you don't want to tell`, then
`age: -1` — fields in declaration order, `name` first (this is the
`EXPECTED` document of tests/test_config.py). -/
theorem c4_serialize_small_config :
    genYaml SmallConfig
      = some "# A small config\nname: Joe\n# Pass -1 if you don't want to tell\nage: -1" :=
  rfl

/-- C5 counterexample: merging an override set whose path `bogus` names no
field of `SmallConfig` does not fail — it returns the reconstructed tree,
silently ignoring the unknown path (no `UnknownOverridePathError` exists in
the code; `merge`'s docstring says it performs no validation of paths). -/
theorem c5_counterexample :
    mergeRecord SmallConfig (defaultsOf SmallConfig) [("bogus", Ov.leaf (.int 1))]
      = .ok (defaultsOf SmallConfig) := rfl

theorem lookupS_filter {α : Type} (values : List (String × α)) (P : String → Bool)
    (n : String) (hP : P n = true) :
    lookupS (values.filter (fun p => P p.1)) n = lookupS values n := by
  induction values with
  | nil => rfl
  | cons kv rest ih =>
      obtain ⟨k, v⟩ := kv
      by_cases hk : k = n
      · subst hk
        simp [List.filter_cons, hP, lookupS]
      · by_cases hPk : P k = true
        · simp [List.filter_cons, hPk, lookupS, hk, ih]
        · simp [List.filter_cons, hPk, lookupS, hk, ih]

theorem mergeFields_filter (fs : List FieldSchema) (allNames : List String) (self : Val)
    (values : OvMap) (hmem : ∀ f ∈ fs, allNames.contains f.name = true) :
    mergeFields fs self (values.filter (fun p => allNames.contains p.1))
      = mergeFields fs self values := by
  induction fs with
  | nil => rfl
  | cons f rest ih =>
      obtain ⟨fname, fdesc, fty, fdflt⟩ := f
      have hn : allNames.contains fname = true :=
        hmem _ (List.mem_cons_self _ _)
      rw [mergeFields, mergeFields, lookupS_filter values _ fname hn,
        ih (fun g hg => hmem g (List.mem_cons_of_mem _ hg))]

/-- C5 as amended: `Merge` performs no path validation at all — override
keys that do not name a field of the record are silently ignored (the result
is the same as merging only the entries whose key is a declared field name).
Unknown keys in raw data are rejected by `Load` instead, with the
unknown-field error. -/
theorem c5_merge_ignores_unknown_paths (S : RecordSchema) (self : Val) (values : OvMap) :
    mergeRecord S self (values.filter (fun p => (S.fields.map FieldSchema.name).contains p.1))
      = mergeRecord S self values := by
  obtain ⟨doc, fs⟩ := S
  rw [mergeRecord, mergeRecord]
  simp only [RecordSchema.fields]
  rw [mergeFields_filter fs (fs.map FieldSchema.name) self values]
  intro f hf
  simp only [List.contains_iff_exists_mem_beq]
  exact ⟨f.name, List.mem_map_of_mem _ hf, by simp⟩

/-- C6 counterexample: loading `\x7b"age": "xyz"\x7d` into `SmallConfig` fails
with the bare CPython constructor message, which contains the raw value and
the constructor name but neither the dotted path `age` nor any
`cannot convert X to type Y at path P` wrapper. -/
theorem c6_counterexample :
    loadVal (defaultsOf SmallConfig) SmallConfig (.map [("age", .str "xyz")])
      = .error ("invalid literal for int() with base 10: " ++ pyQuote "xyz")
    ∧ ¬("age".data <:+: ("invalid literal for int() with base 10: " ++ pyQuote "xyz").data)
    ∧ ¬("cannot convert".data <:+: ("invalid literal for int() with base 10: " ++ pyQuote "xyz").data) :=
  ⟨rfl, by decide, by decide⟩

/-- C6 as amended: a failing primitive coercion propagates the declared
type's constructor exception unwrapped — `gather_updates` applies
`expected_type(data)` with no try/except — so the error text is the same for
every dotted path and never mentions the path (for `int`, CPython's
`invalid literal for int() with base 10: '...'`, which does carry the raw
value and the constructor name). -/
theorem c6_conversion_error_lacks_path (path : List String) (b : Bool) (st : Upd)
    (s : String) (h : lexInt s.data = none) :
    gather path (.str s) .int b st
      = .error ("invalid literal for int() with base 10: " ++ pyQuote s) := by
  rw [gather, pyCoerce, pyInt, h] <;> (intro x hx; exact Ty.noConfusion hx)

theorem c6_conversion_error_lacks_path_witness :
    lexInt "xyz".data = none
    ∧ gather ["age"] (.str "xyz") .int false []
        = .error ("invalid literal for int() with base 10: " ++ pyQuote "xyz") :=
  ⟨rfl, c6_conversion_error_lacks_path ["age"] false [] "xyz" rfl⟩

/-- C7: raw data with a key that names no declared field is rejected.  At
the position of the unknown key the error is exactly the unknown-field
`ValueError` carrying the invalid dotted path and the comma-separated list
of valid field names; wherever the unknown key sits, loading fails; and in
particular `Load(\x7b"bogus": 1\x7d, SmallConfig)` fails naming `bogus` and
listing `name, age`. -/
theorem c7_unknown_field_rejection :
    (∀ (path : List String) (k : String) (v : RawVal) (rest : List (String × RawVal))
        (fs : List FieldSchema) (il : Bool) (st : Upd),
        findField fs k = none →
        gatherFields path ((k, v) :: rest) fs il st
          = .error ("Unknown field " ++ joinDot (path ++ [k]) ++ ". Valid fields are "
              ++ joinComma (fs.map (fun f => f.name))))
    ∧ (∀ (fs : List FieldSchema) (path : List String) (entries : List (String × RawVal))
        (k : String) (v : RawVal) (il : Bool) (st : Upd),
        (k, v) ∈ entries → findField fs k = none →
        ∃ e, gatherFields path entries fs il st = .error e)
    ∧ loadVal (defaultsOf SmallConfig) SmallConfig (.map [("bogus", .int 1)])
        = .error "Unknown field bogus. Valid fields are name, age" := by
  refine ⟨?_, ?_, rfl⟩
  · intro path k v rest fs il st h
    rw [gatherFields, h]
  · intro fs path entries
    induction entries with
    | nil => intro k v il st hmem; exact absurd hmem (List.not_mem_nil _)
    | cons e0 rest ih =>
        intro k v il st hmem hfind
        obtain ⟨k0, v0⟩ := e0
        rw [gatherFields]
        cases hf : findField fs k0 with
        | none => exact ⟨_, rfl⟩
        | some f =>
            dsimp only
            cases hg : gather (path ++ [k0]) v0 f.ty il st with
            | error e => exact ⟨e, rfl⟩
            | ok r =>
                obtain ⟨v1, st2⟩ := r
                dsimp only
                have hrest : (k, v) ∈ rest := by
                  rcases List.mem_cons.mp hmem with heq | hr
                  · exfalso
                    have : k0 = k := congrArg Prod.fst heq.symm
                    rw [this] at hf
                    rw [hf] at hfind
                    exact Option.noConfusion hfind
                  · exact hr
                obtain ⟨e, he⟩ := ih k v il st2 hrest hfind
                rw [he]
                exact ⟨e, rfl⟩

theorem c7_unknown_field_rejection_witness :
    findField SmallConfig.fields "bogus" = none
    ∧ ("bogus", RawVal.int 1) ∈ [("bogus", RawVal.int 1)]
    ∧ gatherFields [] [("bogus", RawVal.int 1)] SmallConfig.fields false []
        = .error "Unknown field bogus. Valid fields are name, age"
    ∧ (∃ e, gatherFields [] [("bogus", RawVal.int 1)] SmallConfig.fields false [] = .error e) :=
  ⟨rfl, List.mem_cons_self _ _,
    (c7_unknown_field_rejection.1 [] "bogus" (.int 1) [] SmallConfig.fields false [] rfl).trans
      (by rfl),
    c7_unknown_field_rejection.2.1 SmallConfig.fields [] [("bogus", RawVal.int 1)]
      "bogus" (.int 1) false [] (List.mem_cons_self _ _) rfl⟩

/-- C8: a fixed-arity tuple leaf rejects a raw sequence of the wrong length
with the arity error citing the declared size and the actual size; in
particular loading `rect: [1, 2, 3]` into `ConfigWithList` (whose `rect` is
a 2-tuple) fails citing expected size 2 and actual 3. -/
theorem c8_tuple_arity_check :
    (∀ (path : List String) (ts : List Ty) (ds : List RawVal) (il : Bool) (st : Upd),
        ds.length ≠ ts.length →
        gather path (.list ds) (.tuple ts) il st
          = .error ("Expected a tuple of size " ++ natRepr ts.length ++ " at "
              ++ joinDot path ++ ", got " ++ natRepr ds.length))
    ∧ loadVal (defaultsOf ConfigWithList) ConfigWithList
        (.map [("rect", .list [.int 1, .int 2, .int 3])])
        = .error "Expected a tuple of size 2 at rect, got 3" := by
  refine ⟨?_, rfl⟩
  intro path ts ds il st h
  rw [gather, if_neg h]

theorem c8_tuple_arity_check_witness :
    (3 : Nat) ≠ 2
    ∧ gather ["rect"] (.list [.int 1, .int 2, .int 3]) (.tuple [.int, .int]) false []
        = .error "Expected a tuple of size 2 at rect, got 3" :=
  ⟨by decide,
    (c8_tuple_arity_check.1 ["rect"] [.int, .int] [.int 1, .int 2, .int 3] false []
      (by decide)).trans (by rfl)⟩

/-- C9: `gather_updates` coerces a primitive leaf by applying the declared
type's constructor to the raw value directly, so a boolean leaf given any
non-empty raw string — including `"false"` — loads as `True` (CPython
truthiness), and no boolean-looking text is ever parsed at coercion time. -/
theorem c9_bool_constructor_coercion (s : String) (h : s ≠ "") :
    pyCoerce .bool (.str s) = .ok (.bool true)
    ∧ ∀ (path : List String) (st : Upd),
        gather path (.str s) .bool false st
          = .ok (.bool true, setFlat st path (.bool true)) := by
  have ht : pyTruthy (.str s) = true := by
    simp [pyTruthy, h]
  constructor
  · rw [pyCoerce, pyTruthy] at *
    simp [pyTruthy, h]
  · intro path st
    rw [gather, pyCoerce] <;> try (intro x hx; exact Ty.noConfusion hx)
    simp [pyTruthy, h]

theorem c9_bool_constructor_coercion_witness :
    ("false" : String) ≠ ""
    ∧ pyCoerce .bool (.str "false") = .ok (.bool true)
    ∧ gather ["restart"] (.str "false") .bool false []
        = .ok (.bool true, setFlat [] ["restart"] (.bool true)) := by
  refine ⟨by decide, (c9_bool_constructor_coercion "false" (by decide)).1, ?_⟩
  exact (c9_bool_constructor_coercion "false" (by decide)).2 ["restart"] []

/-- C10 counterexample: two rooms holding the same set of user records — two
distinct records sharing the username `x`, written under different user ids
— produce different response sequences depending on the file-system
iteration order, because Python's `sorted` is stable and breaks the username
tie by input order.  The response order therefore does reveal iteration
order when usernames collide. -/
theorem c10_counterexample :
    updateResponse [("u1", ⟨"x", 1, 0, none, none, 0⟩), ("u2", ⟨"x", 2, 0, none, none, 0⟩)]
      = [⟨"x", 1, 0, none, none, 0⟩, ⟨"x", 2, 0, none, none, 0⟩]
    ∧ updateResponse [("u2", ⟨"x", 2, 0, none, none, 0⟩), ("u1", ⟨"x", 1, 0, none, none, 0⟩)]
      = [⟨"x", 2, 0, none, none, 0⟩, ⟨"x", 1, 0, none, none, 0⟩]
    ∧ ([("u1", (⟨"x", 1, 0, none, none, 0⟩ : UserData)), ("u2", ⟨"x", 2, 0, none, none, 0⟩)].map
        Prod.snd).Perm
        ([("u2", (⟨"x", 2, 0, none, none, 0⟩ : UserData)), ("u1", ⟨"x", 1, 0, none, none, 0⟩)].map
          Prod.snd)
    ∧ ([⟨"x", 1, 0, none, none, 0⟩, ⟨"x", 2, 0, none, none, 0⟩] : List UserData)
      ≠ [⟨"x", 2, 0, none, none, 0⟩, ⟨"x", 1, 0, none, none, 0⟩] := by
  refine ⟨rfl, rfl, ?_, by decide⟩
  exact List.Perm.swap _ _ _

/-- C10 as amended: the endpoint always returns the records sorted by
username, and whenever the usernames in the room are pairwise distinct the
response is fully determined by the set of records — any two room states
holding the same records, in any iteration order, produce the identical
sorted sequence.  (With duplicate usernames the stable sort preserves
iteration order among the tied records, as the counterexample shows.) -/
theorem c10_sorted_response_canonical (l1 l2 : List (String × UserData))
    (hne : (l1.map Prod.snd).Pairwise (fun a b => a.username ≠ b.username))
    (hperm : (l1.map Prod.snd).Perm (l2.map Prod.snd)) :
    updateResponse l1 = updateResponse l2 := by
  have hsymm : ∀ {x y : UserData}, x.username ≠ y.username → y.username ≠ x.username :=
    fun h => h.symm
  have hne2 : (l2.map Prod.snd).Pairwise (fun a b => a.username ≠ b.username) :=
    (hperm.pairwise_iff hsymm).mp hne
  set a := l1.map Prod.snd with ha
  set b := l2.map Prod.snd with hb
  have hp1 : (pySortByUsername a).Perm (pySortByUsername b) :=
    ((pySort_perm a).trans hperm).trans (pySort_perm b).symm
  have hs1 : (pySortByUsername a).Pairwise leU := pySort_sorted a
  have hs2 : (pySortByUsername b).Pairwise leU := pySort_sorted b
  have hn1 : (pySortByUsername a).Pairwise (fun x y => x.username ≠ y.username) :=
    ((pySort_perm a).pairwise_iff hsymm).mpr hne
  have hn2 : (pySortByUsername b).Pairwise (fun x y => x.username ≠ y.username) :=
    ((pySort_perm b).pairwise_iff hsymm).mpr hne2
  haveI hanti : IsAntisymm UserData (fun x y => leU x y ∧ x.username ≠ y.username) := by
    constructor
    intro x y h1 h2
    exfalso
    apply h1.2
    have e := pyStrLe_antisymm _ _ h1.1 h2.1
    have := congrArg String.mk e
    simpa [string_eta] using this
  unfold updateResponse
  rw [← ha, ← hb]
  exact List.eq_of_perm_of_sorted hp1 (hs1.and hn1) (hs2.and hn2)

/-- C10 witness: two room states holding the same two records with the
distinct usernames `a` and `b`, in opposite iteration orders, get the
identical sorted response. -/
theorem c10_sorted_response_canonical_witness :
    (([("u1", (⟨"a", 1, 0, none, none, 0⟩ : UserData)),
       ("u2", ⟨"b", 2, 0, none, none, 0⟩)].map Prod.snd).Pairwise
        (fun x y => x.username ≠ y.username))
    ∧ (([("u1", (⟨"a", 1, 0, none, none, 0⟩ : UserData)),
         ("u2", ⟨"b", 2, 0, none, none, 0⟩)].map Prod.snd).Perm
        ([("u2", (⟨"b", 2, 0, none, none, 0⟩ : UserData)),
          ("u1", ⟨"a", 1, 0, none, none, 0⟩)].map Prod.snd))
    ∧ updateResponse [("u1", ⟨"a", 1, 0, none, none, 0⟩),
          ("u2", ⟨"b", 2, 0, none, none, 0⟩)]
      = updateResponse [("u2", ⟨"b", 2, 0, none, none, 0⟩),
          ("u1", ⟨"a", 1, 0, none, none, 0⟩)] :=
  ⟨by decide, List.Perm.swap _ _ _,
    c10_sorted_response_canonical
      [("u1", ⟨"a", 1, 0, none, none, 0⟩), ("u2", ⟨"b", 2, 0, none, none, 0⟩)]
      [("u2", ⟨"b", 2, 0, none, none, 0⟩), ("u1", ⟨"a", 1, 0, none, none, 0⟩)]
      (by decide) (List.Perm.swap _ _ _)⟩

end Pucoti
